import Mathlib

/-!
Verification development for the Fit My Way fitness-tracking application.

This file gives a shallow embedding of the parts of the code that the
checked properties talk about:

  * the tolerant JSON import pipeline (`cleanJSON`, `parseUniversalData`
    from `src/utils/importHelper.ts`),
  * the active-workout session state machine (`ActiveWorkout.tsx`),
  * the persistence layer (`services/db.ts`).

Modelling conventions:

  * JavaScript strings are modelled as `List Char`.
  * JSON numbers are modelled as exact decimals `JsDec` (mantissa and a
    power-of-ten denominator), not IEEE doubles; the claims under check
    never depend on floating-point rounding.
  * `crypto.randomUUID()` is modelled by a deterministic counter-based
    id supply, and `Date.now()` by the constant 0; the claims never
    depend on the concrete id or timestamp values.
  * exceptions are modelled with `Except String`.
-/

/-- Named character constants, used so that no backtick or quote literal
has to appear directly in the source of a definition. -/
def qtC : Char := Char.ofNat 34

def btickC : Char := Char.ofNat 96

def bslashC : Char := Char.ofNat 92

def aposC : Char := Char.ofNat 39

def smartLC : Char := Char.ofNat 8220

def smartRC : Char := Char.ofNat 8221

def smartlC : Char := Char.ofNat 8216

def smartrC : Char := Char.ofNat 8217

/-- The whitespace class used by the JavaScript regex class for spaces and
by String.trim (restricted to its ASCII members). -/
def jsWs (c : Char) : Bool :=
  c = ' ' || c = Char.ofNat 9 || c = Char.ofNat 10 || c = Char.ofNat 13 ||
  c = Char.ofNat 11 || c = Char.ofNat 12

/-- Whitespace accepted between tokens by JSON.parse (strict JSON). -/
def jsonWs (c : Char) : Bool :=
  c = ' ' || c = Char.ofNat 9 || c = Char.ofNat 10 || c = Char.ofNat 13

/-- JavaScript String.prototype.trim on character lists. -/
def jsTrim (s : List Char) : List Char :=
  ((s.dropWhile jsWs).reverse.dropWhile jsWs).reverse

/-- Exact decimal numbers: `m / 10 ^ d`.  This models the JSON numbers the
application manipulates (IEEE doubles in JavaScript; every number the
claims exercise is an exact small decimal). -/
structure JsDec where
  m : Int
  d : Nat
deriving DecidableEq, Repr

/-- Embed an integer. -/
def JsDec.ofInt (n : Int) : JsDec := ⟨n, 0⟩

instance : OfNat JsDec n := ⟨JsDec.ofInt n⟩

/-- Strict positivity of the represented rational. -/
def JsDec.pos (x : JsDec) : Bool := 0 < x.m

/-- The represented rational is zero (JavaScript falsiness for numbers). -/
def JsDec.isZero (x : JsDec) : Bool := x.m = 0

/-- Subtract one (used for countdown timers ticking once per second). -/
def JsDec.subOne (x : JsDec) : JsDec := ⟨x.m - (10 : Int) ^ x.d, x.d⟩

/-- ToLength conversion used by `Array.from({length: n})`: clamp negatives
to zero and truncate towards zero. -/
def JsDec.toLength (x : JsDec) : Nat :=
  if x.m ≤ 0 then 0 else (x.m / (10 : Int) ^ x.d).toNat

mutual
/-- JSON values, as produced by JSON.parse.  Arrays and objects use the
companion mutual inductives so that all functions can be defined by
plain structural recursion (which the kernel evaluates). -/
inductive Json where
  | null
  | bool (b : Bool)
  | num (v : JsDec)
  | str (s : String)
  | arr (xs : JsonArr)
  | obj (fs : JsonObj)
deriving DecidableEq, Repr

inductive JsonArr where
  | nil
  | cons (hd : Json) (tl : JsonArr)
deriving DecidableEq, Repr

inductive JsonObj where
  | nil
  | cons (k : String) (v : Json) (tl : JsonObj)
deriving DecidableEq, Repr
end

def JsonArr.toList : JsonArr → List Json
  | .nil => []
  | .cons x tl => x :: tl.toList

def JsonArr.ofList : List Json → JsonArr
  | [] => .nil
  | x :: tl => .cons x (JsonArr.ofList tl)

/-- Object field lookup (first binding; the parser keeps bindings
duplicate-free by replacing on re-insertion, matching JSON.parse's
last-occurrence-wins semantics). -/
def JsonObj.get : JsonObj → String → Option Json
  | .nil, _ => none
  | .cons k v tl, key => if k = key then some v else tl.get key

/-- Insert with replacement, so duplicate keys keep the last value as
JSON.parse does. -/
def JsonObj.set : JsonObj → String → Json → JsonObj
  | .nil, key, val => .cons key val .nil
  | .cons k v tl, key, val =>
      if k = key then .cons key val tl else .cons k v (tl.set key val)

def JsonObj.keyList : JsonObj → List String
  | .nil => []
  | .cons k _ tl => k :: tl.keyList

def JsonObj.remove : JsonObj → String → JsonObj
  | .nil, _ => .nil
  | .cons k v tl, key => if k = key then tl.remove key else .cons k v (tl.remove key)

/-- Prepend a member the way JavaScript object literals resolve duplicate
keys: the first occurrence fixes the position, the last occurrence fixes
the value. -/
def JsonObj.consKV (k : String) (v : Json) (tl : JsonObj) : JsonObj :=
  match tl.get k with
  | some v' => .cons k v' (tl.remove k)
  | none => .cons k v tl

/-- JavaScript truthiness of a JSON value. -/
def Json.truthy : Json → Bool
  | .null => false
  | .bool b => b
  | .num v => !v.isZero
  | .str s => s ≠ ""
  | .arr _ => true
  | .obj _ => true

/-- Truthiness of a possibly-undefined value (undefined is falsy). -/
def jsTruthy : Option Json → Bool
  | none => false
  | some j => j.truthy

/-- Property access `j.key` for non-null values: objects look the key up,
primitives and arrays give undefined. -/
def Json.getField : Json → String → Option Json
  | .obj fs, key => fs.get key
  | _, _ => none

/-- Property access; accessing a property of null throws a TypeError in
JavaScript, which the model surfaces as an error string. -/
def Json.getFieldE : Json → String → Except String (Option Json)
  | .null, _ => .error "TypeError: Cannot read properties of null"
  | j, key => .ok (j.getField key)

def Json.isArr : Json → Bool
  | .arr _ => true
  | _ => false

def jsIsArr (j : Option Json) : Bool :=
  match j with
  | some x => x.isArr
  | none => false

/-! ### A model of JSON.parse -/

def digitVal (c : Char) : Option Nat :=
  if '0' ≤ c ∧ c ≤ '9' then some (c.toNat - 48) else none

def hexVal (c : Char) : Option Nat :=
  if '0' ≤ c ∧ c ≤ '9' then some (c.toNat - 48)
  else if 'a' ≤ c ∧ c ≤ 'f' then some (c.toNat - 87)
  else if 'A' ≤ c ∧ c ≤ 'F' then some (c.toNat - 55)
  else none

def isDigit (c : Char) : Bool := (digitVal c).isSome

/-- Numeric value of a digit list (most significant first). -/
def digitsToNat : List Char → Nat
  | [] => 0
  | c :: tl => (digitVal c).getD 0 * 10 ^ tl.length + digitsToNat tl

/-- String-literal body: everything after the opening quote.  Returns the
decoded content and the input following the closing quote. -/
def pStrBody : Nat → List Char → Except String (List Char × List Char)
  | 0, _ => .error "Unexpected end of JSON input"
  | _ + 1, [] => .error "Unexpected end of JSON input"
  | fuel + 1, c :: rest =>
    if c = qtC then .ok ([], rest)
    else if c = bslashC then
      match rest with
      | [] => .error "Unexpected end of JSON input"
      | e :: rest2 =>
        if e = qtC ∨ e = bslashC ∨ e = '/' then do
          let (tl, rem) ← pStrBody fuel rest2
          .ok (e :: tl, rem)
        else if e = 'b' then do
          let (tl, rem) ← pStrBody fuel rest2
          .ok (Char.ofNat 8 :: tl, rem)
        else if e = 'f' then do
          let (tl, rem) ← pStrBody fuel rest2
          .ok (Char.ofNat 12 :: tl, rem)
        else if e = 'n' then do
          let (tl, rem) ← pStrBody fuel rest2
          .ok (Char.ofNat 10 :: tl, rem)
        else if e = 'r' then do
          let (tl, rem) ← pStrBody fuel rest2
          .ok (Char.ofNat 13 :: tl, rem)
        else if e = 't' then do
          let (tl, rem) ← pStrBody fuel rest2
          .ok (Char.ofNat 9 :: tl, rem)
        else if e = 'u' then
          match rest2 with
          | h1 :: h2 :: h3 :: h4 :: rest3 =>
            match hexVal h1, hexVal h2, hexVal h3, hexVal h4 with
            | some a, some b, some c, some d => do
              let (tl, rem) ← pStrBody fuel rest3
              .ok (Char.ofNat (((a * 16 + b) * 16 + c) * 16 + d) :: tl, rem)
            | _, _, _, _ => .error "Bad Unicode escape in JSON"
          | _ => .error "Unexpected end of JSON input"
        else .error "Bad escaped character in JSON"
    else if c.toNat < 32 then .error "Bad control character in JSON string"
    else do
      let (tl, rem) ← pStrBody fuel rest
      .ok (c :: tl, rem)

/-- Number literal, strict JSON grammar.  The exponent is folded into the
exact decimal representation. -/
def parseNum (s : List Char) : Except String (JsDec × List Char) :=
  let (neg, s1) :=
    match s with
    | c :: tl => if c = '-' then (true, tl) else (false, s)
    | [] => (false, s)
  let ids := s1.takeWhile isDigit
  let s2 := s1.dropWhile isDigit
  if ids = [] then .error "Unexpected token in JSON: bad number"
  else if ids.length > 1 ∧ ids.headI = '0' then
    .error "Unexpected token in JSON: leading zero"
  else
    let (fds, s3) :=
      match s2 with
      | c :: tl =>
        if c = '.' then (tl.takeWhile isDigit, tl.dropWhile isDigit)
        else ([], s2)
      | [] => ([], s2)
    if s2 ≠ [] ∧ s2.headI = '.' ∧ fds = [] then
      .error "Unexpected token in JSON: bad fraction"
    else
      let expPart : Except String (Int × List Char) :=
        match s3 with
        | c :: tl =>
          if c = 'e' ∨ c = 'E' then
            let (esign, tl2) :=
              match tl with
              | d :: tl' =>
                if d = '-' then ((-1 : Int), tl')
                else if d = '+' then ((1 : Int), tl')
                else ((1 : Int), tl)
              | [] => ((1 : Int), tl)
            let eds := tl2.takeWhile isDigit
            if eds = [] then .error "Unexpected token in JSON: bad exponent"
            else .ok (esign * digitsToNat eds, tl2.dropWhile isDigit)
          else .ok (0, s3)
        | [] => .ok (0, s3)
      match expPart with
      | .error e => .error e
      | .ok (ex, rest) =>
        let mant : Int := digitsToNat (ids ++ fds)
        let mant := if neg then -mant else mant
        let scale : Int := ex - fds.length
        if 0 ≤ scale then
          .ok (⟨mant * (10 : Int) ^ scale.toNat, 0⟩, rest)
        else
          .ok (⟨mant, (-scale).toNat⟩, rest)

def expectLit (lit : List Char) (s : List Char) : Except String (List Char) :=
  if lit.isPrefixOf s then .ok (s.drop lit.length)
  else .error "Unexpected token in JSON: bad literal"

mutual
/-- One JSON value (leading whitespace allowed); returns the remainder. -/
def parseValue : Nat → List Char → Except String (Json × List Char)
  | 0, _ => .error "JSON nesting too deep"
  | fuel + 1, s =>
    match s.dropWhile jsonWs with
    | [] => .error "Unexpected end of JSON input"
    | c :: rest =>
      if c = qtC then do
        let (cs, rem) ← pStrBody (rest.length + 1) rest
        .ok (.str (String.mk cs), rem)
      else if c = '[' then
        match rest.dropWhile jsonWs with
        | ']' :: rem => .ok (.arr .nil, rem)
        | _ => do
          let (xs, rem) ← parseElems fuel rest
          .ok (.arr xs, rem)
      else if c = '{' then
        match rest.dropWhile jsonWs with
        | '}' :: rem => .ok (.obj .nil, rem)
        | _ => do
          let (fs, rem) ← parseMembers fuel rest
          .ok (.obj fs, rem)
      else if c = 't' then do
        let rem ← expectLit ['r', 'u', 'e'] rest
        .ok (.bool true, rem)
      else if c = 'f' then do
        let rem ← expectLit ['a', 'l', 's', 'e'] rest
        .ok (.bool false, rem)
      else if c = 'n' then do
        let rem ← expectLit ['u', 'l', 'l'] rest
        .ok (.null, rem)
      else if c = '-' ∨ isDigit c then do
        let (v, rem) ← parseNum (c :: rest)
        .ok (.num v, rem)
      else .error ("Unexpected token " ++ String.mk [c] ++ " in JSON")

/-- Non-empty comma-separated element list, then the closing bracket. -/
def parseElems : Nat → List Char → Except String (JsonArr × List Char)
  | 0, _ => .error "JSON nesting too deep"
  | fuel + 1, s => do
    let (v, rem) ← parseValue fuel s
    match rem.dropWhile jsonWs with
    | ',' :: rem2 => do
      let (tl, rem3) ← parseElems fuel rem2
      .ok (.cons v tl, rem3)
    | ']' :: rem2 => .ok (.cons v .nil, rem2)
    | _ => .error "Expected comma or bracket in JSON array"

/-- Non-empty member list of an object, then the closing brace.  Duplicate
keys are resolved last-occurrence-wins, as JSON.parse does. -/
def parseMembers : Nat → List Char → Except String (JsonObj × List Char)
  | 0, _ => .error "JSON nesting too deep"
  | fuel + 1, s =>
    match s.dropWhile jsonWs with
    | [] => .error "Unexpected end of JSON input"
    | c :: rest =>
      if c = qtC then do
        let (key, rem) ← pStrBody (rest.length + 1) rest
        match rem.dropWhile jsonWs with
        | ':' :: rem2 => do
          let (v, rem3) ← parseValue fuel rem2
          match rem3.dropWhile jsonWs with
          | ',' :: rem4 => do
            let (tl, rem5) ← parseMembers fuel rem4
            .ok (JsonObj.consKV (String.mk key) v tl, rem5)
          | '}' :: rem4 => .ok (.cons (String.mk key) v .nil, rem4)
          | _ => .error "Expected comma or brace in JSON object"
        | _ => .error "Expected colon in JSON object"
      else .error "Expected property name in JSON object"
end

/-- JSON.parse on a whole string: one value, surrounded only by
whitespace. -/
def jsonParse (s : List Char) : Except String Json := do
  let (v, rem) ← parseValue (2 * s.length + 8) s
  match rem.dropWhile jsonWs with
  | [] => .ok v
  | c :: _ => .error ("Unexpected non-whitespace character " ++ String.mk [c] ++ " after JSON data")

/-! ### The cleanJSON pipeline (importHelper.ts)

`cleanJSON` is a chain of regex replacements:

    let clean = str.replace(fenceEdges, '').replace(anyFence, '').trim();
    clean = clean.replace(lineComment, '').replace(blockComment, '');
    clean = clean.replace(smartDouble, qt).replace(smartSingle, apos);
    clean = clean.replace(trailingComma, close);

Each replacement is modelled by a character-list function that follows the
left-to-right, non-overlapping scan of String.prototype.replace. -/

/-- Three backticks. -/
def fence3 : List Char := [btickC, btickC, btickC]

/-- The fence-with-language prefix (three backticks then the word json). -/
def fenceJson : List Char := fence3 ++ ['j', 's', 'o', 'n']

/-- First regex, prefix half: an anchored fence (optionally tagged json)
at the very start of the string. -/
def fenceHead (s : List Char) : List Char :=
  if fenceJson.isPrefixOf s then s.drop 7
  else if fence3.isPrefixOf s then s.drop 3
  else s

/-- First regex, suffix half: a fence at the very end of the string.  The
scan continues after the prefix match, so the suffix is looked for in what
remains. -/
def fenceTail (s : List Char) : List Char :=
  let r := s.reverse
  if fence3.isPrefixOf r then (r.drop 3).reverse else s

/-- Second regex: drop every remaining fence, leftmost first. -/
def removeTicks : List Char → List Char
  | c1 :: c2 :: c3 :: rest =>
    if c1 = btickC ∧ c2 = btickC ∧ c3 = btickC then removeTicks rest
    else c1 :: removeTicks (c2 :: c3 :: rest)
  | s => s

/-- Line comments: from the first occurrence of two slashes on each line
up to (but not including) the end of the line. -/
def lcAux : Bool → List Char → List Char
  | _, [] => []
  | true, c :: rest =>
    if c = Char.ofNat 10 then c :: lcAux false rest else lcAux true rest
  | false, c1 :: rest =>
    match rest with
    | c2 :: rest2 =>
      if c1 = '/' ∧ c2 = '/' then lcAux true rest2
      else c1 :: lcAux false (c2 :: rest2)
    | [] => [c1]

/-- The input after the first close-of-comment marker, if any. -/
def afterClose : List Char → Option (List Char)
  | c1 :: c2 :: rest =>
    if c1 = '*' ∧ c2 = '/' then some rest else afterClose (c2 :: rest)
  | _ => none

/-- Block comments, lazy match: each open marker paired with the nearest
close marker; an unclosed open marker stays (the regex then has no match
anywhere to its right either).  Fuel-driven so the kernel can evaluate. -/
def bcAux : Nat → List Char → List Char
  | 0, s => s
  | _ + 1, [] => []
  | fuel + 1, c1 :: rest =>
    match rest with
    | c2 :: rest2 =>
      if c1 = '/' ∧ c2 = '*' then
        match afterClose rest2 with
        | some rest3 => bcAux fuel rest3
        | none => c1 :: c2 :: bcAux fuel rest2
      else c1 :: bcAux fuel rest
    | [] => [c1]

/-- Smart-quote replacement (both double-quote regexes of cleanJSON). -/
def smartFix (s : List Char) : List Char :=
  s.map fun c =>
    if c = smartLC ∨ c = smartRC then qtC
    else if c = smartlC ∨ c = smartrC then aposC
    else c

/-- Lookahead for the trailing-comma regex: whitespace run followed by a
closing bracket. -/
def wsBr (s : List Char) : Option (List Char × Char × List Char) :=
  let ws := s.takeWhile jsWs
  match s.dropWhile jsWs with
  | b :: rest => if b = ']' ∨ b = '}' then some (ws, b, rest) else none
  | [] => none

/-- Trailing-comma removal: a comma followed by optional whitespace and a
closing bracket loses the comma; the scan resumes after the bracket. -/
def cfAux : Nat → List Char → List Char
  | 0, s => s
  | _ + 1, [] => []
  | fuel + 1, c :: rest =>
    if c = ',' then
      match wsBr rest with
      | some (ws, b, rest2) => ws ++ b :: cfAux fuel rest2
      | none => c :: cfAux fuel rest
    else c :: cfAux fuel rest

/-- The cleanJSON function of importHelper.ts. -/
def cleanJSON (s : List Char) : List Char :=
  let s1 := jsTrim (removeTicks (fenceTail (fenceHead s)))
  let s2 := bcAux s1.length (lcAux false s1)
  let s3 := smartFix s2
  cfAux s3.length s3

/-! ### Substring search and JavaScript coercions -/

/-- String.prototype.includes on character lists. -/
def hasSub (pat : List Char) : List Char → Bool
  | [] => pat.isPrefixOf ([] : List Char)
  | c :: tl => pat.isPrefixOf (c :: tl) || hasSub pat tl

def strIncl (s pat : String) : Bool := hasSub pat.data s.data

/-- Decimal digits of a natural number (fuel-driven so the kernel can
evaluate; fuel at least the number itself suffices). -/
def natDigitsAux : Nat → Nat → List Char
  | 0, n => [Char.ofNat (48 + n % 10)]
  | fuel + 1, n =>
    if n < 10 then [Char.ofNat (48 + n)]
    else natDigitsAux fuel (n / 10) ++ [Char.ofNat (48 + n % 10)]

def natDigits (n : Nat) : List Char := natDigitsAux n n

/-- Decimal rendering of a counter, as JavaScript template interpolation
produces. -/
def natRepr (n : Nat) : String := String.mk (natDigits n)

/-- Canonical decimal rendering of an exact decimal (used both for
String(number) coercion and for JSON serialisation in the model; the
claims never compare renderings of distinct representations). -/
def decRepr (v : JsDec) : String :=
  let sign := if v.m < 0 then "-" else ""
  let n := v.m.natAbs
  if v.d = 0 then sign ++ natRepr n
  else
    let ip := n / 10 ^ v.d
    let fp := n % 10 ^ v.d
    let fs := natRepr fp
    let pad := String.mk (List.replicate (v.d - fs.length) '0')
    sign ++ natRepr ip ++ "." ++ pad ++ fs

mutual
/-- JavaScript String() coercion. -/
def jsToString : Json → String
  | .null => "null"
  | .bool b => if b then "true" else "false"
  | .num v => decRepr v
  | .str s => s
  | .arr xs => jsArrToString xs
  | .obj _ => "[object Object]"

/-- Array.prototype.toString is join(',')... -/
def jsArrToString : JsonArr → String
  | .nil => ""
  | .cons x .nil => jsElemToString x
  | .cons x (.cons y tl) => jsElemToString x ++ "," ++ jsArrToString (.cons y tl)

/-- ...where null elements render as the empty string. -/
def jsElemToString : Json → String
  | .null => ""
  | .bool b => if b then "true" else "false"
  | .num v => decRepr v
  | .str s => s
  | .arr xs => jsArrToString xs
  | .obj _ => "[object Object]"
end

/-- JavaScript Number() on a string (the permissive numeric grammar:
optional sign, digits on either side of the point, optional exponent;
whole string after trimming). -/
def strToNumber (s : String) : Option JsDec :=
  let t := jsTrim s.data
  if t = [] then some (JsDec.ofInt 0)
  else
    let (neg, t1) :=
      match t with
      | c :: tl => if c = '-' then (true, tl) else if c = '+' then (false, tl) else (false, t)
      | [] => (false, t)
    let ids := t1.takeWhile isDigit
    let t2 := t1.dropWhile isDigit
    let (fds, t3) :=
      match t2 with
      | c :: tl => if c = '.' then (tl.takeWhile isDigit, tl.dropWhile isDigit) else ([], t2)
      | [] => ([], t2)
    if ids = [] ∧ fds = [] then none
    else
      let expPart : Option (Int × List Char) :=
        match t3 with
        | c :: tl =>
          if c = 'e' ∨ c = 'E' then
            let (esign, tl2) :=
              match tl with
              | d :: tl' =>
                if d = '-' then ((-1 : Int), tl')
                else if d = '+' then ((1 : Int), tl')
                else ((1 : Int), tl)
              | [] => ((1 : Int), tl)
            let eds := tl2.takeWhile isDigit
            if eds = [] then none
            else some (esign * digitsToNat eds, tl2.dropWhile isDigit)
          else some (0, t3)
        | [] => some (0, t3)
      match expPart with
      | none => none
      | some (ex, rest) =>
        if rest ≠ [] then none
        else
          let mant : Int := digitsToNat (ids ++ fds)
          let mant := if neg then -mant else mant
          let scale : Int := ex - fds.length
          if 0 ≤ scale then some ⟨mant * (10 : Int) ^ scale.toNat, 0⟩
          else some ⟨mant, (-scale).toNat⟩

/-- JavaScript Number() coercion; `none` models NaN (undefined, objects,
non-numeric strings). -/
def jsNumber : Option Json → Option JsDec
  | none => none
  | some .null => some (JsDec.ofInt 0)
  | some (.bool b) => some (JsDec.ofInt (if b then 1 else 0))
  | some (.num v) => some v
  | some (.str s) => strToNumber s
  | some (.arr xs) => strToNumber (jsArrToString xs)
  | some (.obj _) => none

/-- `Number(x) || d`: NaN and zero fall back to the default. -/
def jsOrNum (x : Option JsDec) (dflt : JsDec) : JsDec :=
  match x with
  | none => dflt
  | some v => if v.isZero then dflt else v

/-! ### The application data model (types.ts) -/

inductive SetType where
  | reps
  | time
deriving DecidableEq, Repr

structure ImageTransform where
  x : JsDec
  y : JsDec
  scale : JsDec
deriving DecidableEq, Repr

structure WorkoutSet where
  id : String
  type : SetType
  value : JsDec
  weight : JsDec
deriving DecidableEq, Repr

structure WorkoutExercise where
  id : String
  exerciseId : String
  sets : List WorkoutSet
  restTime : JsDec
  restAfterExercise : Option JsDec
deriving DecidableEq, Repr

structure Exercise where
  id : String
  name : String
  muscleGroups : List String
  imageUrl : Option String
  imageTransform : Option ImageTransform
  notes : Option String
  defaultWeight : Option JsDec
  defaultRepValue : Option JsDec
  defaultSetType : Option SetType
  defaultRestTime : Option JsDec
deriving DecidableEq, Repr

structure Workout where
  id : String
  name : String
  description : Option String
  coverImage : Option String
  coverTransform : Option ImageTransform
  exercises : List WorkoutExercise
  createdAt : Int
deriving DecidableEq, Repr

def MUSCLE_GROUPS : List String :=
  ["Chest", "Back", "Legs", "Shoulders", "Biceps", "Triceps", "Core",
   "Cardio", "Full Body", "Other"]

structure ActiveSessionState where
  id : String
  workoutId : String
  currentExIndex : Nat
  currentSetIndex : Nat
  timer : Nat
  startTime : Int
deriving DecidableEq, Repr

structure AppSettings where
  theme : String
  unit : String
  language : String
deriving DecidableEq, Repr

def identityTransform : ImageTransform :=
  ⟨JsDec.ofInt 0, JsDec.ofInt 0, JsDec.ofInt 1⟩

/-- The deterministic id supply standing in for crypto.randomUUID(). -/
def freshId (n : Nat) : String := "uuid-" ++ Nat.repr n

/-- JavaScript String.prototype.trim on strings. -/
def jsTrimS (s : String) : String := String.mk (jsTrim s.data)

/-- JavaScript String.prototype.toLowerCase (character-wise lowering; the
names the application compares are ASCII). -/
def jsToLower (s : String) : String := String.mk (s.data.map Char.toLower)

/-! ### parseUniversalData (importHelper.ts) -/

/-- The existingExMap: an association list with set-replace semantics
(JavaScript Map). -/
def exMapGet (m : List (String × Exercise)) (k : String) : Option Exercise :=
  match m with
  | [] => none
  | (k', e) :: tl => if k' = k then some e else exMapGet tl k

def exMapSet (m : List (String × Exercise)) (k : String) (e : Exercise) :
    List (String × Exercise) :=
  match m with
  | [] => [(k, e)]
  | (k', e') :: tl =>
    if k' = k then (k, e) :: tl else (k', e') :: exMapSet tl k e

/-- Mutable context threaded through parseUniversalData: the accumulated
new exercises, the set of processed (normalised) exercise names, the name
map, and the id-supply counter. -/
structure PState where
  newExercises : List Exercise
  processedExNames : List String
  exMap : List (String × Exercise)
  ctr : Nat
deriving DecidableEq, Repr

/-- Error text for property access on null (the one way the item loops
of parseUniversalData can throw a TypeError). -/
def nullFieldErr : String := "TypeError: Cannot read properties of null"

/-- The muscle-group sanitisation of createExercise: keep the string
entries that belong to MUSCLE_GROUPS. -/
def musclesOf (item : Json) : List String :=
  match item.getField "muscleGroups" with
  | some (.arr xs) =>
    xs.toList.filterMap fun j =>
      match j with
      | .str s => if MUSCLE_GROUPS.contains s then some s else none
      | _ => none
  | _ => []

/-- The createExercise closure of parseUniversalData.  Returns the fresh
exercise (or none for invalid or duplicate items) and the updated
context; the caller decides whether to push it.  All field reads are on
the same item, so the null TypeError is checked once up front. -/
def createExercise (item : Json) (st : PState) :
    Except String (Option Exercise × PState) :=
  if item = .null then .error nullFieldErr
  else
    let nf := item.getField "name"
    let rawName : Option String :=
      match nf with
      | some (.str s) => some s
      | some (.num v) => some (decRepr v)
      | _ => none
    if ¬ jsTruthy nf then .ok (none, st)
    else
      match rawName with
      | none => .ok (none, st)
      | some raw =>
        let name := jsTrimS raw
        let normName := jsToLower name
        if (exMapGet st.exMap normName).isSome then .ok (none, st)
        else if normName ∈ st.processedExNames then .ok (none, st)
        else
          let muscles := musclesOf item
          let iuF := item.getField "imageUrl"
          let ntF := item.getField "notes"
          let ex : Exercise :=
          { id := freshId st.ctr
            name := name
            muscleGroups := if muscles.length > 0 then muscles else ["Other"]
            imageUrl := match iuF with | some (.str s) => some s | _ => none
            imageTransform := some identityTransform
            notes := match ntF with | some (.str s) => some s | _ => none
            defaultWeight := some (JsDec.ofInt 0)
            defaultRepValue := some (JsDec.ofInt 10)
            defaultSetType := some .reps
            defaultRestTime := some (JsDec.ofInt 60) }
          .ok (some ex,
            { st with
              processedExNames := normName :: st.processedExNames
              exMap := exMapSet st.exMap normName ex
              ctr := st.ctr + 1 })

/-- rawExercises.forEach: create each exercise and push the survivors. -/
def processExercises (items : List Json) (st : PState) : Except String PState :=
  match items with
  | [] => .ok st
  | item :: rest => do
    let (optEx, st') ← createExercise item st
    let st'' :=
      match optEx with
      | some ex => { st' with newExercises := st'.newExercises ++ [ex] }
      | none => st'
    processExercises rest st''

/-- The isTaken closure: a workout name clashes (case-insensitively) with
an existing workout or one created earlier in this import. -/
def isTaken (existingWorkouts acc : List Workout) (n : String) : Bool :=
  let low := jsToLower n
  existingWorkouts.any (fun w => jsToLower w.name = low) ||
  acc.any (fun w => jsToLower w.name = low)

/-- The progressive-naming while loop: try base 2, base 3, ... -/
def chooseNameAux (taken : String → Bool) (base : String) :
    Nat → Nat → String
  | 0, k => base ++ " " ++ natRepr k
  | fuel + 1, k =>
    if taken (base ++ " " ++ natRepr k) then chooseNameAux taken base fuel (k + 1)
    else base ++ " " ++ natRepr k

/-- Workout duplicate handling: keep the name if free, otherwise append
the first free integer suffix starting from 2. -/
def chooseName (taken : String → Bool) (base : String) (fuel : Nat) : String :=
  if taken base then chooseNameAux taken base fuel 2 else base

/-- Array.from({length: n}).map of fresh workout sets. -/
def mkSets (n : Nat) (t : SetType) (v : JsDec) (ctr : Nat) :
    List WorkoutSet × Nat :=
  match n with
  | 0 => ([], ctr)
  | n + 1 =>
    let (tl, ctr') := mkSets n t v (ctr + 1)
    (⟨freshId ctr, t, v, JsDec.ofInt 0⟩ :: tl, ctr')

/-- The object literal the salvage strategy feeds back into
createExercise. -/
def salvageItem (exName : String) : Json :=
  .obj (.cons "name" (.str exName)
    (.cons "muscleGroups" (.arr (.cons (.str "Other") .nil)) .nil))

/-- Resolve one reference name: take the mapped exercise's id, or salvage
a fresh exercise (pushing it) and take its id. -/
def resolveRef (exName : String) (st : PState) :
    Option String × PState :=
  match exMapGet st.exMap (jsToLower exName) with
  | some ex => (some ex.id, st)
  | none =>
    match createExercise (salvageItem exName) st with
    | .ok (some newEx, st1) =>
      (some newEx.id,
        { st1 with
          newExercises := st1.newExercises ++ [newEx]
          exMap := exMapSet st1.exMap (jsToLower newEx.name) newEx })
    | .ok (none, st1) => (none, st1)
    | .error _ => (none, st)

/-- One exercise reference inside a workout: resolve or salvage the
exercise, then build the WorkoutExercise entry.  Returns the updated
context and entry list (unchanged when the reference is skipped). -/
def processRef (exItem : Json) (st : PState) (wxs : List WorkoutExercise) :
    Except String (PState × List WorkoutExercise) :=
  if exItem = .null then .error nullFieldErr
  else
    let nf := exItem.getField "name"
    if ¬ jsTruthy nf then .ok (st, wxs)
    else
      let exName := jsTrimS (jsToString (nf.getD .null))
      let (optId, st') := resolveRef exName st
      match optId with
      | none => .ok (st', wxs)
      | some exId =>
        let scF := exItem.getField "sets"
        let setCount := (jsOrNum (jsNumber scF) (JsDec.ofInt 3)).toLength
        let tyF := exItem.getField "type"
        let repsF := exItem.getField "reps"
        let setType : SetType :=
          if tyF = some (.str "time") then .time
          else if tyF = some (.str "reps") then .reps
          else
            match repsF with
            | some (.str s) =>
              if strIncl s "s" ∨ strIncl s "min" then .time else .reps
            | _ => .reps
        let valF := exItem.getField "value"
        let setValue : JsDec :=
          match valF with
          | some (.num v) => v
          | _ =>
            match repsF with
            | some (.num v) => v
            | some (.str s) =>
              let n := digitsToNat (s.data.filter isDigit)
              if n = 0 then JsDec.ofInt 10 else JsDec.ofInt n
            | _ => JsDec.ofInt 10
        let (sets, ctr') := mkSets setCount setType setValue st'.ctr
        let rbF := exItem.getField "restBetweenSets"
        let raF := exItem.getField "restAfterExercise"
        let wx : WorkoutExercise :=
          { id := freshId ctr'
            exerciseId := exId
            sets := sets
            restTime := jsOrNum (jsNumber rbF) (JsDec.ofInt 60)
            restAfterExercise := some (jsOrNum (jsNumber raF) (JsDec.ofInt 60)) }
        .ok ({ st' with ctr := ctr' + 1 }, wxs ++ [wx])

/-- item.exercises.forEach over the references of one workout. -/
def processRefs (items : List Json) (st : PState) (wxs : List WorkoutExercise) :
    Except String (PState × List WorkoutExercise) :=
  match items with
  | [] => .ok (st, wxs)
  | exItem :: rest => do
    let (st', wxs') ← processRef exItem st wxs
    processRefs rest st' wxs'

/-- rawWorkouts.forEach: skip unnamed items, resolve the duplicate-free
name, build the entries, and keep the workout only if it has at least one
entry. -/
def processWorkouts (items : List Json) (existingWorkouts : List Workout)
    (st : PState) (acc : List Workout) :
    Except String (PState × List Workout) :=
  match items with
  | [] => .ok (st, acc)
  | item :: rest =>
    if item = .null then .error nullFieldErr
    else
      match item.getField "name" with
      | some (.str s) =>
        if s = "" then processWorkouts rest existingWorkouts st acc
        else
          let base := jsTrimS s
          let taken := isTaken existingWorkouts acc
          let finalName := chooseName taken base (existingWorkouts.length + acc.length + 1)
          let refs : List Json :=
            match item.getField "exercises" with
            | some (.arr xs) => xs.toList
            | _ => []
          match processRefs refs st [] with
          | .error e => .error e
          | .ok (st', wxs) =>
            if wxs.length > 0 then
              let w : Workout :=
                { id := freshId st'.ctr
                  name := finalName
                  description := some (match item.getField "description" with
                    | some (.str d) => d | _ => "")
                  coverImage := some (match item.getField "coverImage" with
                    | some (.str c) => c | _ => "")
                  coverTransform := some identityTransform
                  exercises := wxs
                  createdAt := 0 }
              processWorkouts rest existingWorkouts
                { st' with ctr := st'.ctr + 1 } (acc ++ [w])
            else processWorkouts rest existingWorkouts st' acc
      | _ => processWorkouts rest existingWorkouts st acc

/-- Input text up to and including the last occurrence of `b`. -/
def lastCloseTake (b : Char) (s : List Char) : List Char :=
  (s.reverse.dropWhile (· ≠ b)).reverse

/-- The substring-extraction regex of the recovery path: the first
position opening a brace (with some closing brace later) or a bracket
(with some closing bracket later); the greedy body extends to the last
such closer. -/
def extractFirst : List Char → Option (List Char)
  | [] => none
  | c :: rest =>
    if c = '{' ∧ rest.contains '}' then some (c :: lastCloseTake '}' rest)
    else if c = '[' ∧ rest.contains ']' then some (c :: lastCloseTake ']' rest)
    else extractFirst rest

/-- The detailed error message built when all parse attempts failed,
classified from the original error's text. -/
def mkInvalidMsg (e : String) : String :=
  let msg :=
    if strIncl e "JSON" then "Invalid generation: Malformed JSON."
    else if strIncl e "Unexpected token" then
      "Invalid generation: Unexpected character or missing symbol."
    else "Invalid generation: Syntax error in JSON."
  msg ++ " Details: " ++ e

/-- JSON.parse plus the recovery strategies of parseUniversalData:
bracket completion when the trimmed text opens a bracket it does not
close, otherwise substring extraction; a failure of the attempted
strategy surfaces the classified error. -/
def parseWithRecovery (cleaned : List Char) : Except String Json :=
  match jsonParse cleaned with
  | .ok raw => .ok raw
  | .error e =>
    let t := jsTrim cleaned
    let attempt : Except String Json :=
      if t.head? = some '[' ∧ t.getLast? ≠ some ']' then
        jsonParse (cleaned ++ [']'])
      else if t.head? = some '{' ∧ t.getLast? ≠ some '}' then
        jsonParse (cleaned ++ ['}'])
      else
        match extractFirst cleaned with
        | some sub => jsonParse sub
        | none => .error e
    match attempt with
    | .ok raw => .ok raw
    | .error _ => .error (mkInvalidMsg e)

/-- The array-shape heuristic: items that look like workouts. -/
def filterWk (items : List Json) : Except String (List Json) :=
  match items with
  | [] => .ok []
  | i :: rest =>
    if i = .null then .error nullFieldErr
    else
      let keep :=
        jsTruthy (i.getField "name") && jsIsArr (i.getField "exercises")
      match filterWk rest with
      | .error e => .error e
      | .ok tl => .ok (if keep then i :: tl else tl)

/-- The array-shape heuristic: items that look like exercises. -/
def filterEx (items : List Json) : Except String (List Json) :=
  match items with
  | [] => .ok []
  | i :: rest =>
    if i = .null then .error nullFieldErr
    else
      let keep :=
        jsTruthy (i.getField "name") && !jsTruthy (i.getField "exercises") &&
        (jsTruthy (i.getField "muscleGroups") || jsTruthy (i.getField "imageUrl"))
      match filterEx rest with
      | .error e => .error e
      | .ok tl => .ok (if keep then i :: tl else tl)

/-- Structure normalisation: identify the raw exercise and workout lists
inside whatever shape the parsed value has.  The results are JSON values
because the single-element-wrapper branch can assign non-arrays, which
only fail later (forEach on a non-array throws). -/
def normalizeRaw (raw : Json) : Except String (Json × Json) :=
  match raw with
  | .arr xs => do
    let items := xs.toList
    let pw ← filterWk items
    let pe ← filterEx items
    let rWk : Json := if pw.length > 0 then .arr (JsonArr.ofList pw) else .arr .nil
    let rEx : Json := if pe.length > 0 then .arr (JsonArr.ofList pe) else .arr .nil
    match items with
    | [only] =>
      if only = .null then .error nullFieldErr
      else
        let exF := only.getField "exercises"
        let wkF := only.getField "workouts"
        if jsTruthy exF ∨ jsTruthy wkF then
          let rEx := match exF with | some j => if j.truthy then j else rEx | none => rEx
          let rWk := match wkF with | some j => if j.truthy then j else rWk | none => rWk
          .ok (rEx, rWk)
        else .ok (rEx, rWk)
    | _ => .ok (rEx, rWk)
  | .obj fs =>
    let exF := fs.get "exercises"
    let wkF := fs.get "workouts"
    let rEx : Json := if jsIsArr exF then exF.getD (.arr .nil) else .arr .nil
    let rWk : Json := if jsIsArr wkF then wkF.getD (.arr .nil) else .arr .nil
    if ¬ jsTruthy exF ∧ ¬ jsTruthy wkF then
      let mgF := fs.get "muscleGroups"
      if jsTruthy mgF then .ok (.arr (.cons raw .nil), rWk)
      else if jsTruthy exF then .ok (rEx, .arr (.cons raw .nil))
      else .ok (rEx, rWk)
    else .ok (rEx, rWk)
  | _ => .error "Invalid generation: Output is not a valid Object or Array."

/-- forEach over a value that the wrapper branch might have made a
non-array. -/
def asArray (j : Json) : Except String (List Json) :=
  match j with
  | .arr xs => .ok xs.toList
  | _ => .error "TypeError: forEach is not a function"

/-- The initial name map, seeded with the existing exercises under their
lower-cased, trimmed names. -/
def initExMap (existing : List Exercise) : List (String × Exercise) :=
  existing.foldl (fun m e => exMapSet m (jsTrimS (jsToLower e.name)) e) []

/-- parseUniversalData of importHelper.ts: tolerant cleaning, parsing
with recovery, structure normalisation, exercise creation with duplicate
skipping, workout creation with duplicate renaming and on-the-fly salvage
of missing referenced exercises. -/
def parseUniversalData (jsonString : String)
    (existingExercises : List Exercise)
    (existingWorkouts : List Workout) :
    Except String (List Exercise × List Workout) := do
  let cleaned := cleanJSON jsonString.data
  let raw ← parseWithRecovery cleaned
  let (rawExJ, rawWkJ) ← normalizeRaw raw
  let exItems ← asArray rawExJ
  let st0 : PState := ⟨[], [], initExMap existingExercises, 0⟩
  let st ← processExercises exItems st0
  let wkItems ← asArray rawWkJ
  let (st', newWorkouts) ← processWorkouts wkItems existingWorkouts st []
  if st'.newExercises.length = 0 ∧ newWorkouts.length = 0 then
    if exItems.length > 0 ∨ wkItems.length > 0 then
      if wkItems.length > 0 then
        .error "Invalid generation: Workouts found but failed to parse valid exercises within them."
      else .ok ([], [])
    else .error "Invalid generation: No valid exercises or workouts found in JSON."
  else .ok (st'.newExercises, newWorkouts)

/-! ### The active-workout session state machine (ActiveWorkout.tsx) -/

/-- completedSets: Record of set-index sets keyed by workout-exercise id. -/
def addCompleted (m : List (String × List Nat)) (k : String) (i : Nat) :
    List (String × List Nat) :=
  match m with
  | [] => [(k, [i])]
  | (k', s) :: tl =>
    if k' = k then (k, if i ∈ s then s else i :: s) :: tl
    else (k', s) :: addCompleted tl k i

/-- The component state of ActiveWorkout relevant to progression. -/
structure SessionState where
  currentExIndex : Nat
  currentSetIndex : Nat
  timer : Nat
  isTimerRunning : Bool
  restTimer : JsDec
  isResting : Bool
  afterExerciseRest : Bool
  setCountdown : Option JsDec
  isSetCountdownRunning : Bool
  showFinishConfirm : Bool
  lastCompletedSet : Option (String × Nat × Nat)
  completedSets : List (String × List Nat)
deriving DecidableEq, Repr

/-- The useState initial values. -/
def initialSessionState : SessionState :=
  ⟨0, 0, 0, true, JsDec.ofInt 0, false, false, none, false, false, none, []⟩

/-- `restAfterExercise || 0`. -/
def jsOrZero (x : Option JsDec) : JsDec := x.getD (JsDec.ofInt 0)

/-- The nextExercise handler: advance to the next exercise when one
exists, resetting the set index and ending any rest. -/
def nextExercise (w : Workout) (st : SessionState) : SessionState :=
  if st.currentExIndex < w.exercises.length - 1 then
    { st with
      currentExIndex := st.currentExIndex + 1
      currentSetIndex := 0
      isResting := false }
  else st

/-- The nextSet handler: log the completed set, then either advance the
set index (starting an inter-set rest when configured), start the
inter-exercise rest or move on after the last set of an exercise, or show
the finish confirmation after the very last set. -/
def nextSet (w : Workout) (st : SessionState) : SessionState :=
  match w.exercises.get? st.currentExIndex with
  | none => st
  | some wEx =>
    let totalSets := if wEx.sets.length = 0 then 1 else wEx.sets.length
    let st :=
      { st with
        completedSets := addCompleted st.completedSets wEx.id st.currentSetIndex
        lastCompletedSet := some (wEx.id, st.currentExIndex, st.currentSetIndex) }
    let isLastSetOfExercise := totalSets - 1 ≤ st.currentSetIndex
    let isLastExerciseOfWorkout := w.exercises.length - 1 ≤ st.currentExIndex
    if ¬ isLastSetOfExercise then
      let st := { st with currentSetIndex := st.currentSetIndex + 1 }
      if wEx.restTime.pos then
        { st with restTimer := wEx.restTime, isResting := true, afterExerciseRest := false }
      else st
    else if ¬ isLastExerciseOfWorkout then
      if (jsOrZero wEx.restAfterExercise).pos then
        { st with
          restTimer := jsOrZero wEx.restAfterExercise
          isResting := true
          afterExerciseRest := true }
      else nextExercise w st
    else { st with showFinishConfirm := true }

/-- The skip-rest handler. -/
def handleSkipRest (w : Workout) (st : SessionState) : SessionState :=
  let st1 := { st with isResting := false, lastCompletedSet := none }
  if st.afterExerciseRest then
    { nextExercise w st1 with afterExerciseRest := false }
  else st1

/-- One firing of the 1-second interval.  All conditions read the state
snapshot the interval closed over; the updates are written together. -/
def tick (w : Workout) (st : SessionState) : SessionState :=
  let s1 := if st.isTimerRunning then { st with timer := st.timer + 1 } else st
  let s2 :=
    if st.isResting then
      if st.restTimer.pos then { s1 with restTimer := st.restTimer.subOne }
      else
        let s := { s1 with isResting := false, lastCompletedSet := none }
        if st.afterExerciseRest then { nextExercise w s with afterExerciseRest := false }
        else s
    else s1
  let s3 :=
    match st.setCountdown with
    | some c =>
      if st.isSetCountdownRunning ∧ c.pos then { s2 with setCountdown := some c.subOne }
      else s2
    | none => s2
  match st.setCountdown with
  | some c =>
    if st.isSetCountdownRunning ∧ c.isZero then { s3 with isSetCountdownRunning := false }
    else s3
  | none => s3

/-! ### The persistence layer (services/db.ts)

Object stores are modelled as association lists keyed by the records'
id (the IndexedDB keyPath); put replaces in place or appends, getAll
returns the stored values. -/

def storeGet {α : Type} (m : List (String × α)) (k : String) : Option α :=
  match m with
  | [] => none
  | (k', v) :: tl => if k' = k then some v else storeGet tl k

def storePut {α : Type} (m : List (String × α)) (k : String) (v : α) :
    List (String × α) :=
  match m with
  | [] => [(k, v)]
  | (k', v') :: tl =>
    if k' = k then (k, v) :: tl else (k', v') :: storePut tl k v

def storeDel {α : Type} (m : List (String × α)) (k : String) :
    List (String × α) :=
  match m with
  | [] => []
  | (k', v') :: tl =>
    if k' = k then storeDel tl k else (k', v') :: storeDel tl k

/-- The whole database: exercises, workouts, settings and the
active-session store. -/
structure AppDB where
  exercises : List (String × Exercise)
  workouts : List (String × Workout)
  settings : Option AppSettings
  activeSession : List (String × ActiveSessionState)
deriving DecidableEq, Repr

def DEFAULT_SETTINGS : AppSettings := ⟨"dark", "kg", "en"⟩

def dbGetSettings (db : AppDB) : AppSettings := db.settings.getD DEFAULT_SETTINGS

def dbSaveSettings (db : AppDB) (s : AppSettings) : AppDB :=
  { db with settings := some s }

def dbGetExercises (db : AppDB) : List Exercise := db.exercises.map Prod.snd

def dbSaveExercise (db : AppDB) (e : Exercise) : AppDB :=
  { db with exercises := storePut db.exercises e.id e }

/-- The read-side sanitisation getWorkouts applies to every stored
workout: zero inter-set rests become 60, absent inter-exercise rests
become 60.  (The legacy numeric-sets conversion concerns records no
current code path can write and is outside the model.) -/
def sanitizeWorkout (w : Workout) : Workout :=
  { w with
    exercises := w.exercises.map fun e =>
      { e with
        restTime := if e.restTime.isZero then JsDec.ofInt 60 else e.restTime
        restAfterExercise := some (e.restAfterExercise.getD (JsDec.ofInt 60)) } }

def dbGetWorkouts (db : AppDB) : List Workout :=
  (db.workouts.map Prod.snd).map sanitizeWorkout

def dbSaveWorkout (db : AppDB) (w : Workout) : AppDB :=
  { db with workouts := storePut db.workouts w.id w }

def dbSaveActiveSession (db : AppDB) (s : ActiveSessionState) : AppDB :=
  { db with activeSession := storePut db.activeSession s.id s }

def dbGetActiveSession (db : AppDB) : Option ActiveSessionState :=
  storeGet db.activeSession "current"

def dbClearActiveSession (db : AppDB) : AppDB :=
  { db with activeSession := storeDel db.activeSession "current" }

/-- The init effect of ActiveWorkout: on resume, restore the stored
session when it belongs to the opened workout; otherwise clear any
stored session before the run begins. -/
def activeWorkoutInit (w : Workout) (resume : Bool) (db : AppDB) :
    SessionState × AppDB :=
  if resume then
    match dbGetActiveSession db with
    | some session =>
      if session.workoutId = w.id then
        ({ initialSessionState with
            currentExIndex := session.currentExIndex
            currentSetIndex := session.currentSetIndex
            timer := session.timer }, db)
      else (initialSessionState, db)
    | none => (initialSessionState, db)
  else (initialSessionState, dbClearActiveSession db)

/-! ### JSON serialisation (JSON.stringify) for export/import -/

def hexDigit (n : Nat) : Char :=
  if n < 10 then Char.ofNat (48 + n) else Char.ofNat (87 + n)

/-- JSON.stringify escaping of one string character. -/
def escapeChar (c : Char) : List Char :=
  if c = qtC then [bslashC, qtC]
  else if c = bslashC then [bslashC, bslashC]
  else if c.toNat = 8 then [bslashC, 'b']
  else if c.toNat = 12 then [bslashC, 'f']
  else if c.toNat = 10 then [bslashC, 'n']
  else if c.toNat = 13 then [bslashC, 'r']
  else if c.toNat = 9 then [bslashC, 't']
  else if c.toNat < 32 then
    [bslashC, 'u', '0', '0', hexDigit (c.toNat / 16), hexDigit (c.toNat % 16)]
  else [c]

def escapeStr : List Char → List Char
  | [] => []
  | c :: tl => escapeChar c ++ escapeStr tl

/-- The serialised keyword literals. -/
def litNull : List Char := ['n', 'u', 'l', 'l']

def litTrue : List Char := ['t', 'r', 'u', 'e']

def litFalse : List Char := ['f', 'a', 'l', 's', 'e']

mutual
/-- Compact JSON rendering, as JSON.stringify without spacing. -/
def renderJson : Json → List Char
  | .null => litNull
  | .bool true => litTrue
  | .bool false => litFalse
  | .num v => (decRepr v).data
  | .str s => qtC :: (escapeStr s.data ++ [qtC])
  | .arr xs => '[' :: (renderArr xs ++ [']'])
  | .obj fs => '{' :: (renderObj fs ++ ['}'])

def renderArr : JsonArr → List Char
  | .nil => []
  | .cons x .nil => renderJson x
  | .cons x (.cons y tl) => renderJson x ++ ',' :: renderArr (.cons y tl)

def renderObj : JsonObj → List Char
  | .nil => []
  | .cons k v .nil => qtC :: (escapeStr k.data ++ [qtC, ':']) ++ renderJson v
  | .cons k v (.cons k' v' tl) =>
    qtC :: (escapeStr k.data ++ [qtC, ':']) ++ renderJson v ++
      ',' :: renderObj (.cons k' v' tl)
end

def JsonObj.ofList : List (String × Json) → JsonObj
  | [] => .nil
  | (k, v) :: tl => .cons k v (JsonObj.ofList tl)

/-- Append an optional member, omitted when absent, the way
JSON.stringify drops undefined-valued properties. -/
def optField (k : String) (o : Option Json) (tl : JsonObj) : JsonObj :=
  match o with
  | some v => .cons k v tl
  | none => tl

/-! ### Record encoding/decoding for the export document -/

def encodeSetType : SetType → Json
  | .reps => .str "reps"
  | .time => .str "time"

def decodeSetType : Json → Option SetType
  | .str "reps" => some .reps
  | .str "time" => some .time
  | _ => none

def encodeTransform (t : ImageTransform) : Json :=
  .obj (.cons "x" (.num t.x) (.cons "y" (.num t.y)
    (.cons "scale" (.num t.scale) .nil)))

def decodeTransform (j : Json) : Option ImageTransform := do
  let x ← match j.getField "x" with | some (.num v) => some v | _ => none
  let y ← match j.getField "y" with | some (.num v) => some v | _ => none
  let sc ← match j.getField "scale" with | some (.num v) => some v | _ => none
  pure ⟨x, y, sc⟩

def encodeWorkoutSet (s : WorkoutSet) : Json :=
  .obj (.cons "id" (.str s.id) (.cons "type" (encodeSetType s.type)
    (.cons "value" (.num s.value) (.cons "weight" (.num s.weight) .nil))))

def decodeWorkoutSet (j : Json) : Option WorkoutSet := do
  let i ← match j.getField "id" with | some (.str s) => some s | _ => none
  let t ← (j.getField "type").bind decodeSetType
  let v ← match j.getField "value" with | some (.num v) => some v | _ => none
  let w ← match j.getField "weight" with | some (.num v) => some v | _ => none
  pure ⟨i, t, v, w⟩

def encodeWorkoutExercise (e : WorkoutExercise) : Json :=
  .obj (.cons "id" (.str e.id) (.cons "exerciseId" (.str e.exerciseId)
    (.cons "sets" (.arr (JsonArr.ofList (e.sets.map encodeWorkoutSet)))
    (.cons "restTime" (.num e.restTime)
    (optField "restAfterExercise" (e.restAfterExercise.map Json.num) .nil)))))

def decodeWorkoutExercise (j : Json) : Option WorkoutExercise := do
  let i ← match j.getField "id" with | some (.str s) => some s | _ => none
  let x ← match j.getField "exerciseId" with | some (.str s) => some s | _ => none
  let sets ← match j.getField "sets" with
    | some (.arr xs) => xs.toList.mapM decodeWorkoutSet
    | _ => none
  let rt ← match j.getField "restTime" with | some (.num v) => some v | _ => none
  let ra ← match j.getField "restAfterExercise" with
    | some (.num v) => some (some v)
    | none => some none
    | _ => none
  pure ⟨i, x, sets, rt, ra⟩

def encodeExercise (e : Exercise) : Json :=
  .obj (.cons "id" (.str e.id) (.cons "name" (.str e.name)
    (.cons "muscleGroups" (.arr (JsonArr.ofList (e.muscleGroups.map Json.str)))
    (optField "imageUrl" (e.imageUrl.map Json.str)
    (optField "imageTransform" (e.imageTransform.map encodeTransform)
    (optField "notes" (e.notes.map Json.str)
    (optField "defaultWeight" (e.defaultWeight.map Json.num)
    (optField "defaultRepValue" (e.defaultRepValue.map Json.num)
    (optField "defaultSetType" (e.defaultSetType.map encodeSetType)
    (optField "defaultRestTime" (e.defaultRestTime.map Json.num) .nil))))))))))

def decodeExercise (j : Json) : Option Exercise := do
  let i ← match j.getField "id" with | some (.str s) => some s | _ => none
  let n ← match j.getField "name" with | some (.str s) => some s | _ => none
  let mg ← match j.getField "muscleGroups" with
    | some (.arr xs) =>
      xs.toList.mapM fun x => match x with | .str s => some s | _ => none
    | _ => none
  let iu ← match j.getField "imageUrl" with
    | some (.str s) => some (some s) | none => some none | _ => none
  let it ← match j.getField "imageTransform" with
    | some t => (decodeTransform t).map some | none => some none
  let nt ← match j.getField "notes" with
    | some (.str s) => some (some s) | none => some none | _ => none
  let dw ← match j.getField "defaultWeight" with
    | some (.num v) => some (some v) | none => some none | _ => none
  let dr ← match j.getField "defaultRepValue" with
    | some (.num v) => some (some v) | none => some none | _ => none
  let dt ← match j.getField "defaultSetType" with
    | some t => (decodeSetType t).map some | none => some none
  let drt ← match j.getField "defaultRestTime" with
    | some (.num v) => some (some v) | none => some none | _ => none
  pure ⟨i, n, mg, iu, it, nt, dw, dr, dt, drt⟩

def encodeWorkout (w : Workout) : Json :=
  .obj (.cons "id" (.str w.id) (.cons "name" (.str w.name)
    (optField "description" (w.description.map Json.str)
    (optField "coverImage" (w.coverImage.map Json.str)
    (optField "coverTransform" (w.coverTransform.map encodeTransform)
    (.cons "exercises" (.arr (JsonArr.ofList (w.exercises.map encodeWorkoutExercise)))
    (.cons "createdAt" (.num (JsDec.ofInt w.createdAt)) .nil)))))))

def decodeWorkout (j : Json) : Option Workout := do
  let i ← match j.getField "id" with | some (.str s) => some s | _ => none
  let n ← match j.getField "name" with | some (.str s) => some s | _ => none
  let ds ← match j.getField "description" with
    | some (.str s) => some (some s) | none => some none | _ => none
  let ci ← match j.getField "coverImage" with
    | some (.str s) => some (some s) | none => some none | _ => none
  let ct ← match j.getField "coverTransform" with
    | some t => (decodeTransform t).map some | none => some none
  let exs ← match j.getField "exercises" with
    | some (.arr xs) => xs.toList.mapM decodeWorkoutExercise
    | _ => none
  let ca ← match j.getField "createdAt" with
    | some (.num v) => if v.d = 0 then some v.m else none
    | _ => none
  pure ⟨i, n, ds, ci, ct, exs, ca⟩

def encodeSettings (s : AppSettings) : Json :=
  .obj (.cons "theme" (.str s.theme) (.cons "unit" (.str s.unit)
    (.cons "language" (.str s.language) .nil)))

def decodeSettings (j : Json) : Option AppSettings := do
  let t ← match j.getField "theme" with | some (.str s) => some s | _ => none
  let u ← match j.getField "unit" with | some (.str s) => some s | _ => none
  let l ← match j.getField "language" with | some (.str s) => some s | _ => none
  pure ⟨t, u, l⟩

/-- db.exportData: one flat JSON document with exactly the keys
exercises, workouts, settings (workouts as observed through the
sanitising getWorkouts). -/
def exportData (db : AppDB) : String :=
  String.mk (renderJson (.obj (.cons "exercises"
    (.arr (JsonArr.ofList ((dbGetExercises db).map encodeExercise)))
    (.cons "workouts"
    (.arr (JsonArr.ofList ((dbGetWorkouts db).map encodeWorkout)))
    (.cons "settings" (encodeSettings (dbGetSettings db)) .nil)))))

/-- db.importData: parse the document and re-put every record under its
own id; settings are stored under the fixed settings key.  (The store is
typed in the model, so records are decoded on write; JavaScript would
store unrecognised shapes as-is, which no lemma here depends on.) -/
def importData (s : String) (db : AppDB) : Except String AppDB :=
  match jsonParse s.data with
  | .error _ => .error "Invalid data format"
  | .ok data =>
    let exF := data.getField "exercises"
    let wkF := data.getField "workouts"
    let stF := data.getField "settings"
    let step1 : Except String AppDB :=
      if jsTruthy exF then
        match exF with
        | some (.arr xs) =>
          match xs.toList.mapM decodeExercise with
          | some es => .ok (es.foldl dbSaveExercise db)
          | none => .error "Invalid data format"
        | _ => .error "Invalid data format"
      else .ok db
    match step1 with
    | .error e => .error e
    | .ok db1 =>
      let step2 : Except String AppDB :=
        if jsTruthy wkF then
          match wkF with
          | some (.arr xs) =>
            match xs.toList.mapM decodeWorkout with
            | some ws => .ok (ws.foldl dbSaveWorkout db1)
            | none => .error "Invalid data format"
          | _ => .error "Invalid data format"
        else .ok db1
      match step2 with
      | .error e => .error e
      | .ok db2 =>
        if jsTruthy stF then
          match stF.bind decodeSettings with
          | some st => .ok (dbSaveSettings db2 st)
          | none => .error "Invalid data format"
        else .ok db2

/-! ### Operation sequences against the active-session store (C6) -/

/-- The operations the application performs against the active_session
object store. -/
inductive SessionOp where
  | save (s : ActiveSessionState)
  | get
  | clear
deriving DecidableEq, Repr

def applySessionOp (db : AppDB) : SessionOp → AppDB
  | .save s => dbSaveActiveSession db s
  | .get => db
  | .clear => dbClearActiveSession db

def applySessionOps (db : AppDB) (ops : List SessionOp) : AppDB :=
  ops.foldl applySessionOp db

/-- Invariant: every record in the active_session store sits under the
key current. -/
def sessionKeysCurrent (db : AppDB) : Prop :=
  ∀ p ∈ db.activeSession, p.1 = "current"

lemma storePut_keys {α : Type} (m : List (String × α)) (k : String) (v : α)
    (h : ∀ p ∈ m, p.1 = k) : ∀ p ∈ storePut m k v, p.1 = k := by
  induction m with
  | nil => simp [storePut]
  | cons hd tl ih =>
    intro p hp
    simp only [storePut] at hp
    by_cases hk : hd.1 = k
    · simp [hk] at hp
      rcases hp with h1 | h1
      · simp [h1]
      · exact h p (by simp [h1])
    · simp [hk] at hp
      rcases hp with h1 | h1
      · exact h p (by simp [h1])
      · exact ih (fun q hq => h q (by simp [hq])) p h1

lemma storePut_len_le {α : Type} (m : List (String × α)) (k : String) (v : α)
    (h : ∀ p ∈ m, p.1 = k) : (storePut m k v).length ≤ max 1 m.length := by
  induction m with
  | nil => simp [storePut]
  | cons hd tl ih =>
    have hk : hd.1 = k := h hd (by simp)
    simp only [storePut, hk, if_pos]
    simp

lemma storeDel_sublist {α : Type} (m : List (String × α)) (k : String) :
    (storeDel m k).length ≤ m.length := by
  induction m with
  | nil => simp [storeDel]
  | cons hd tl ih =>
    by_cases hk : hd.1 = k <;> simp [storeDel, hk] <;> omega

lemma storeDel_keys {α : Type} (m : List (String × α)) (k k' : String)
    (h : ∀ p ∈ m, p.1 = k') : ∀ p ∈ storeDel m k, p.1 = k' := by
  induction m with
  | nil => simp [storeDel]
  | cons hd tl ih =>
    intro p hp
    by_cases hk : hd.1 = k
    · simp [storeDel, hk] at hp
      exact ih (fun q hq => h q (by simp [hq])) p hp
    · simp [storeDel, hk] at hp
      rcases hp with h1 | h1
      · exact h p (by simp [h1])
      · exact ih (fun q hq => h q (by simp [hq])) p h1

/-- Auxiliary invariant for C6: keys all current and at most one
record. -/
def sessionInv (db : AppDB) : Prop :=
  sessionKeysCurrent db ∧ db.activeSession.length ≤ 1

lemma sessionInv_step (db : AppDB) (op : SessionOp)
    (hop : ∀ s, op = SessionOp.save s → s.id = "current")
    (h : sessionInv db) : sessionInv (applySessionOp db op) := by
  rcases h with ⟨hkeys, hlen⟩
  cases op with
  | save s =>
    have hid : s.id = "current" := hop s rfl
    constructor
    · intro p hp
      have := storePut_keys db.activeSession s.id s ?_ p ?_
      · rw [← hid]; exact this
      · intro q hq; rw [hid]; exact hkeys q hq
      · simpa [applySessionOp, dbSaveActiveSession] using hp
    · have := storePut_len_le db.activeSession s.id s ?_
      · simp only [applySessionOp, dbSaveActiveSession]
        omega
      · intro q hq; rw [hid]; exact hkeys q hq
  | get => exact ⟨hkeys, hlen⟩
  | clear =>
    constructor
    · intro p hp
      exact storeDel_keys db.activeSession "current" "current" hkeys p
        (by simpa [applySessionOp, dbClearActiveSession] using hp)
    · have := storeDel_sublist db.activeSession "current"
      simp only [applySessionOp, dbClearActiveSession]
      omega

lemma sessionInv_ops (ops : List SessionOp) :
    ∀ db : AppDB, (∀ s, SessionOp.save s ∈ ops → s.id = "current") →
      sessionInv db → sessionInv (applySessionOps db ops) := by
  induction ops with
  | nil => intro db _ h; exact h
  | cons op tl ih =>
    intro db hops h
    have h1 : sessionInv (applySessionOp db op) :=
      sessionInv_step db op (fun s hs => hops s (by rw [hs]; exact List.mem_cons_self _ _) ) h
    have := ih (applySessionOp db op)
      (fun s hs => hops s (List.mem_cons_of_mem _ hs)) h1
    simpa [applySessionOps, List.foldl_cons] using this

/-- C6.  ActiveSessionState.id is typed as the literal current, every
save writes under that single key, get and clear address only that key,
so from an empty active_session store any sequence of save, get and
clear operations leaves at most one record in the store. -/
theorem activeSession_at_most_one (ops : List SessionOp)
    (exs : List (String × Exercise)) (wks : List (String × Workout))
    (st : Option AppSettings)
    (h : ∀ s, SessionOp.save s ∈ ops → s.id = "current") :
    (applySessionOps ⟨exs, wks, st, []⟩ ops).activeSession.length ≤ 1 ∧
    (dbGetActiveSession (applySessionOps ⟨exs, wks, st, []⟩ ops) = none ∨
      ∃ s, (applySessionOps ⟨exs, wks, st, []⟩ ops).activeSession = [("current", s)]) := by
  have hinv : sessionInv (applySessionOps ⟨exs, wks, st, []⟩ ops) :=
    sessionInv_ops ops _ h ⟨by intro p hp; simp at hp, by simp⟩
  rcases hinv with ⟨hkeys, hlen⟩
  refine ⟨hlen, ?_⟩
  match hm : (applySessionOps ⟨exs, wks, st, []⟩ ops).activeSession with
  | [] => left; simp [dbGetActiveSession, hm, storeGet]
  | [p] =>
    right
    have hcur := hkeys p (by rw [hm]; simp)
    refine ⟨p.2, ?_⟩
    cases p with | mk a b => simp at hcur; simp [hcur]
  | p :: q :: tl => rw [hm] at hlen; simp at hlen

/-- Witness for C6 at a concrete operation sequence. -/
theorem activeSession_at_most_one_witness :
    ((applySessionOps ⟨[], [], none, []⟩
      [SessionOp.save ⟨"current", "w1", 0, 0, 0, 0⟩, SessionOp.get,
       SessionOp.save ⟨"current", "w1", 1, 2, 30, 0⟩,
       SessionOp.clear,
       SessionOp.save ⟨"current", "w2", 0, 0, 0, 0⟩]).activeSession.length ≤ 1) := by
  have hcur : ∀ s : ActiveSessionState,
      SessionOp.save s ∈
        [SessionOp.save ⟨"current", "w1", 0, 0, 0, 0⟩, SessionOp.get,
         SessionOp.save ⟨"current", "w1", 1, 2, 30, 0⟩,
         SessionOp.clear,
         SessionOp.save ⟨"current", "w2", 0, 0, 0, 0⟩] → s.id = "current" := by
    intro s hs
    simp only [List.mem_cons, List.not_mem_nil, or_false] at hs
    rcases hs with h | h | h | h | h <;> cases h <;> rfl
  exact (activeSession_at_most_one _ [] [] none hcur).1

lemma storeGet_storeDel_self {α : Type} (m : List (String × α)) (k : String) :
    storeGet (storeDel m k) k = none := by
  induction m with
  | nil => simp [storeDel, storeGet]
  | cons hd tl ih =>
    by_cases hk : hd.1 = k
    · simpa [storeDel, hk] using ih
    · simp only [storeDel, if_neg hk, storeGet]
      exact ih

/-- C7.  The persisted active session is resumable: opened with
resume = true and a stored session belonging to this workout, the run
starts from the stored exercise index, set index and timer (and the
store is untouched); opened with resume = false, the stored session is
cleared before the run begins. -/
theorem activeWorkout_resume_behavior (w : Workout) (db : AppDB)
    (s : ActiveSessionState) :
    (dbGetActiveSession db = some s → s.workoutId = w.id →
      activeWorkoutInit w true db =
        ({ initialSessionState with
            currentExIndex := s.currentExIndex
            currentSetIndex := s.currentSetIndex
            timer := s.timer }, db)) ∧
    activeWorkoutInit w false db = (initialSessionState, dbClearActiveSession db) ∧
    dbGetActiveSession (dbClearActiveSession db) = none := by
  refine ⟨?_, ?_, ?_⟩
  · intro h1 h2
    simp [activeWorkoutInit, h1, h2]
  · simp [activeWorkoutInit]
  · simp [dbGetActiveSession, dbClearActiveSession]
    exact storeGet_storeDel_self db.activeSession "current"

/-- Witness for C7 at a concrete database and workout. -/
theorem activeWorkout_resume_behavior_witness :
    activeWorkoutInit
      ⟨"w1", "Legs", none, none, none, [], 0⟩ true
      ⟨[], [], none, [("current", ⟨"current", "w1", 1, 2, 30, 0⟩)]⟩ =
      ({ initialSessionState with
          currentExIndex := 1, currentSetIndex := 2, timer := 30 },
        ⟨[], [], none, [("current", ⟨"current", "w1", 1, 2, 30, 0⟩)]⟩) := by
  exact (activeWorkout_resume_behavior _ _ ⟨"current", "w1", 1, 2, 30, 0⟩).1
    (by rfl) (by rfl)

/-- C3.  Set completion in the active-session runner.  With the current
exercise in range and no rest showing: completing a non-final set
advances the set index and starts an inter-set rest exactly when
restTime is positive; completing the final set of a non-final exercise
starts the inter-exercise rest when restAfterExercise is positive (and
the rest expiring through a tick, or being skipped, lands on set 0 of
the next exercise), or moves immediately when it is not; completing the
final set of the final exercise shows the finish confirmation and moves
no index. -/
theorem nextSet_progression (w : Workout) (st : SessionState)
    (wEx : WorkoutExercise)
    (hEx : w.exercises.get? st.currentExIndex = some wEx)
    (hR : st.isResting = false) :
    (¬ ((if wEx.sets.length = 0 then 1 else wEx.sets.length) - 1 ≤ st.currentSetIndex) →
      (nextSet w st).currentSetIndex = st.currentSetIndex + 1 ∧
      (nextSet w st).currentExIndex = st.currentExIndex ∧
      (wEx.restTime.pos = true →
        (nextSet w st).isResting = true ∧
        (nextSet w st).restTimer = wEx.restTime ∧
        (nextSet w st).afterExerciseRest = false) ∧
      (wEx.restTime.pos = false → (nextSet w st).isResting = false)) ∧
    (((if wEx.sets.length = 0 then 1 else wEx.sets.length) - 1 ≤ st.currentSetIndex) →
      ¬ (w.exercises.length - 1 ≤ st.currentExIndex) →
      (((jsOrZero wEx.restAfterExercise).pos = true →
        (nextSet w st).isResting = true ∧
        (nextSet w st).restTimer = jsOrZero wEx.restAfterExercise ∧
        (nextSet w st).afterExerciseRest = true ∧
        (nextSet w st).currentExIndex = st.currentExIndex ∧
        (nextSet w st).currentSetIndex = st.currentSetIndex) ∧
      ((jsOrZero wEx.restAfterExercise).pos = false →
        (nextSet w st).currentExIndex = st.currentExIndex + 1 ∧
        (nextSet w st).currentSetIndex = 0))) ∧
    (((if wEx.sets.length = 0 then 1 else wEx.sets.length) - 1 ≤ st.currentSetIndex) →
      (w.exercises.length - 1 ≤ st.currentExIndex) →
      (nextSet w st).showFinishConfirm = true ∧
      (nextSet w st).currentExIndex = st.currentExIndex ∧
      (nextSet w st).currentSetIndex = st.currentSetIndex) ∧
    (∀ s' : SessionState, s'.isResting = true → s'.restTimer.pos = false →
      s'.afterExerciseRest = true →
      ¬ (w.exercises.length - 1 ≤ s'.currentExIndex) →
      (tick w s').currentExIndex = s'.currentExIndex + 1 ∧
      (tick w s').currentSetIndex = 0 ∧
      (tick w s').isResting = false) ∧
    (∀ s' : SessionState, s'.afterExerciseRest = true →
      ¬ (w.exercises.length - 1 ≤ s'.currentExIndex) →
      (handleSkipRest w s').currentExIndex = s'.currentExIndex + 1 ∧
      (handleSkipRest w s').currentSetIndex = 0 ∧
      (handleSkipRest w s').isResting = false) := by
  refine ⟨?_, ?_, ?_, ?_, ?_⟩
  · intro h1
    simp only [nextSet, hEx]
    rw [if_pos h1]
    refine ⟨?_, ?_, ?_, ?_⟩
    · by_cases hp : wEx.restTime.pos <;> simp [hp]
    · by_cases hp : wEx.restTime.pos <;> simp [hp]
    · intro hp; simp [hp]
    · intro hp; simp [hp, hR]
  · intro h1 h2
    simp only [nextSet, hEx]
    rw [if_neg (not_not_intro h1), if_pos h2]
    constructor
    · intro hp; simp [hp]
    · intro hp
      rw [if_neg (by simp [hp])]
      simp [nextExercise, Nat.lt_of_not_le h2]
  · intro h1 h2
    simp only [nextSet, hEx]
    rw [if_neg (not_not_intro h1), if_neg (not_not_intro h2)]
    simp
  · intro s' hrest hpos hafter hlast
    have hlt : s'.currentExIndex < w.exercises.length - 1 := Nat.lt_of_not_le hlast
    simp only [tick, hrest, hpos, hafter, Bool.false_eq_true, if_false, if_true]
    cases hc : s'.setCountdown with
    | none =>
      by_cases ht : s'.isTimerRunning <;>
        simp [ht, nextExercise, hlt]
    | some c =>
      by_cases ht : s'.isTimerRunning <;>
        by_cases hrun : s'.isSetCountdownRunning <;>
        by_cases hcp : c.pos <;>
        by_cases hcz : c.isZero <;>
        simp [ht, hrun, hcp, hcz, nextExercise, hlt]
  · intro s' hafter hlast
    have hlt : s'.currentExIndex < w.exercises.length - 1 := Nat.lt_of_not_le hlast
    simp [handleSkipRest, hafter, nextExercise, hlt]

def wsA : WorkoutSet := ⟨"s1", .reps, JsDec.ofInt 10, JsDec.ofInt 0⟩

def wxA : WorkoutExercise :=
  ⟨"wx1", "e1", [wsA, wsA], JsDec.ofInt 45, some (JsDec.ofInt 90)⟩

def wxB : WorkoutExercise :=
  ⟨"wx2", "e2", [wsA], JsDec.ofInt 30, some (JsDec.ofInt 0)⟩

def wDemo : Workout := ⟨"w1", "Demo", none, none, none, [wxA, wxB], 0⟩

/-- Witness for C3 at a concrete workout and state: completing set 0 of
exercise 0 advances to set 1 and starts the 45-second inter-set rest. -/
theorem nextSet_progression_witness :
    (nextSet wDemo initialSessionState).currentSetIndex = 1 ∧
    (nextSet wDemo initialSessionState).isResting = true ∧
    (nextSet wDemo initialSessionState).restTimer = JsDec.ofInt 45 := by
  have h := nextSet_progression wDemo initialSessionState wxA (by rfl) (by rfl)
  have h1 := h.1 (by decide)
  exact ⟨h1.1, (h1.2.2.1 (by decide)).1, (h1.2.2.1 (by decide)).2.1⟩

lemma musclesOf_subset (item : Json) : ∀ m ∈ musclesOf item, m ∈ MUSCLE_GROUPS := by
  intro m hm
  simp only [musclesOf] at hm
  split at hm
  · simp only [List.mem_filterMap] at hm
    obtain ⟨j, hj, hjm⟩ := hm
    split at hjm
    · split at hjm
      · simp only [Option.some.injEq] at hjm
        subst hjm
        simp_all
      · cases hjm
    · cases hjm
  · simp at hm

lemma createExercise_none_state (item : Json) (st : PState) (st' : PState)
    (h : createExercise item st = .ok (none, st')) : st' = st := by
  by_cases hn : item = .null
  · simp [createExercise, hn] at h
  · simp only [createExercise, if_neg hn] at h
    repeat' split at h
    all_goals simp_all

lemma createExercise_some_props (item : Json) (st : PState) (ex : Exercise)
    (st' : PState) (h : createExercise item st = .ok (some ex, st')) :
    ex.muscleGroups = (if (musclesOf item).length > 0 then musclesOf item else ["Other"]) ∧
    (∀ m ∈ ex.muscleGroups, m ∈ MUSCLE_GROUPS) ∧
    st'.newExercises = st.newExercises ∧
    st'.exMap = exMapSet st.exMap (jsToLower ex.name) ex ∧
    exMapGet st.exMap (jsToLower ex.name) = none ∧
    jsToLower ex.name ∉ st.processedExNames ∧
    st'.processedExNames = jsToLower ex.name :: st.processedExNames ∧
    ex.id = freshId st.ctr ∧ st'.ctr = st.ctr + 1 := by
  by_cases hn : item = .null
  · simp [createExercise, hn] at h
  · simp only [createExercise, if_neg hn] at h
    repeat' split at h
    all_goals
      simp only [Except.ok.injEq, Prod.mk.injEq, Option.some.injEq,
        reduceCtorEq, and_false, false_and] at h
    all_goals obtain ⟨hex, hst⟩ := h
    all_goals subst hex; subst hst
    all_goals
      refine ⟨?_, ?_, rfl, rfl, ?_, by assumption, rfl, rfl, rfl⟩
    all_goals
      first
        | (split <;> simp_all)
        | (intro m hm
           first
             | exact musclesOf_subset item m (by simpa using hm)
             | (simp only at hm; simp at hm; simp [hm, MUSCLE_GROUPS]))
        | exact Option.not_isSome_iff_eq_none.mp (by assumption)

lemma natDigitsAux_congr (n : Nat) : ∀ f1 f2, n ≤ f1 → n ≤ f2 →
    natDigitsAux f1 n = natDigitsAux f2 n := by
  induction n using Nat.strong_induction_on with
  | _ n ih =>
    intro f1 f2 h1 h2
    match f1, f2 with
    | 0, 0 => rfl
    | 0, g + 1 =>
      interval_cases n
      simp [natDigitsAux]
    | g + 1, 0 =>
      interval_cases n
      simp [natDigitsAux]
    | g1 + 1, g2 + 1 =>
      by_cases hn : n < 10
      · simp [natDigitsAux, hn]
      · simp only [natDigitsAux, if_neg hn]
        rw [ih (n / 10) (by omega) g1 g2 (by omega) (by omega)]

lemma digit_facts (d : Nat) (h : d < 10) :
    digitVal (Char.ofNat (48 + d)) = some d ∧
    Char.toLower (Char.ofNat (48 + d)) = Char.ofNat (48 + d) ∧
    isDigit (Char.ofNat (48 + d)) = true := by
  interval_cases d <;> refine ⟨by decide, by decide, by decide⟩

lemma natDigits_digits (n : Nat) :
    ∀ c ∈ natDigits n, isDigit c = true ∧ Char.toLower c = c := by
  suffices h : ∀ f, n ≤ f → ∀ c ∈ natDigitsAux f n, isDigit c = true ∧ Char.toLower c = c by
    exact h n le_rfl
  induction n using Nat.strong_induction_on with
  | _ n ih =>
    intro f hf c hc
    match f with
    | 0 =>
      interval_cases n
      all_goals simp [natDigitsAux] at hc
      all_goals subst hc
      all_goals exact ⟨by decide, by decide⟩
    | g + 1 =>
      by_cases hn : n < 10
      · simp [natDigitsAux, hn] at hc
        subst hc
        have := digit_facts n hn
        exact ⟨this.2.2, this.2.1⟩
      · simp only [natDigitsAux, if_neg hn, List.mem_append, List.mem_singleton] at hc
        rcases hc with hc | hc
        · exact ih (n / 10) (by omega) g (by omega) c hc
        · subst hc
          have := digit_facts (n % 10) (by omega)
          exact ⟨this.2.2, this.2.1⟩

lemma digitsToNat_append (a b : List Char) :
    digitsToNat (a ++ b) = digitsToNat a * 10 ^ b.length + digitsToNat b := by
  induction a with
  | nil => simp [digitsToNat]
  | cons c tl ih =>
    simp only [List.cons_append, digitsToNat]
    rw [List.append_eq, ih, List.length_append, pow_add]
    ring

lemma digitsToNat_natDigits (n : Nat) : digitsToNat (natDigits n) = n := by
  suffices h : ∀ f, n ≤ f → digitsToNat (natDigitsAux f n) = n by exact h n le_rfl
  induction n using Nat.strong_induction_on with
  | _ n ih =>
    intro f hf
    match f with
    | 0 =>
      interval_cases n
      simp [natDigitsAux, digitsToNat, digitVal]
    | g + 1 =>
      by_cases hn : n < 10
      · simp [natDigitsAux, hn, digitsToNat, (digit_facts n hn).1]
      · simp only [natDigitsAux, if_neg hn, digitsToNat_append]
        rw [ih (n / 10) (by omega) g (by omega)]
        simp [digitsToNat, (digit_facts (n % 10) (by omega)).1]
        omega

lemma natRepr_inj {a b : Nat} (h : natRepr a = natRepr b) : a = b := by
  have hd : natDigits a = natDigits b := congrArg String.data h
  have := digitsToNat_natDigits a
  rw [hd, digitsToNat_natDigits] at this
  omega

lemma jsToLower_append (a b : String) :
    jsToLower (a ++ b) = jsToLower a ++ jsToLower b := by
  simp only [jsToLower]
  cases a with | mk la =>
  cases b with | mk lb =>
  show String.mk (((String.mk la) ++ (String.mk lb)).data.map Char.toLower) = _
  have : (String.mk la ++ String.mk lb) = String.mk (la ++ lb) := rfl
  rw [this]
  show String.mk ((la ++ lb).map Char.toLower) = _
  rw [List.map_append]
  rfl

lemma map_toLower_id (l : List Char) (h : ∀ c ∈ l, Char.toLower c = c) :
    l.map Char.toLower = l := by
  induction l with
  | nil => rfl
  | cons c tl ih =>
    simp only [List.map_cons, h c (by simp)]
    rw [ih fun x hx => h x (by simp [hx])]

/-- Lowering a candidate name leaves the numeric suffix intact. -/
lemma jsToLower_candidate (base : String) (k : Nat) :
    jsToLower (base ++ " " ++ natRepr k) =
      jsToLower base ++ " " ++ natRepr k := by
  rw [jsToLower_append, jsToLower_append]
  have h1 : jsToLower " " = " " := by decide
  have h2 : jsToLower (natRepr k) = natRepr k := by
    simp only [jsToLower, natRepr]
    congr 1
    exact map_toLower_id _ fun c hc => (natDigits_digits k c hc).2
  rw [h1, h2]

/-- Distinct suffixed candidates stay distinct after lowering. -/
lemma candidate_lower_inj (base : String) {j k : Nat}
    (h : jsToLower (base ++ " " ++ natRepr j) = jsToLower (base ++ " " ++ natRepr k)) :
    j = k := by
  rw [jsToLower_candidate, jsToLower_candidate] at h
  have hdata := congrArg String.data h
  simp only [String.data_append, List.append_assoc] at hdata
  have h2 := List.append_cancel_left hdata
  have h3 := List.append_cancel_left h2
  apply natRepr_inj
  have : (natRepr j).data = (natRepr k).data := h3
  cases hj : natRepr j with | mk lj =>
  cases hk : natRepr k with | mk lk =>
  rw [hj, hk] at this
  simp only [] at this
  exact congrArg String.mk this

/-- isTaken is membership of the lowered name among the lowered existing
and accumulated workout names. -/
lemma isTaken_iff (existW acc : List Workout) (n : String) :
    isTaken existW acc n = true ↔
      jsToLower n ∈ (existW.map fun w => jsToLower w.name) ++
        (acc.map fun w => jsToLower w.name) := by
  simp [isTaken, List.any_eq_true]

/-- Pigeonhole: among existW.length + acc.length + 1 consecutive numeric
suffixes, some candidate name is free. -/
lemma exists_free_candidate (existW acc : List Workout) (base : String) :
    ∃ j, 2 ≤ j ∧ j < 2 + (existW.length + acc.length + 1) ∧
      isTaken existW acc (base ++ " " ++ natRepr j) = false := by
  by_contra hall
  push_neg at hall
  have htaken : ∀ j, 2 ≤ j → j < 2 + (existW.length + acc.length + 1) →
      isTaken existW acc (base ++ " " ++ natRepr j) = true := by
    intro j h1 h2
    have := hall j h1 h2
    simpa using this
  set L := (existW.map fun w => jsToLower w.name) ++
    (acc.map fun w => jsToLower w.name) with hL
  set N := existW.length + acc.length with hN
  set cand : Nat → String := fun j => jsToLower (base ++ " " ++ natRepr j) with hcand
  have hmem : ∀ j ∈ List.range' 2 (N + 1), cand j ∈ L := by
    intro j hj
    simp only [List.mem_range'_1] at hj
    exact (isTaken_iff existW acc _).mp (htaken j hj.1 (by omega))
  have hnodup : ((List.range' 2 (N + 1)).map cand).Nodup := by
    refine List.Nodup.map_on ?_ (List.nodup_range' ..)
    intro a _ b _ hab
    exact candidate_lower_inj base hab
  have hsub : ((List.range' 2 (N + 1)).map cand) ⊆ L := by
    intro x hx
    simp only [List.mem_map] at hx
    obtain ⟨j, hj, rfl⟩ := hx
    exact hmem j hj
  have hcard1 : ((List.range' 2 (N + 1)).map cand).toFinset.card = N + 1 := by
    rw [List.toFinset_card_of_nodup hnodup]
    simp
  have hcard2 : ((List.range' 2 (N + 1)).map cand).toFinset.card ≤ L.length := by
    calc ((List.range' 2 (N + 1)).map cand).toFinset.card
        ≤ L.toFinset.card := Finset.card_le_card (by
          intro x hx
          simp only [List.mem_toFinset] at hx ⊢
          exact hsub hx)
      _ ≤ L.length := List.toFinset_card_le L
  have hlen : L.length = N := by simp [hL, hN]
  omega

/-- The while loop of the progressive-naming strategy finds the least
free suffix, provided one exists within its fuel. -/
lemma chooseNameAux_spec (taken : String → Bool) (base : String) :
    ∀ fuel k, (∃ j, k ≤ j ∧ j < k + fuel + 1 ∧ taken (base ++ " " ++ natRepr j) = false) →
    ∃ j, k ≤ j ∧ chooseNameAux taken base fuel k = base ++ " " ++ natRepr j ∧
      taken (base ++ " " ++ natRepr j) = false ∧
      ∀ i, k ≤ i → i < j → taken (base ++ " " ++ natRepr i) = true := by
  intro fuel
  induction fuel with
  | zero =>
    intro k hex
    obtain ⟨j, h1, h2, h3⟩ := hex
    have : j = k := by omega
    subst this
    exact ⟨j, le_rfl, rfl, h3, by omega⟩
  | succ f ih =>
    intro k hex
    by_cases hk : taken (base ++ " " ++ natRepr k) = true
    · have hex' : ∃ j, k + 1 ≤ j ∧ j < (k + 1) + f + 1 ∧
          taken (base ++ " " ++ natRepr j) = false := by
        obtain ⟨j, h1, h2, h3⟩ := hex
        refine ⟨j, ?_, by omega, h3⟩
        rcases Nat.eq_or_lt_of_le h1 with h | h
        · subst h; rw [hk] at h3; cases h3
        · omega
      obtain ⟨j, h1, h2, h3, h4⟩ := ih (k + 1) hex'
      refine ⟨j, by omega, ?_, h3, ?_⟩
      · simpa [chooseNameAux, hk] using h2
      · intro i hi1 hi2
        rcases Nat.eq_or_lt_of_le hi1 with h | h
        · subst h; exact hk
        · exact h4 i (by omega) hi2
    · refine ⟨k, le_rfl, ?_, by simpa using hk, by omega⟩
      simp [chooseNameAux, hk]

/-- The workout-name resolution: keep a free base name; otherwise append
the smallest free integer suffix, counted from 2.  The fuel the caller
passes always suffices by the pigeonhole argument. -/
lemma chooseName_spec (existW acc : List Workout) (base : String) :
    (isTaken existW acc base = false →
      chooseName (isTaken existW acc) base (existW.length + acc.length + 1) = base) ∧
    (isTaken existW acc base = true →
      ∃ k, 2 ≤ k ∧
        chooseName (isTaken existW acc) base (existW.length + acc.length + 1) =
          base ++ " " ++ natRepr k ∧
        isTaken existW acc (base ++ " " ++ natRepr k) = false ∧
        ∀ i, 2 ≤ i → i < k → isTaken existW acc (base ++ " " ++ natRepr i) = true) := by
  constructor
  · intro h
    simp [chooseName, h]
  · intro h
    obtain ⟨j, h1, h2, h3⟩ := exists_free_candidate existW acc base
    have hex : ∃ j, 2 ≤ j ∧ j < 2 + (existW.length + acc.length + 1) + 1 ∧
        isTaken existW acc (base ++ " " ++ natRepr j) = false :=
      ⟨j, h1, by omega, h3⟩
    obtain ⟨k, hk1, hk2, hk3, hk4⟩ :=
      chooseNameAux_spec (isTaken existW acc) base (existW.length + acc.length + 1) 2
        (by obtain ⟨j, a, b, c⟩ := hex; exact ⟨j, a, by omega, c⟩)
    refine ⟨k, hk1, ?_, hk3, fun i hi1 hi2 => hk4 i hi1 hi2⟩
    simp [chooseName, h, hk2]

lemma exMapGet_set_self (m : List (String × Exercise)) (k : String) (v : Exercise) :
    exMapGet (exMapSet m k v) k = some v := by
  induction m with
  | nil => simp [exMapSet, exMapGet]
  | cons hd tl ih =>
    by_cases hk : hd.1 = k
    · simp [exMapSet, hk, exMapGet]
    · simp [exMapSet, hk, exMapGet, ih]

lemma exMapGet_set_other (m : List (String × Exercise)) (k k' : String) (v : Exercise)
    (h : k' ≠ k) : exMapGet (exMapSet m k v) k' = exMapGet m k' := by
  have h2 : ¬ (k = k') := fun he => h he.symm
  induction m with
  | nil => simp [exMapSet, exMapGet, h2]
  | cons hd tl ih =>
    by_cases hk : hd.1 = k
    · subst hk
      simp [exMapSet, exMapGet, h2]
    · simp only [exMapSet, if_neg hk, exMapGet]
      by_cases hk' : hd.1 = k' <;> simp [hk', ih]

lemma exMapSet_set_same (m : List (String × Exercise)) (k : String) (v : Exercise) :
    exMapSet (exMapSet m k v) k v = exMapSet m k v := by
  induction m with
  | nil => simp [exMapSet]
  | cons hd tl ih =>
    by_cases hk : hd.1 = k
    · simp [exMapSet, hk]
    · simp [exMapSet, hk, ih]

/-- Exercises produced by the import have a non-empty muscle list drawn
from the fixed catalogue. -/
def muscleWF (e : Exercise) : Prop :=
  e.muscleGroups ≠ [] ∧ ∀ m ∈ e.muscleGroups, m ∈ MUSCLE_GROUPS

/-- The invariant threaded through parseUniversalData's processing
phase. -/
def stInv (existing : List Exercise) (st : PState) : Prop :=
  (∀ k e, exMapGet st.exMap k = some e → e ∈ existing ∨ e ∈ st.newExercises) ∧
  (∀ e ∈ st.newExercises, muscleWF e) ∧
  (∀ e ∈ st.newExercises, exMapGet (initExMap existing) (jsToLower e.name) = none) ∧
  (st.newExercises.map fun e => jsToLower e.name).Nodup ∧
  (∀ e ∈ st.newExercises, (exMapGet st.exMap (jsToLower e.name)).isSome = true) ∧
  (∀ k, (exMapGet (initExMap existing) k).isSome = true →
    (exMapGet st.exMap k).isSome = true)

lemma initExMap_values (existing : List Exercise) :
    ∀ k e, exMapGet (initExMap existing) k = some e → e ∈ existing := by
  suffices h : ∀ (l : List Exercise) (m : List (String × Exercise)),
      (∀ k e, exMapGet m k = some e → e ∈ existing) → (∀ x ∈ l, x ∈ existing) →
      ∀ k e, exMapGet (l.foldl (fun m e => exMapSet m (jsTrimS (jsToLower e.name)) e) m) k = some e →
        e ∈ existing by
    intro k e hk
    exact h existing [] (by intro k e he; simp [exMapGet] at he) (fun x hx => hx) k e hk
  intro l
  induction l with
  | nil => intro m hm _ k e hk; exact hm k e hk
  | cons x tl ih =>
    intro m hm hl k e hk
    simp only [List.foldl_cons] at hk
    refine ih _ ?_ (fun y hy => hl y (by simp [hy])) k e hk
    intro k' e' he'
    by_cases hkx : k' = jsTrimS (jsToLower x.name)
    · subst hkx
      rw [exMapGet_set_self] at he'
      obtain rfl := Option.some.injEq .. ▸ he'
      exact hl x (by simp)
    · rw [exMapGet_set_other _ _ _ _ hkx] at he'
      exact hm k' e' he'

lemma stInv_init (existing : List Exercise) :
    stInv existing ⟨[], [], initExMap existing, 0⟩ := by
  refine ⟨?_, ?_, ?_, ?_, ?_, ?_⟩
  · intro k e hk
    exact Or.inl (initExMap_values existing k e hk)
  · simp
  · simp
  · simp
  · simp
  · intro k h; exact h

/-- Pushing the exercise createExercise just made preserves the
invariant. -/
lemma stInv_create_push (existing : List Exercise) (item : Json) (st : PState)
    (ex : Exercise) (st' : PState)
    (h : createExercise item st = .ok (some ex, st'))
    (hinv : stInv existing st) :
    stInv existing { st' with newExercises := st'.newExercises ++ [ex] } := by
  obtain ⟨hmg, hmgwf, hnew, hmap, hnone, hproc, hprocs, hid, hctr⟩ :=
    createExercise_some_props item st ex st' h
  obtain ⟨i1, i2, i3, i4, i5, i6⟩ := hinv
  refine ⟨?_, ?_, ?_, ?_, ?_, ?_⟩
  · intro k e hk
    simp only [hnew] at *
    rw [hmap] at hk
    by_cases hkk : k = jsToLower ex.name
    · subst hkk
      rw [exMapGet_set_self] at hk
      obtain rfl := Option.some.injEq .. ▸ hk
      simp
    · rw [exMapGet_set_other _ _ _ _ hkk] at hk
      rcases i1 k e hk with h | h
      · exact Or.inl h
      · exact Or.inr (by simp [h])
  · intro e he
    simp only [hnew, List.mem_append, List.mem_singleton] at he
    rcases he with he | he
    · exact i2 e he
    · subst he
      constructor
      · rw [hmg]
        split
        · intro hemp
          simp_all
        · simp
      · exact hmgwf
  · intro e he
    simp only [hnew, List.mem_append, List.mem_singleton] at he
    rcases he with he | he
    · exact i3 e he
    · subst he
      by_contra hne
      have : (exMapGet (initExMap existing) (jsToLower e.name)).isSome = true := by
        cases hm : exMapGet (initExMap existing) (jsToLower e.name)
        · exact absurd hm hne
        · simp
      have := i6 _ this
      rw [hnone] at this
      cases this
  · simp only [hnew, List.map_append, List.map_cons, List.map_nil]
    rw [List.nodup_append]
    refine ⟨i4, by simp, ?_⟩
    intro x hx
    simp only [List.mem_map] at hx
    obtain ⟨e, he, rfl⟩ := hx
    simp only [List.mem_singleton]
    intro hq
    have h5 := i5 e he
    rw [← hq] at hnone
    rw [hnone] at h5
    cases h5
  · intro e he
    simp only [hnew, List.mem_append, List.mem_singleton] at he
    rw [hmap]
    rcases he with he | he
    · by_cases hkk : jsToLower e.name = jsToLower ex.name
      · rw [hkk, exMapGet_set_self]; simp
      · rw [exMapGet_set_other _ _ _ _ hkk]
        exact i5 e he
    · subst he
      rw [exMapGet_set_self]; simp
  · intro k hk
    rw [hmap]
    by_cases hkk : k = jsToLower ex.name
    · subst hkk; rw [exMapGet_set_self]; simp
    · rw [exMapGet_set_other _ _ _ _ hkk]
      exact i6 k hk

/-- stInv only looks at the exercise list and the map, so counter
updates are invisible to it. -/
lemma stInv_ctr (existing : List Exercise) (st : PState) (c : Nat)
    (h : stInv existing st) : stInv existing { st with ctr := c } := h

lemma processExercises_inv (existing : List Exercise) :
    ∀ (items : List Json) (st st' : PState),
      processExercises items st = .ok st' → stInv existing st →
      stInv existing st' ∧ ∃ d, st'.newExercises = st.newExercises ++ d := by
  intro items
  induction items with
  | nil =>
    intro st st' h hinv
    simp only [processExercises] at h
    obtain rfl := Except.ok.injEq .. ▸ h
    exact ⟨hinv, [], by simp⟩
  | cons item rest ih =>
    intro st st' h hinv
    simp only [processExercises] at h
    cases hc : createExercise item st with
    | error e => rw [hc] at h; cases h
    | ok p =>
      rw [hc] at h
      obtain ⟨optEx, st1⟩ := p
      simp only [bind, Except.bind] at h
      cases optEx with
      | none =>
        have he := createExercise_none_state item st st1 hc
        rw [he] at h
        exact ih st st' h hinv
      | some ex =>
        have hinv2 := stInv_create_push existing item st ex st1 hc hinv
        obtain ⟨hi, d, hd⟩ := ih _ st' h hinv2
        refine ⟨hi, ?_⟩
        simp only [hd]
        obtain ⟨_, _, hnew, _⟩ := createExercise_some_props item st ex st1 hc
        rw [hnew]
        exact ⟨[ex] ++ d, by simp⟩

/-- Resolving a reference name preserves the invariant, only appends to
the new exercises, and any returned id belongs to an existing or new
exercise. -/
lemma resolveRef_props (existing : List Exercise) (exName : String) (st : PState)
    (hinv : stInv existing st) :
    stInv existing (resolveRef exName st).2 ∧
    (∃ d, (resolveRef exName st).2.newExercises = st.newExercises ++ d) ∧
    (∀ i, (resolveRef exName st).1 = some i →
      ∃ e, (e ∈ existing ∨ e ∈ (resolveRef exName st).2.newExercises) ∧ i = e.id) := by
  cases hm : exMapGet st.exMap (jsToLower exName) with
  | some ex =>
    have hr : resolveRef exName st = (some ex.id, st) := by
      simp [resolveRef, hm]
    rw [hr]
    refine ⟨hinv, ⟨[], by simp⟩, ?_⟩
    intro i hi
    simp only [Option.some.injEq] at hi
    subst hi
    exact ⟨ex, hinv.1 _ ex hm, rfl⟩
  | none =>
    cases hc : createExercise (salvageItem exName) st with
    | error e =>
      have hr : resolveRef exName st = (none, st) := by
        simp [resolveRef, hm, hc]
      rw [hr]
      exact ⟨hinv, ⟨[], by simp⟩, by intro i hi; cases hi⟩
    | ok p =>
      obtain ⟨optEx, st1⟩ := p
      cases optEx with
      | none =>
        have he := createExercise_none_state _ st st1 hc
        have hr : resolveRef exName st = (none, st1) := by
          simp [resolveRef, hm, hc]
        rw [hr, he]
        exact ⟨hinv, ⟨[], by simp⟩, by intro i hi; cases hi⟩
      | some newEx =>
        obtain ⟨hmg, hmgwf, hnew, hmap, hnone, hproc, hprocs, hid, hctr⟩ :=
          createExercise_some_props _ st newEx st1 hc
        have hset : exMapSet st1.exMap (jsToLower newEx.name) newEx = st1.exMap := by
          rw [hmap]
          exact exMapSet_set_same ..
        have hr : resolveRef exName st =
            (some newEx.id, { st1 with newExercises := st1.newExercises ++ [newEx] }) := by
          simp only [resolveRef, hm, hc]
          rw [hset]
        rw [hr]
        have hpush := stInv_create_push existing (salvageItem exName) st newEx st1 hc hinv
        refine ⟨hpush, ?_, ?_⟩
        · simp only [hnew]
          exact ⟨[newEx], by simp⟩
        · intro i hi
          simp only [Option.some.injEq] at hi
          subst hi
          exact ⟨newEx, Or.inr (by simp), rfl⟩

/-- Processing one workout exercise reference: invariant preserved, new
exercises only appended, entries only appended, every appended entry
references an existing or new exercise. -/
lemma processRef_props (existing : List Exercise) (exItem : Json) (st : PState)
    (wxs : List WorkoutExercise) (st' : PState) (wxs' : List WorkoutExercise)
    (h : processRef exItem st wxs = .ok (st', wxs'))
    (hinv : stInv existing st) :
    stInv existing st' ∧
    (∃ d, st'.newExercises = st.newExercises ++ d) ∧
    (∃ t, wxs' = wxs ++ t ∧ ∀ wx ∈ t,
      ∃ e, (e ∈ existing ∨ e ∈ st'.newExercises) ∧ wx.exerciseId = e.id) := by
  by_cases hn : exItem = .null
  · simp [processRef, hn] at h
  · simp only [processRef, if_neg hn] at h
    by_cases ht : ¬ jsTruthy (exItem.getField "name") = true
    · rw [if_pos ht] at h
      simp only [Except.ok.injEq, Prod.mk.injEq] at h
      obtain ⟨h1, h2⟩ := h
      subst h1; subst h2
      exact ⟨hinv, ⟨[], by simp⟩, ⟨[], by simp⟩⟩
    · rw [if_neg ht] at h
      obtain ⟨hr1, hr2, hr3⟩ :=
        resolveRef_props existing (jsTrimS (jsToString ((exItem.getField "name").getD .null))) st hinv
      set rr := resolveRef (jsTrimS (jsToString ((exItem.getField "name").getD .null))) st with hrr
      rw [show rr = (rr.1, rr.2) from rfl] at h
      cases hopt : rr.1 with
      | none =>
        rw [hopt] at h
        simp only [Except.ok.injEq, Prod.mk.injEq] at h
        obtain ⟨h1, h2⟩ := h
        subst h1; subst h2
        exact ⟨hr1, hr2, ⟨[], by simp⟩⟩
      | some exId =>
        rw [hopt] at h
        simp only [Except.ok.injEq, Prod.mk.injEq] at h
        obtain ⟨h1, h2⟩ := h
        obtain ⟨e, he, hei⟩ := hr3 exId hopt
        refine ⟨?_, ?_, ?_⟩
        · rw [← h1]
          exact stInv_ctr existing rr.2 _ hr1
        · rw [← h1]
          simpa using hr2
        · refine ⟨_, h2.symm, ?_⟩
          intro wx hwx
          simp only [List.mem_singleton] at hwx
          subst hwx
          refine ⟨e, ?_, hei⟩
          rw [← h1]
          simpa using he

lemma processRefs_props (existing : List Exercise) :
    ∀ (items : List Json) (st : PState) (wxs : List WorkoutExercise)
      (st' : PState) (wxs' : List WorkoutExercise),
      processRefs items st wxs = .ok (st', wxs') → stInv existing st →
      stInv existing st' ∧
      (∃ d, st'.newExercises = st.newExercises ++ d) ∧
      (∃ t, wxs' = wxs ++ t ∧ ∀ wx ∈ t,
        ∃ e, (e ∈ existing ∨ e ∈ st'.newExercises) ∧ wx.exerciseId = e.id) := by
  intro items
  induction items with
  | nil =>
    intro st wxs st' wxs' h hinv
    simp only [processRefs, Except.ok.injEq, Prod.mk.injEq] at h
    obtain ⟨h1, h2⟩ := h
    subst h1; subst h2
    exact ⟨hinv, ⟨[], by simp⟩, ⟨[], by simp⟩⟩
  | cons exItem rest ih =>
    intro st wxs st' wxs' h hinv
    simp only [processRefs] at h
    cases hc : processRef exItem st wxs with
    | error e => rw [hc] at h; cases h
    | ok p =>
      rw [hc] at h
      obtain ⟨st1, wxs1⟩ := p
      simp only [bind, Except.bind] at h
      obtain ⟨hi1, ⟨d1, hd1⟩, ⟨t1, ht1, htp1⟩⟩ :=
        processRef_props existing exItem st wxs st1 wxs1 hc hinv
      obtain ⟨hi2, ⟨d2, hd2⟩, ⟨t2, ht2, htp2⟩⟩ := ih st1 wxs1 st' wxs' h hi1
      refine ⟨hi2, ⟨d1 ++ d2, by rw [hd2, hd1, List.append_assoc]⟩, ?_⟩
      refine ⟨t1 ++ t2, by rw [ht2, ht1, List.append_assoc], ?_⟩
      intro wx hwx
      rw [List.mem_append] at hwx
      rcases hwx with hwx | hwx
      · obtain ⟨e, he, hei⟩ := htp1 wx hwx
        refine ⟨e, ?_, hei⟩
        rcases he with he | he
        · exact Or.inl he
        · exact Or.inr (by rw [hd2]; simp [he])
      · exact htp2 wx hwx

/-- A finished workout is well-formed relative to a state: it has at
least one entry and every entry references an existing or new
exercise. -/
def wOK (existing : List Exercise) (st : PState) (w : Workout) : Prop :=
  w.exercises ≠ [] ∧
  ∀ wx ∈ w.exercises, ∃ e, (e ∈ existing ∨ e ∈ st.newExercises) ∧ wx.exerciseId = e.id

lemma wOK_mono (existing : List Exercise) (st st' : PState) (w : Workout)
    (hd : ∃ d, st'.newExercises = st.newExercises ++ d)
    (h : wOK existing st w) : wOK existing st' w := by
  obtain ⟨d, hdd⟩ := hd
  refine ⟨h.1, ?_⟩
  intro wx hwx
  obtain ⟨e, he, hei⟩ := h.2 wx hwx
  refine ⟨e, ?_, hei⟩
  rcases he with he | he
  · exact Or.inl he
  · exact Or.inr (by rw [hdd]; simp [he])

lemma processWorkouts_props (existing : List Exercise) (existW : List Workout) :
    ∀ (items : List Json) (st : PState) (acc : List Workout)
      (st' : PState) (acc' : List Workout),
      processWorkouts items existW st acc = .ok (st', acc') →
      stInv existing st → (∀ w ∈ acc, wOK existing st w) →
      stInv existing st' ∧
      (∃ d, st'.newExercises = st.newExercises ++ d) ∧
      (∀ w ∈ acc', wOK existing st' w) := by
  intro items
  induction items with
  | nil =>
    intro st acc st' acc' h hinv hacc
    simp only [processWorkouts, Except.ok.injEq, Prod.mk.injEq] at h
    obtain ⟨h1, h2⟩ := h
    subst h1; subst h2
    exact ⟨hinv, ⟨[], by simp⟩, hacc⟩
  | cons item rest ih =>
    intro st acc st' acc' h hinv hacc
    simp only [processWorkouts] at h
    by_cases hn : item = .null
    · rw [if_pos hn] at h; cases h
    · rw [if_neg hn] at h
      match hname : item.getField "name" with
      | some (.str s) =>
        rw [hname] at h
        simp only at h
        by_cases hs : s = ""
        · rw [if_pos hs] at h
          exact ih st acc st' acc' h hinv hacc
        · rw [if_neg hs] at h
          cases hrefs : processRefs (match item.getField "exercises" with
            | some (.arr xs) => xs.toList
            | _ => []) st [] with
          | error e => rw [hrefs] at h; cases h
          | ok p =>
            rw [hrefs] at h
            obtain ⟨st1, wxs⟩ := p
            simp only at h
            obtain ⟨hi1, hd1, ⟨t1, ht1, htp1⟩⟩ :=
              processRefs_props existing _ st [] st1 wxs hrefs hinv
            by_cases hw : wxs.length > 0
            · rw [if_pos hw] at h
              have hgen : ∀ W : Workout, W.exercises = wxs →
                  ∀ w ∈ acc ++ [W],
                    wOK existing ({ st1 with ctr := st1.ctr + 1 } : PState) w := by
                intro W hWex w hwmem
                rw [List.mem_append] at hwmem
                rcases hwmem with hwmem | hwmem
                · exact wOK_mono existing st _ w hd1 (hacc w hwmem)
                · simp only [List.mem_singleton] at hwmem
                  subst hwmem
                  refine ⟨?_, ?_⟩
                  · rw [hWex]
                    intro hnil
                    rw [hnil] at hw
                    simp at hw
                  · intro wx hwx
                    rw [hWex, ht1, List.nil_append] at hwx
                    exact htp1 wx hwx
              obtain ⟨hi2, hd2, hacc2⟩ :=
                ih _ _ st' acc' h (stInv_ctr existing st1 _ hi1) (hgen _ rfl)
              refine ⟨hi2, ?_, hacc2⟩
              obtain ⟨da, hda⟩ := hd1
              obtain ⟨db, hdb⟩ := hd2
              exact ⟨da ++ db, by rw [hdb]; simp only []; rw [hda, List.append_assoc]⟩
            · rw [if_neg hw] at h
              obtain ⟨hi2, hd2, hacc2⟩ := ih st1 acc st' acc' h hi1 fun w hwmem =>
                wOK_mono existing st st1 w hd1 (hacc w hwmem)
              refine ⟨hi2, ?_, hacc2⟩
              obtain ⟨da, hda⟩ := hd1
              obtain ⟨db, hdb⟩ := hd2
              exact ⟨da ++ db, by rw [hdb, hda, List.append_assoc]⟩
      | some (.num v) => rw [hname] at h; exact ih st acc st' acc' h hinv hacc
      | some .null => rw [hname] at h; exact ih st acc st' acc' h hinv hacc
      | some (.bool b) => rw [hname] at h; exact ih st acc st' acc' h hinv hacc
      | some (.arr xs) => rw [hname] at h; exact ih st acc st' acc' h hinv hacc
      | some (.obj fs) => rw [hname] at h; exact ih st acc st' acc' h hinv hacc
      | none => rw [hname] at h; exact ih st acc st' acc' h hinv hacc

/-- Any successful run of parseUniversalData factors through the two
processing folds, with the result either their output or the
all-duplicates empty result. -/
lemma parseUniversalData_ok_shape (s : String) (exs : List Exercise)
    (wks : List Workout) (res : List Exercise × List Workout)
    (h : parseUniversalData s exs wks = .ok res) :
    ∃ (exItems wkItems : List Json) (st st' : PState) (ws : List Workout),
      processExercises exItems ⟨[], [], initExMap exs, 0⟩ = .ok st ∧
      processWorkouts wkItems wks st [] = .ok (st', ws) ∧
      ((res.1 = st'.newExercises ∧ res.2 = ws) ∨ (res.1 = [] ∧ res.2 = [])) := by
  simp only [parseUniversalData] at h
  cases hp : parseWithRecovery (cleanJSON s.data) with
  | error e => rw [hp] at h; cases h
  | ok raw =>
    rw [hp] at h
    simp only [bind, Except.bind] at h
    cases hn : normalizeRaw raw with
    | error e => rw [hn] at h; cases h
    | ok pr =>
      rw [hn] at h
      obtain ⟨rawExJ, rawWkJ⟩ := pr
      simp only at h
      cases ha : asArray rawExJ with
      | error e => rw [ha] at h; cases h
      | ok exItems =>
        rw [ha] at h
        simp only at h
        cases hpe : processExercises exItems ⟨[], [], initExMap exs, 0⟩ with
        | error e => rw [hpe] at h; cases h
        | ok st =>
          rw [hpe] at h
          simp only at h
          cases hb : asArray rawWkJ with
          | error e => rw [hb] at h; cases h
          | ok wkItems =>
            rw [hb] at h
            simp only at h
            cases hpw : processWorkouts wkItems wks st [] with
            | error e => rw [hpw] at h; cases h
            | ok pw =>
              rw [hpw] at h
              obtain ⟨st', ws⟩ := pw
              simp only at h
              refine ⟨exItems, wkItems, st, st', ws, hpe, hpw, ?_⟩
              by_cases hz : st'.newExercises.length = 0 ∧ ws.length = 0
              · rw [if_pos hz] at h
                by_cases hr : exItems.length > 0 ∨ wkItems.length > 0
                · rw [if_pos hr] at h
                  by_cases hwk : wkItems.length > 0
                  · rw [if_pos hwk] at h; cases h
                  · rw [if_neg hwk] at h
                    obtain rfl := (Except.ok.injEq .. ▸ h).symm
                    exact Or.inr ⟨rfl, rfl⟩
                · rw [if_neg hr] at h; cases h
              · rw [if_neg hz] at h
                obtain rfl := (Except.ok.injEq .. ▸ h).symm
                exact Or.inl ⟨rfl, rfl⟩

/-- C9.  Referential integrity of the import result: on success, every
workout exercise entry of every returned workout references the id of
some exercise among the pre-existing ones or the returned new ones, and
no returned workout has an empty entry list. -/
theorem parseUniversalData_referential_integrity
    (s : String) (exs : List Exercise) (wks : List Workout)
    (res : List Exercise × List Workout)
    (h : parseUniversalData s exs wks = .ok res) :
    ∀ w ∈ res.2, w.exercises ≠ [] ∧
      ∀ wx ∈ w.exercises, ∃ e, (e ∈ exs ∨ e ∈ res.1) ∧ wx.exerciseId = e.id := by
  obtain ⟨exItems, wkItems, st, st', ws, hpe, hpw, hres⟩ :=
    parseUniversalData_ok_shape s exs wks res h
  rcases hres with ⟨h1, h2⟩ | ⟨h1, h2⟩
  · obtain ⟨hinv, _⟩ := processExercises_inv exs exItems _ st hpe (stInv_init exs)
    obtain ⟨hinv', _, hws⟩ :=
      processWorkouts_props exs wks wkItems st [] st' ws hpw hinv (by simp)
    intro w hw
    rw [h2] at hw
    obtain ⟨hne, hrefs⟩ := hws w hw
    refine ⟨hne, ?_⟩
    intro wx hwx
    obtain ⟨e, he, hei⟩ := hrefs wx hwx
    rw [h1]
    exact ⟨e, he, hei⟩
  · intro w hw
    rw [h2] at hw
    cases hw

/-- Witness for C9 at a concrete import that salvages one exercise: the
run really produces a workout, and every entry of every produced workout
references a produced exercise. -/
theorem parseUniversalData_referential_integrity_witness :
    ((parseUniversalData "\x7b\"workouts\":[\x7b\"name\":\"W\",\"exercises\":[\x7b\"name\":\"Bench\"\x7d]\x7d]\x7d" [] [] |>.toOption.getD ([], [])).2 ≠ []) ∧
    (∀ w ∈ (parseUniversalData "\x7b\"workouts\":[\x7b\"name\":\"W\",\"exercises\":[\x7b\"name\":\"Bench\"\x7d]\x7d]\x7d" [] [] |>.toOption.getD ([], [])).2,
      w.exercises ≠ [] ∧
      ∀ wx ∈ w.exercises, ∃ e,
        (e ∈ ([] : List Exercise) ∨
          e ∈ (parseUniversalData "\x7b\"workouts\":[\x7b\"name\":\"W\",\"exercises\":[\x7b\"name\":\"Bench\"\x7d]\x7d]\x7d" [] [] |>.toOption.getD ([], [])).1) ∧
        wx.exerciseId = e.id) := by
  constructor
  · decide
  · exact parseUniversalData_referential_integrity
      "\x7b\"workouts\":[\x7b\"name\":\"W\",\"exercises\":[\x7b\"name\":\"Bench\"\x7d]\x7d]\x7d" [] []
      (parseUniversalData "\x7b\"workouts\":[\x7b\"name\":\"W\",\"exercises\":[\x7b\"name\":\"Bench\"\x7d]\x7d]\x7d" [] [] |>.toOption.getD ([], []))
      (by rfl)

/-- C10.  Every exercise returned by a successful parseUniversalData run
has a non-empty muscleGroups list whose entries all come from
MUSCLE_GROUPS; at the createExercise level, input entries outside the
catalogue are filtered away (musclesOf) and an empty remainder defaults
to the singleton Other. -/
theorem parseUniversalData_muscle_invariant
    (s : String) (exs : List Exercise) (wks : List Workout)
    (res : List Exercise × List Workout)
    (h : parseUniversalData s exs wks = .ok res) :
    (∀ e ∈ res.1, e.muscleGroups ≠ [] ∧ ∀ m ∈ e.muscleGroups, m ∈ MUSCLE_GROUPS) ∧
    (∀ item st ex st', createExercise item st = .ok (some ex, st') →
      ex.muscleGroups =
        (if (musclesOf item).length > 0 then musclesOf item else ["Other"])) := by
  constructor
  · obtain ⟨exItems, wkItems, st, st', ws, hpe, hpw, hres⟩ :=
      parseUniversalData_ok_shape s exs wks res h
    rcases hres with ⟨h1, _⟩ | ⟨h1, _⟩
    · obtain ⟨hinv, _⟩ := processExercises_inv exs exItems _ st hpe (stInv_init exs)
      obtain ⟨hinv', _, _⟩ :=
        processWorkouts_props exs wks wkItems st [] st' ws hpw hinv (by simp)
      intro e he
      rw [h1] at he
      exact hinv'.2.1 e he
    · intro e he
      rw [h1] at he
      cases he
  · intro item st ex st' hc
    exact (createExercise_some_props item st ex st' hc).1

/-- Witness for C10 at an import whose exercise carries one valid and
one invalid muscle tag. -/
theorem parseUniversalData_muscle_invariant_witness :
    (∀ e ∈ (parseUniversalData "\x7b\"exercises\":[\x7b\"name\":\"Curl\",\"muscleGroups\":[\"Biceps\",\"Wings\"]\x7d]\x7d" [] [] |>.toOption.getD ([], [])).1,
      e.muscleGroups ≠ [] ∧ ∀ m ∈ e.muscleGroups, m ∈ MUSCLE_GROUPS) ∧
    (∀ item st ex st', createExercise item st = .ok (some ex, st') →
      ex.muscleGroups =
        (if (musclesOf item).length > 0 then musclesOf item else ["Other"])) := by
  exact parseUniversalData_muscle_invariant
    "\x7b\"exercises\":[\x7b\"name\":\"Curl\",\"muscleGroups\":[\"Biceps\",\"Wings\"]\x7d]\x7d" [] []
    (parseUniversalData "\x7b\"exercises\":[\x7b\"name\":\"Curl\",\"muscleGroups\":[\"Biceps\",\"Wings\"]\x7d]\x7d" [] [] |>.toOption.getD ([], []))
    (by rfl)

/-- The name a workout receives is never taken: either the base was free
or the chosen suffixed candidate is free by construction. -/
lemma chooseName_free (existW acc : List Workout) (base : String) :
    isTaken existW acc
      (chooseName (isTaken existW acc) base (existW.length + acc.length + 1)) = false := by
  obtain ⟨h1, h2⟩ := chooseName_spec existW acc base
  cases ht : isTaken existW acc base with
  | false => rw [h1 ht]; exact ht
  | true =>
    obtain ⟨k, _, hk2, hk3, _⟩ := h2 ht
    rw [hk2]; exact hk3

/-- Accumulated workout names are pairwise distinct (case-insensitively)
and distinct from every existing workout name. -/
def namesFresh (existW : List Workout) (ws : List Workout) : Prop :=
  ((ws.map fun w => jsToLower w.name).Nodup) ∧
  ∀ w ∈ ws, jsToLower w.name ∉ (existW.map fun w => jsToLower w.name)

lemma namesFresh_push (existW acc : List Workout) (w : Workout)
    (h : namesFresh existW acc)
    (hf : isTaken existW acc w.name = false) :
    namesFresh existW (acc ++ [w]) := by
  obtain ⟨h1, h2⟩ := h
  have hni : jsToLower w.name ∉
      (existW.map fun w => jsToLower w.name) ++ (acc.map fun w => jsToLower w.name) := by
    intro hm
    rw [← isTaken_iff] at hm
    rw [hf] at hm
    cases hm
  rw [List.mem_append] at hni
  push_neg at hni
  constructor
  · rw [List.map_append, List.map_singleton, List.nodup_append]
    refine ⟨h1, List.nodup_singleton _, ?_⟩
    intro a ha hb
    rw [List.mem_singleton] at hb
    subst hb
    exact hni.2 ha
  · intro x hx
    rw [List.mem_append, List.mem_singleton] at hx
    rcases hx with hx | hx
    · exact h2 x hx
    · subst hx
      exact hni.1

/-- processWorkouts keeps workout names unique among themselves and
against the existing workouts: every pushed workout's name came from
chooseName over the current taken-set. -/
lemma processWorkouts_names (existW : List Workout) :
    ∀ (items : List Json) (st : PState) (acc : List Workout)
      (st' : PState) (acc' : List Workout),
      processWorkouts items existW st acc = .ok (st', acc') →
      namesFresh existW acc → namesFresh existW acc' := by
  intro items
  induction items with
  | nil =>
    intro st acc st' acc' h hacc
    simp only [processWorkouts, Except.ok.injEq, Prod.mk.injEq] at h
    obtain ⟨h1, h2⟩ := h
    subst h1; subst h2
    exact hacc
  | cons item rest ih =>
    intro st acc st' acc' h hacc
    simp only [processWorkouts] at h
    by_cases hn : item = .null
    · rw [if_pos hn] at h; cases h
    · rw [if_neg hn] at h
      match hname : item.getField "name" with
      | some (.str s) =>
        rw [hname] at h
        simp only at h
        by_cases hs : s = ""
        · rw [if_pos hs] at h
          exact ih st acc st' acc' h hacc
        · rw [if_neg hs] at h
          cases hrefs : processRefs (match item.getField "exercises" with
            | some (.arr xs) => xs.toList
            | _ => []) st [] with
          | error e => rw [hrefs] at h; cases h
          | ok p =>
            rw [hrefs] at h
            obtain ⟨st1, wxs⟩ := p
            simp only at h
            by_cases hw : wxs.length > 0
            · rw [if_pos hw] at h
              have hgen : ∀ W : Workout,
                  W.name = chooseName (isTaken existW acc) (jsTrimS s)
                    (existW.length + acc.length + 1) →
                  namesFresh existW (acc ++ [W]) := by
                intro W hWn
                refine namesFresh_push existW acc W hacc ?_
                rw [hWn]
                exact chooseName_free existW acc (jsTrimS s)
              exact ih _ _ st' acc' h (hgen _ rfl)
            · rw [if_neg hw] at h
              exact ih st1 acc st' acc' h hacc
      | some (.num v) => rw [hname] at h; exact ih st acc st' acc' h hacc
      | some .null => rw [hname] at h; exact ih st acc st' acc' h hacc
      | some (.bool b) => rw [hname] at h; exact ih st acc st' acc' h hacc
      | some (.arr xs) => rw [hname] at h; exact ih st acc st' acc' h hacc
      | some (.obj fs) => rw [hname] at h; exact ih st acc st' acc' h hacc
      | none => rw [hname] at h; exact ih st acc st' acc' h hacc

/-- An existing exercise record used by the duplicate-skip witness. -/
def exDemo : Exercise :=
  { id := "e-squat", name := "Squat", muscleGroups := ["Legs"],
    imageUrl := none, imageTransform := none, notes := none,
    defaultWeight := none, defaultRepValue := none,
    defaultSetType := none, defaultRestTime := none }

/-- C4.  Duplicate handling of the import: an item whose trimmed
lower-cased name is already mapped is skipped by createExercise with the
state unchanged; consequently the returned new exercises collide neither
with the existing ones nor with each other.  Workout names are resolved
by chooseName: a free base is kept, a clashing base gets the smallest
numeric suffix counted from 2 that is free, and the returned workouts
collide neither with the existing workouts nor with each other. -/
theorem parseUniversalData_duplicate_handling
    (s : String) (exs : List Exercise) (wks : List Workout)
    (res : List Exercise × List Workout)
    (h : parseUniversalData s exs wks = .ok res) :
    (∀ item st rawS, item ≠ .null → item.getField "name" = some (.str rawS) →
      (exMapGet st.exMap (jsToLower (jsTrimS rawS))).isSome = true →
      createExercise item st = .ok (none, st)) ∧
    (∀ e ∈ res.1, exMapGet (initExMap exs) (jsToLower e.name) = none) ∧
    ((res.1.map fun e => jsToLower e.name).Nodup) ∧
    (∀ existW acc base,
      (isTaken existW acc base = false →
        chooseName (isTaken existW acc) base (existW.length + acc.length + 1) = base) ∧
      (isTaken existW acc base = true →
        ∃ k, 2 ≤ k ∧
          chooseName (isTaken existW acc) base (existW.length + acc.length + 1) =
            base ++ " " ++ natRepr k ∧
          isTaken existW acc (base ++ " " ++ natRepr k) = false ∧
          ∀ i, 2 ≤ i → i < k →
            isTaken existW acc (base ++ " " ++ natRepr i) = true)) ∧
    ((res.2.map fun w => jsToLower w.name).Nodup) ∧
    (∀ w ∈ res.2, jsToLower w.name ∉ (wks.map fun w => jsToLower w.name)) := by
  obtain ⟨exItems, wkItems, st, st', ws, hpe, hpw, hres⟩ :=
    parseUniversalData_ok_shape s exs wks res h
  refine ⟨?_, ?_, ?_, fun existW acc base => chooseName_spec existW acc base, ?_, ?_⟩
  · intro item st0 rawS hn hname hdup
    simp only [createExercise, if_neg hn, hname]
    by_cases ht : jsTruthy (some (.str rawS))
    · simp only [ht, not_true, if_neg (not_not_intro ht), hdup, if_pos]
      simp
    · simp [ht]
  · rcases hres with ⟨h1, _⟩ | ⟨h1, _⟩
    · obtain ⟨hinv, _⟩ := processExercises_inv exs exItems _ st hpe (stInv_init exs)
      obtain ⟨hinv', _, _⟩ :=
        processWorkouts_props exs wks wkItems st [] st' ws hpw hinv (by simp)
      intro e he
      rw [h1] at he
      exact hinv'.2.2.1 e he
    · intro e he
      rw [h1] at he
      cases he
  · rcases hres with ⟨h1, _⟩ | ⟨h1, _⟩
    · obtain ⟨hinv, _⟩ := processExercises_inv exs exItems _ st hpe (stInv_init exs)
      obtain ⟨hinv', _, _⟩ :=
        processWorkouts_props exs wks wkItems st [] st' ws hpw hinv (by simp)
      rw [h1]
      exact hinv'.2.2.2.1
    · rw [h1]
      simp
  · rcases hres with ⟨_, h2⟩ | ⟨_, h2⟩
    · have hnf := processWorkouts_names wks wkItems st [] st' ws hpw ⟨by simp, by simp⟩
      rw [h2]
      exact hnf.1
    · rw [h2]
      simp
  · rcases hres with ⟨_, h2⟩ | ⟨_, h2⟩
    · have hnf := processWorkouts_names wks wkItems st [] st' ws hpw ⟨by simp, by simp⟩
      intro w hw
      rw [h2] at hw
      exact hnf.2 w hw
    · intro w hw
      rw [h2] at hw
      cases hw

set_option maxRecDepth 8192 in
/-- Witness for C4: importing a duplicate Squat plus two workouts both
named W against an existing Squat. -/
theorem parseUniversalData_duplicate_handling_witness :
    (∀ item st rawS, item ≠ .null → item.getField "name" = some (.str rawS) →
      (exMapGet st.exMap (jsToLower (jsTrimS rawS))).isSome = true →
      createExercise item st = .ok (none, st)) ∧
    (∀ e ∈ (parseUniversalData "\x7b\"exercises\":[\x7b\"name\":\"Squat\"\x7d,\x7b\"name\":\"Curl\"\x7d],\"workouts\":[\x7b\"name\":\"W\",\"exercises\":[\x7b\"name\":\"Curl\"\x7d]\x7d,\x7b\"name\":\"W\",\"exercises\":[\x7b\"name\":\"Curl\"\x7d]\x7d]\x7d" [exDemo] [] |>.toOption.getD ([], [])).1,
      exMapGet (initExMap [exDemo]) (jsToLower e.name) = none) ∧
    (((parseUniversalData "\x7b\"exercises\":[\x7b\"name\":\"Squat\"\x7d,\x7b\"name\":\"Curl\"\x7d],\"workouts\":[\x7b\"name\":\"W\",\"exercises\":[\x7b\"name\":\"Curl\"\x7d]\x7d,\x7b\"name\":\"W\",\"exercises\":[\x7b\"name\":\"Curl\"\x7d]\x7d]\x7d" [exDemo] [] |>.toOption.getD ([], [])).1.map fun e => jsToLower e.name).Nodup) ∧
    (∀ existW acc base,
      (isTaken existW acc base = false →
        chooseName (isTaken existW acc) base (existW.length + acc.length + 1) = base) ∧
      (isTaken existW acc base = true →
        ∃ k, 2 ≤ k ∧
          chooseName (isTaken existW acc) base (existW.length + acc.length + 1) =
            base ++ " " ++ natRepr k ∧
          isTaken existW acc (base ++ " " ++ natRepr k) = false ∧
          ∀ i, 2 ≤ i → i < k →
            isTaken existW acc (base ++ " " ++ natRepr i) = true)) ∧
    (((parseUniversalData "\x7b\"exercises\":[\x7b\"name\":\"Squat\"\x7d,\x7b\"name\":\"Curl\"\x7d],\"workouts\":[\x7b\"name\":\"W\",\"exercises\":[\x7b\"name\":\"Curl\"\x7d]\x7d,\x7b\"name\":\"W\",\"exercises\":[\x7b\"name\":\"Curl\"\x7d]\x7d]\x7d" [exDemo] [] |>.toOption.getD ([], [])).2.map fun w => jsToLower w.name).Nodup) ∧
    (∀ w ∈ (parseUniversalData "\x7b\"exercises\":[\x7b\"name\":\"Squat\"\x7d,\x7b\"name\":\"Curl\"\x7d],\"workouts\":[\x7b\"name\":\"W\",\"exercises\":[\x7b\"name\":\"Curl\"\x7d]\x7d,\x7b\"name\":\"W\",\"exercises\":[\x7b\"name\":\"Curl\"\x7d]\x7d]\x7d" [exDemo] [] |>.toOption.getD ([], [])).2,
      jsToLower w.name ∉ (([] : List Workout).map fun w => jsToLower w.name)) := by
  exact parseUniversalData_duplicate_handling
    "\x7b\"exercises\":[\x7b\"name\":\"Squat\"\x7d,\x7b\"name\":\"Curl\"\x7d],\"workouts\":[\x7b\"name\":\"W\",\"exercises\":[\x7b\"name\":\"Curl\"\x7d]\x7d,\x7b\"name\":\"W\",\"exercises\":[\x7b\"name\":\"Curl\"\x7d]\x7d]\x7d" [exDemo] []
    (parseUniversalData "\x7b\"exercises\":[\x7b\"name\":\"Squat\"\x7d,\x7b\"name\":\"Curl\"\x7d],\"workouts\":[\x7b\"name\":\"W\",\"exercises\":[\x7b\"name\":\"Curl\"\x7d]\x7d,\x7b\"name\":\"W\",\"exercises\":[\x7b\"name\":\"Curl\"\x7d]\x7d]\x7d" [exDemo] [] |>.toOption.getD ([], []))
    (by rfl)

lemma dropWhile_idem (p : Char → Bool) (l : List Char) :
    (l.dropWhile p).dropWhile p = l.dropWhile p := by
  induction l with
  | nil => simp
  | cons a l ih =>
    by_cases h : p a
    · simp [List.dropWhile_cons, h, ih]
    · simp [List.dropWhile_cons, h]

lemma dropWhile_eq_self_of_prefix (p : Char → Bool) (l1 l2 : List Char)
    (hp : l1 <+: l2) (h : l2.dropWhile p = l2) : l1.dropWhile p = l1 := by
  cases l1 with
  | nil => simp
  | cons a t =>
    obtain ⟨r, hr⟩ := hp
    have hpa : p a = false := by
      by_contra hpa
      rw [Bool.not_eq_false] at hpa
      rw [← hr, List.cons_append] at h
      simp only [List.dropWhile_cons, hpa, if_true] at h
      have hsuf2 : (t ++ r).dropWhile p <:+ (t ++ r) := List.dropWhile_suffix p
      have hle := hsuf2.length_le
      rw [h] at hle
      simp at hle
    rw [List.dropWhile_cons, hpa]
    simp

lemma jsTrim_idem (s : List Char) : jsTrim (jsTrim s) = jsTrim s := by
  unfold jsTrim
  have h1 : (s.dropWhile jsWs).dropWhile jsWs = s.dropWhile jsWs :=
    dropWhile_idem jsWs s
  have hsuf : ((s.dropWhile jsWs).reverse.dropWhile jsWs) <:+ (s.dropWhile jsWs).reverse :=
    List.dropWhile_suffix jsWs
  have hpre : ((s.dropWhile jsWs).reverse.dropWhile jsWs).reverse <+: s.dropWhile jsWs := by
    have := hsuf.reverse
    rwa [List.reverse_reverse] at this
  have h2 : (((s.dropWhile jsWs).reverse.dropWhile jsWs).reverse).dropWhile jsWs =
      ((s.dropWhile jsWs).reverse.dropWhile jsWs).reverse :=
    dropWhile_eq_self_of_prefix jsWs _ _ hpre h1
  rw [h2, List.reverse_reverse, dropWhile_idem]

lemma jsTrimS_idem (s : String) : jsTrimS (jsTrimS s) = jsTrimS s := by
  simp [jsTrimS, jsTrim_idem]

/-- The salvage call: createExercise on the synthetic item succeeds and
yields an Other-tagged exercise named by the trimmed reference. -/
lemma createExercise_salvage (exName : String) (st : PState)
    (hne : exName ≠ "")
    (hmap : exMapGet st.exMap (jsToLower (jsTrimS exName)) = none)
    (hproc : jsToLower (jsTrimS exName) ∉ st.processedExNames) :
    ∃ ex st1, createExercise (salvageItem exName) st = .ok (some ex, st1) ∧
      ex.name = jsTrimS exName ∧ ex.muscleGroups = ["Other"] ∧
      ex.id = freshId st.ctr ∧ st1.newExercises = st.newExercises := by
  have hgf : (salvageItem exName).getField "name" = some (.str exName) := rfl
  have hmu : musclesOf (salvageItem exName) = ["Other"] := rfl
  unfold createExercise
  rw [if_neg (by simp [salvageItem])]
  simp only [hgf]
  rw [if_neg (by simp [jsTruthy, Json.truthy, hne])]
  simp only [hmu]
  rw [if_neg (by simp [hmap])]
  rw [if_neg hproc]
  exact ⟨_, _, rfl, rfl, rfl, rfl, rfl⟩

/-- C5 (amended).  A workout reference with a truthy name whose trimmed
form is nonempty and matches (case-insensitively) neither a mapped nor an
already-processed exercise is salvaged: a fresh exercise carrying the
trimmed name and muscleGroups Other is appended to newExercises and the
produced WorkoutExercise entry references its id.  (The unqualified
original claim is false: a falsy or whitespace-only reference name is
dropped without synthesis — see the counterexample.) -/
theorem processRef_salvage (exItem : Json) (st : PState)
    (wxs : List WorkoutExercise) (rawS : String)
    (hnull : exItem ≠ .null)
    (hname : exItem.getField "name" = some (.str rawS))
    (hne : jsTrimS rawS ≠ "")
    (hmap : exMapGet st.exMap (jsToLower (jsTrimS rawS)) = none)
    (hproc : jsToLower (jsTrimS rawS) ∉ st.processedExNames) :
    ∃ ex st1 wx, processRef exItem st wxs = .ok (st1, wxs ++ [wx]) ∧
      ex.name = jsTrimS rawS ∧ ex.muscleGroups = ["Other"] ∧
      st1.newExercises = st.newExercises ++ [ex] ∧
      wx.exerciseId = ex.id := by
  have hraw : rawS ≠ "" := by
    intro he
    rw [he] at hne
    exact hne rfl
  have hmap2 : exMapGet st.exMap (jsToLower (jsTrimS (jsTrimS rawS))) = none := by
    rw [jsTrimS_idem]; exact hmap
  have hproc2 : jsToLower (jsTrimS (jsTrimS rawS)) ∉ st.processedExNames := by
    rw [jsTrimS_idem]; exact hproc
  obtain ⟨ex, st1, hc, hexn, hexm, hexi, hnew⟩ :=
    createExercise_salvage (jsTrimS rawS) st hne hmap2 hproc2
  unfold processRef
  rw [if_neg hnull]
  simp only [hname]
  rw [if_neg (by simp [jsTruthy, Json.truthy, hraw])]
  simp only [Option.getD_some, jsToString]
  unfold resolveRef
  rw [hmap]
  simp only [hc]
  refine ⟨ex, _, _, rfl, ?_, hexm, ?_, rfl⟩
  · rw [hexn, jsTrimS_idem]
  · simp [hnew]

/-- Counterexample to the unqualified C5: the reference name, a single
space, is truthy and matches no existing or earlier-created exercise,
yet the import synthesizes nothing — the salvage call rejects the
empty trimmed name, the reference and its workout are dropped, and the
run fails instead of returning the synthesized exercise. -/
theorem processRef_salvage_counterexample :
    jsTruthy (some (.str " ")) = true ∧
    parseUniversalData
      "\x7b\"workouts\":[\x7b\"name\":\"W\",\"exercises\":[\x7b\"name\":\" \"\x7d]\x7d]\x7d"
      [] [] =
      .error "Invalid generation: Workouts found but failed to parse valid exercises within them." := by
  exact ⟨rfl, by rfl⟩

/-- Witness for C5 at a concrete unmatched reference named Curl. -/
theorem processRef_salvage_witness :
    ∃ ex st1 wx,
      processRef (.obj (.cons "name" (.str "Curl ") .nil)) ⟨[], [], [], 0⟩ [] =
        .ok (st1, [] ++ [wx]) ∧
      ex.name = jsTrimS "Curl " ∧ ex.muscleGroups = ["Other"] ∧
      st1.newExercises = ([] : List Exercise) ++ [ex] ∧
      wx.exerciseId = ex.id := by
  exact processRef_salvage (.obj (.cons "name" (.str "Curl ") .nil))
    ⟨[], [], [], 0⟩ [] "Curl " (by simp) rfl (by decide)
    (by rfl) (by simp)

/-- C2 (amended).  Recovery order of parseWithRecovery: a successful
parse is returned as is; otherwise exactly one strategy is attempted —
bracket completion when the trimmed text opens '[' without closing ']'
(appending one ']'), else completion with '\x7d' when it opens '\x7b'
without closing it, else substring extraction — and a failure of the
attempted strategy surfaces the classified message built from the
original error; extraction is never reached when a completion condition
held (contrary to the sequential reading, see the counterexample), and
every surfaced message starts with Invalid generation and carries the
original details. -/
theorem parseWithRecovery_order (cleaned : List Char) :
    (∀ j, jsonParse cleaned = .ok j → parseWithRecovery cleaned = .ok j) ∧
    (∀ e, jsonParse cleaned = .error e →
      (jsTrim cleaned).head? = some '[' ∧ (jsTrim cleaned).getLast? ≠ some ']' →
      parseWithRecovery cleaned =
        match jsonParse (cleaned ++ [']']) with
        | .ok j => .ok j
        | .error _ => .error (mkInvalidMsg e)) ∧
    (∀ e, jsonParse cleaned = .error e →
      ¬((jsTrim cleaned).head? = some '[' ∧ (jsTrim cleaned).getLast? ≠ some ']') →
      (jsTrim cleaned).head? = some '{' ∧ (jsTrim cleaned).getLast? ≠ some '}' →
      parseWithRecovery cleaned =
        match jsonParse (cleaned ++ ['}']) with
        | .ok j => .ok j
        | .error _ => .error (mkInvalidMsg e)) ∧
    (∀ e, jsonParse cleaned = .error e →
      ¬((jsTrim cleaned).head? = some '[' ∧ (jsTrim cleaned).getLast? ≠ some ']') →
      ¬((jsTrim cleaned).head? = some '{' ∧ (jsTrim cleaned).getLast? ≠ some '}') →
      parseWithRecovery cleaned =
        match extractFirst cleaned with
        | some sub =>
          (match jsonParse sub with
           | .ok j => .ok j
           | .error _ => .error (mkInvalidMsg e))
        | none => .error (mkInvalidMsg e)) ∧
    (∀ e, ∃ r, mkInvalidMsg e = "Invalid generation" ++ r ++ (" Details: " ++ e)) := by
  refine ⟨?_, ?_, ?_, ?_, ?_⟩
  · intro j hj
    unfold parseWithRecovery
    rw [hj]
  · intro e he hc
    unfold parseWithRecovery
    rw [he]
    simp only [if_pos hc]
  · intro e he hnc hc
    unfold parseWithRecovery
    rw [he]
    simp only [if_neg hnc, if_pos hc]
  · intro e he hnc hnc2
    unfold parseWithRecovery
    rw [he]
    simp only [if_neg hnc, if_neg hnc2]
    cases extractFirst cleaned with
    | none => rfl
    | some sub => cases jsonParse sub <;> rfl
  · intro e
    unfold mkInvalidMsg
    by_cases h1 : strIncl e "JSON"
    · refine ⟨": Malformed JSON.", ?_⟩
      rw [if_pos h1]
      rfl
    · rw [if_neg h1]
      by_cases h2 : strIncl e "Unexpected token"
      · refine ⟨": Unexpected character or missing symbol.", ?_⟩
        rw [if_pos h2]
        rfl
      · refine ⟨": Syntax error in JSON.", ?_⟩
        rw [if_neg h2]
        rfl

/-- Counterexample to the sequential reading of C2: the bracket-completion
condition holds and completion fails, so the run surfaces an error even
though substring extraction would have parsed successfully. -/
theorem parseWithRecovery_order_counterexample :
    (∃ sub j,
      extractFirst ("[\x7b\"name\":\"W\",\"exercises\":[\x7b\"name\":\"Squat\"\x7d]\x7d] [" : String).data = some sub ∧
      jsonParse sub = .ok j) ∧
    (∃ msg, parseWithRecovery ("[\x7b\"name\":\"W\",\"exercises\":[\x7b\"name\":\"Squat\"\x7d]\x7d] [" : String).data = .error msg) := by
  exact ⟨⟨_, _, rfl, rfl⟩, ⟨_, rfl⟩⟩

/-- Witness for C2 on the same input: the completion branch is the one
taken and its failure yields the classified message. -/
theorem parseWithRecovery_order_witness :
    parseWithRecovery ("[\x7b\"name\":\"W\",\"exercises\":[\x7b\"name\":\"Squat\"\x7d]\x7d] [" : String).data =
      match jsonParse (("[\x7b\"name\":\"W\",\"exercises\":[\x7b\"name\":\"Squat\"\x7d]\x7d] [" : String).data ++ [']']) with
      | .ok j => .ok j
      | .error _ => .error (mkInvalidMsg "Unexpected non-whitespace character [ after JSON data") := by
  exact (parseWithRecovery_order ("[\x7b\"name\":\"W\",\"exercises\":[\x7b\"name\":\"Squat\"\x7d]\x7d] [" : String).data).2.1
    "Unexpected non-whitespace character [ after JSON data" (by rfl) (by decide)

/-! Identity behaviour of the cleaning passes on documents free of the
respective malformation. -/

lemma isPrefixOf_fence3_mem (s : List Char) (h : fence3.isPrefixOf s = true) :
    btickC ∈ s := by
  rw [List.isPrefixOf_iff_prefix] at h
  exact h.mem (by simp [fence3])

lemma fenceHead_id (s : List Char) (h : btickC ∉ s) : fenceHead s = s := by
  unfold fenceHead
  rw [if_neg, if_neg]
  · intro hp
    refine h (isPrefixOf_fence3_mem s hp)
  · intro hp
    rw [List.isPrefixOf_iff_prefix] at hp
    exact h (hp.mem (by simp [fenceJson, fence3]))

lemma fenceTail_id (s : List Char) (h : btickC ∉ s) : fenceTail s = s := by
  unfold fenceTail
  rw [if_neg]
  intro hp
  have := isPrefixOf_fence3_mem s.reverse hp
  rw [List.mem_reverse] at this
  exact h this

lemma removeTicks_id (s : List Char) (h : btickC ∉ s) : removeTicks s = s := by
  induction s with
  | nil => rfl
  | cons c1 tl ih =>
    match tl with
    | [] => rfl
    | [c2] => rfl
    | c2 :: c3 :: rest =>
      rw [removeTicks]
      rw [if_neg]
      · have : btickC ∉ c2 :: c3 :: rest := by
          intro hm
          exact h (List.mem_cons_of_mem _ hm)
        rw [ih this]
      · rintro ⟨h1, -⟩
        exact h (by simp [h1])

lemma lcAux_id (s : List Char) (h : ('/' : Char) ∉ s) : lcAux false s = s := by
  induction s with
  | nil => rfl
  | cons c1 tl ih =>
    have hc1 : c1 ≠ '/' := fun he => h (by simp [he])
    have htl : ('/' : Char) ∉ tl := fun hm => h (List.mem_cons_of_mem _ hm)
    match tl with
    | [] => rfl
    | c2 :: rest2 =>
      rw [lcAux]
      rw [if_neg (by rintro ⟨h1, -⟩; exact hc1 h1)]
      rw [ih htl]

lemma bcAux_id (fuel : Nat) (s : List Char) (h : ('/' : Char) ∉ s) :
    bcAux fuel s = s := by
  induction fuel generalizing s with
  | zero => rfl
  | succ f ih =>
    match s with
    | [] => rfl
    | [c1] => rfl
    | c1 :: c2 :: rest =>
      have hc1 : c1 ≠ '/' := fun he => h (by simp [he])
      rw [bcAux]
      rw [if_neg (by rintro ⟨h1, -⟩; exact hc1 h1)]
      rw [ih _ (fun hm => h (List.mem_cons_of_mem _ hm))]

lemma smartFix_id (s : List Char)
    (h1 : smartLC ∉ s) (h2 : smartRC ∉ s) (h3 : smartlC ∉ s) (h4 : smartrC ∉ s) :
    smartFix s = s := by
  unfold smartFix
  have h5 : ∀ c ∈ s,
      (if c = smartLC ∨ c = smartRC then qtC
       else if c = smartlC ∨ c = smartrC then aposC else c) = id c := by
    intro c hc
    rw [if_neg, if_neg]
    · rfl
    · rintro (rfl | rfl)
      · exact h3 hc
      · exact h4 hc
    · rintro (rfl | rfl)
      · exact h1 hc
      · exact h2 hc
  rw [List.map_congr_left h5, List.map_id]

/-- A comma followed by optional whitespace and a closing bracket occurs
somewhere in the text (the trigger of the trailing-comma regex). -/
def hasCommaClose : List Char → Bool
  | [] => false
  | c :: rest => (c = ',' && (wsBr rest).isSome) || hasCommaClose rest

lemma cfAux_id (fuel : Nat) (s : List Char) (h : hasCommaClose s = false) :
    cfAux fuel s = s := by
  induction fuel generalizing s with
  | zero => rfl
  | succ f ih =>
    match s with
    | [] => rfl
    | c :: rest =>
      rw [hasCommaClose] at h
      rw [Bool.or_eq_false_iff, Bool.and_eq_false_iff] at h
      obtain ⟨h1, h2⟩ := h
      rw [cfAux]
      by_cases hc : c = ','
      · rcases h1 with h1 | h1
        · rw [hc] at h1
          simp at h1
        · rw [if_pos hc]
          have h3 : wsBr rest = none :=
            Option.not_isSome_iff_eq_none.mp (by rw [h1]; simp)
          rw [h3]
          rw [ih rest h2]
      · rw [if_neg hc, ih rest h2]

lemma dropWhile_eq_self_of_head (p : Char → Bool) (t : List Char)
    (h : ∀ c, t.head? = some c → p c = false) : t.dropWhile p = t := by
  cases t with
  | nil => rfl
  | cons c r =>
    rw [List.dropWhile_cons, h c rfl]
    simp

lemma jsTrim_eq_self (t : List Char)
    (h1 : ∀ c, t.head? = some c → jsWs c = false)
    (h2 : ∀ c, t.getLast? = some c → jsWs c = false) : jsTrim t = t := by
  unfold jsTrim
  rw [dropWhile_eq_self_of_head jsWs t h1]
  rw [dropWhile_eq_self_of_head jsWs t.reverse
    (by intro c hc; rw [List.head?_reverse] at hc; exact h2 c hc)]
  exact List.reverse_reverse t

/-- A document untouched by every cleaning pass: no backticks, no
slashes, no smart quotes, trimmed, and no comma directly (modulo spaces)
before a closing bracket. -/
def cleanDoc (s : List Char) : Prop :=
  btickC ∉ s ∧ ('/' : Char) ∉ s ∧
  smartLC ∉ s ∧ smartRC ∉ s ∧ smartlC ∉ s ∧ smartrC ∉ s ∧
  (∀ c, s.head? = some c → jsWs c = false) ∧
  (∀ c, s.getLast? = some c → jsWs c = false) ∧
  hasCommaClose s = false

lemma cleanJSON_id (s : List Char) (h : cleanDoc s) : cleanJSON s = s := by
  obtain ⟨hb, hsl, h1, h2, h3, h4, hh, hl, hcc⟩ := h
  simp only [cleanJSON]
  rw [fenceHead_id s hb, fenceTail_id s hb, removeTicks_id s hb,
    jsTrim_eq_self s hh hl, lcAux_id s hsl, bcAux_id s.length s hsl,
    smartFix_id s h1 h2 h3 h4, cfAux_id s.length s hcc]

lemma cleanJSON_via (u s : List Char) (h : cleanDoc s)
    (h1 : jsTrim (removeTicks (fenceTail (fenceHead u))) = s) :
    cleanJSON u = s := by
  obtain ⟨hb, hsl, hq1, hq2, hq3, hq4, hh, hl, hcc⟩ := h
  simp only [cleanJSON]
  rw [h1, lcAux_id s hsl, bcAux_id s.length s hsl,
    smartFix_id s hq1 hq2 hq3 hq4, cfAux_id s.length s hcc]

lemma fenceHead_json (r : List Char) : fenceHead (fenceJson ++ r) = r := by
  unfold fenceHead
  rw [if_pos (List.isPrefixOf_iff_prefix.mpr ⟨r, rfl⟩)]
  have h7 : (7 : Nat) = fenceJson.length := rfl
  rw [h7, List.drop_left]

lemma fenceHead_plain (r : List Char) (hr : r.head? = some '\n') :
    fenceHead (fence3 ++ r) = r := by
  unfold fenceHead
  rw [if_neg, if_pos (List.isPrefixOf_iff_prefix.mpr ⟨r, rfl⟩)]
  · have h3 : (3 : Nat) = fence3.length := rfl
    rw [h3, List.drop_left]
  · intro hp
    rw [List.isPrefixOf_iff_prefix] at hp
    obtain ⟨t, ht⟩ := hp
    have he : fence3 ++ (['j', 's', 'o', 'n'] ++ t) = fence3 ++ r := by
      rw [← List.append_assoc]
      exact ht
    have he2 := List.append_cancel_left he
    cases r with
    | nil => cases he2
    | cons a r' =>
      rw [List.cons_append] at he2
      have hja := (List.cons.injEq .. ▸ he2).1
      rw [List.head?_cons, Option.some.injEq] at hr
      rw [hr] at hja
      cases hja

lemma fenceTail_append_fence (x : List Char) : fenceTail (x ++ fence3) = x := by
  unfold fenceTail
  rw [List.reverse_append]
  have hrev : fence3.reverse = fence3 := rfl
  rw [hrev, if_pos (List.isPrefixOf_iff_prefix.mpr ⟨x.reverse, rfl⟩)]
  have h3 : (3 : Nat) = fence3.length := rfl
  rw [h3, List.drop_left, List.reverse_reverse]

lemma jsTrim_pad (s : List Char)
    (hh : ∀ c, s.head? = some c → jsWs c = false)
    (hl : ∀ c, s.getLast? = some c → jsWs c = false) :
    jsTrim ('\n' :: s ++ ['\n']) = s := by
  unfold jsTrim
  rw [List.cons_append, List.dropWhile_cons]
  rw [show jsWs '\n' = true from rfl]
  simp only [if_true]
  rw [List.dropWhile_append, dropWhile_eq_self_of_head jsWs s hh]
  by_cases hs : s = []
  · subst hs
    simp [jsWs]
  · rw [if_neg (by simp [hs])]
    rw [List.reverse_append, List.reverse_singleton, List.singleton_append,
      List.dropWhile_cons]
    rw [show jsWs '\n' = true from rfl]
    simp only [if_true]
    rw [dropWhile_eq_self_of_head jsWs s.reverse
      (by intro c hc; rw [List.head?_reverse] at hc; exact hl c hc)]
    exact List.reverse_reverse s

lemma removeTicks_pad (s : List Char) (hb : btickC ∉ s) :
    removeTicks ('\n' :: s ++ ['\n']) = '\n' :: s ++ ['\n'] := by
  refine removeTicks_id _ ?_
  intro hm
  rw [List.cons_append] at hm
  rcases List.mem_cons.mp hm with hm | hm
  · cases hm
  · rcases List.mem_append.mp hm with hm | hm
    · exact hb hm
    · have := List.mem_singleton.mp hm
      cases this

lemma cleanJSON_fenced_json (s : List Char) (h : cleanDoc s) :
    cleanJSON (fenceJson ++ ('\n' :: s ++ '\n' :: fence3)) = s := by
  obtain ⟨hb, hsl, hq1, hq2, hq3, hq4, hh, hl, hcc⟩ := h
  refine cleanJSON_via _ s ⟨hb, hsl, hq1, hq2, hq3, hq4, hh, hl, hcc⟩ ?_
  rw [fenceHead_json]
  have hshape : '\n' :: s ++ '\n' :: fence3 = ('\n' :: s ++ ['\n']) ++ fence3 := by
    simp
  rw [hshape, fenceTail_append_fence, removeTicks_pad s hb, jsTrim_pad s hh hl]

lemma cleanJSON_fenced_plain (s : List Char) (h : cleanDoc s) :
    cleanJSON (fence3 ++ ('\n' :: s ++ '\n' :: fence3)) = s := by
  obtain ⟨hb, hsl, hq1, hq2, hq3, hq4, hh, hl, hcc⟩ := h
  refine cleanJSON_via _ s ⟨hb, hsl, hq1, hq2, hq3, hq4, hh, hl, hcc⟩ ?_
  rw [fenceHead_plain ('\n' :: s ++ '\n' :: fence3) rfl]
  have hshape : '\n' :: s ++ '\n' :: fence3 = ('\n' :: s ++ ['\n']) ++ fence3 := by
    simp
  rw [hshape, fenceTail_append_fence, removeTicks_pad s hb, jsTrim_pad s hh hl]

/-- The smart-quote malformation: every standard double quote replaced by
the left smart double quote. -/
def toSmart (c : Char) : Char := if c = qtC then smartLC else c

lemma toSmart_not_mem (s : List Char) (x : Char)
    (hx1 : x ≠ smartLC) (hx2 : x ∉ s) : x ∉ s.map toSmart := by
  intro hm
  obtain ⟨c, hc, hcx⟩ := List.mem_map.mp hm
  unfold toSmart at hcx
  by_cases hq : c = qtC
  · rw [if_pos hq] at hcx
    exact hx1 hcx.symm
  · rw [if_neg hq] at hcx
    rw [hcx] at hc
    exact hx2 hc

lemma jsWs_toSmart (c : Char) : jsWs (toSmart c) = jsWs c := by
  unfold toSmart
  by_cases hq : c = qtC
  · rw [if_pos hq, hq]
    rfl
  · rw [if_neg hq]

lemma cleanJSON_smart (s : List Char) (h : cleanDoc s) :
    cleanJSON (s.map toSmart) = s := by
  obtain ⟨hb, hsl, hq1, hq2, hq3, hq4, hh, hl, hcc⟩ := h
  have hbt : btickC ∉ s.map toSmart :=
    toSmart_not_mem s btickC (by decide) hb
  have hslt : ('/' : Char) ∉ s.map toSmart :=
    toSmart_not_mem s '/' (by decide) hsl
  have hht : ∀ c, (s.map toSmart).head? = some c → jsWs c = false := by
    intro c hc
    rw [List.head?_map] at hc
    cases hs : s.head? with
    | none => rw [hs] at hc; cases hc
    | some d =>
      rw [hs] at hc
      have hdc : toSmart d = c := by simpa using hc
      rw [← hdc, jsWs_toSmart]
      exact hh d hs
  have hlt : ∀ c, (s.map toSmart).getLast? = some c → jsWs c = false := by
    intro c hc
    rw [List.getLast?_map] at hc
    cases hs : s.getLast? with
    | none => rw [hs] at hc; cases hc
    | some d =>
      rw [hs] at hc
      have hdc : toSmart d = c := by simpa using hc
      rw [← hdc, jsWs_toSmart]
      exact hl d hs
  have hfix : smartFix (s.map toSmart) = s := by
    unfold smartFix
    rw [List.map_map]
    have h5 : ∀ c ∈ s,
        ((fun c => if c = smartLC ∨ c = smartRC then qtC
          else if c = smartlC ∨ c = smartrC then aposC else c) ∘ toSmart) c = id c := by
      intro c hc
      simp only [Function.comp_apply, toSmart]
      by_cases hq : c = qtC
      · rw [if_pos hq, if_pos (Or.inl rfl), hq]
        rfl
      · rw [if_neg hq, if_neg, if_neg]
        · rfl
        · rintro (rfl | rfl)
          · exact hq3 hc
          · exact hq4 hc
        · rintro (rfl | rfl)
          · exact hq1 hc
          · exact hq2 hc
    rw [List.map_congr_left h5, List.map_id]
  simp only [cleanJSON]
  rw [fenceHead_id _ hbt, fenceTail_id _ hbt, removeTicks_id _ hbt,
    jsTrim_eq_self _ hht hlt, lcAux_id _ hslt, bcAux_id _ _ hslt, hfix,
    cfAux_id s.length s hcc]

lemma dropWhile_ws_bracket (ws : List Char) (b : Char) (y : List Char)
    (hws : ∀ c ∈ ws, jsWs c = true) (hb : jsWs b = false) :
    (ws ++ b :: y).dropWhile jsWs = b :: y := by
  rw [List.dropWhile_append]
  rw [List.dropWhile_eq_nil_iff.mpr hws]
  rw [List.dropWhile_cons, hb]
  simp

lemma takeWhile_ws_bracket (ws : List Char) (b : Char) (y : List Char)
    (hws : ∀ c ∈ ws, jsWs c = true) (hb : jsWs b = false) :
    (ws ++ b :: y).takeWhile jsWs = ws := by
  rw [List.takeWhile_append]
  rw [List.takeWhile_eq_self_iff.mpr hws]
  rw [if_pos rfl, List.takeWhile_cons, hb]
  simp

lemma bracket_not_ws (b : Char) (hb : b = ']' ∨ b = '}') : jsWs b = false := by
  rcases hb with rfl | rfl <;> rfl

lemma wsBr_ws (ws : List Char) (b : Char) (y : List Char)
    (hws : ∀ c ∈ ws, jsWs c = true) (hb : b = ']' ∨ b = '}') :
    wsBr (ws ++ b :: y) = some (ws, b, y) := by
  unfold wsBr
  rw [dropWhile_ws_bracket ws b y hws (bracket_not_ws b hb),
    takeWhile_ws_bracket ws b y hws (bracket_not_ws b hb)]
  simp only []
  rw [if_pos hb]

lemma hasCommaClose_suffix : ∀ (pre t : List Char),
    hasCommaClose (pre ++ t) = false → hasCommaClose t = false := by
  intro pre
  induction pre with
  | nil => intro t h; exact h
  | cons c p ih =>
    intro t h
    rw [List.cons_append, hasCommaClose, Bool.or_eq_false_iff] at h
    exact ih t h.2

lemma wsBr_none_shift (x' ws : List Char) (b : Char) (y : List Char)
    (hws : ∀ c ∈ ws, jsWs c = true) (hb : b = ']' ∨ b = '}')
    (h : wsBr (x' ++ (ws ++ b :: y)) = none) :
    wsBr (x' ++ ',' :: (ws ++ b :: y)) = none := by
  unfold wsBr at h ⊢
  rw [List.dropWhile_append] at h ⊢
  by_cases he : (x'.dropWhile jsWs).isEmpty
  · rw [if_pos he] at h
    rw [dropWhile_ws_bracket ws b y hws (bracket_not_ws b hb)] at h
    simp only [] at h
    rw [if_pos hb] at h
    cases h
  · rw [if_neg he] at h ⊢
    cases hd : x'.dropWhile jsWs with
    | nil => rw [hd] at he; simp at he
    | cons d z =>
      rw [hd] at h
      rw [List.cons_append] at h ⊢
      simp only [] at h ⊢
      by_cases hdb : d = ']' ∨ d = '}'
      · rw [if_pos hdb] at h
        cases h
      · rw [if_neg hdb]

lemma cfAux_remove : ∀ (x : List Char) (fuel : Nat) (ws : List Char)
    (b : Char) (y : List Char),
    (∀ c ∈ ws, jsWs c = true) → (b = ']' ∨ b = '}') →
    hasCommaClose (x ++ (ws ++ b :: y)) = false →
    x.length < fuel →
    cfAux fuel (x ++ ',' :: (ws ++ b :: y)) = x ++ (ws ++ b :: y) := by
  intro x
  induction x with
  | nil =>
    intro fuel ws b y hws hb hcc hf
    cases fuel with
    | zero => exact absurd hf (by simp)
    | succ f =>
      rw [List.nil_append, cfAux, if_pos rfl, wsBr_ws ws b y hws hb]
      simp only []
      rw [cfAux_id f y (hasCommaClose_suffix (ws ++ [b]) y
        (by rw [List.append_assoc, List.singleton_append]; exact hcc))]
      simp
  | cons c x' ih =>
    intro fuel ws b y hws hb hcc hf
    cases fuel with
    | zero => exact absurd hf (by simp)
    | succ f =>
      rw [List.cons_append, cfAux]
      have hcc' : hasCommaClose (x' ++ (ws ++ b :: y)) = false := by
        rw [List.cons_append, hasCommaClose, Bool.or_eq_false_iff] at hcc
        exact hcc.2
      have hf' : x'.length < f := by
        simp only [List.length_cons] at hf
        omega
      by_cases hc : c = ','
      · rw [if_pos hc]
        have hnone : wsBr (x' ++ (ws ++ b :: y)) = none := by
          rw [List.cons_append, hasCommaClose, Bool.or_eq_false_iff,
            Bool.and_eq_false_iff] at hcc
          rcases hcc.1 with h1 | h1
          · rw [hc] at h1
            simp at h1
          · exact Option.not_isSome_iff_eq_none.mp (by rw [h1]; simp)
        rw [wsBr_none_shift x' ws b y hws hb hnone]
        simp only []
        rw [ih f ws b y hws hb hcc' hf']
        simp
      · rw [if_neg hc]
        rw [ih f ws b y hws hb hcc' hf']
        simp

lemma mem_insert_comma (ch : Char) (x r : List Char) (hch : ch ≠ ',')
    (h : ch ∉ x ++ r) : ch ∉ x ++ ',' :: r := by
  intro hm
  rcases List.mem_append.mp hm with hm | hm
  · exact h (List.mem_append_left _ hm)
  · rcases List.mem_cons.mp hm with hm | hm
    · exact hch hm
    · exact h (List.mem_append_right _ hm)

lemma cleanJSON_comma (x ws : List Char) (b : Char) (y : List Char)
    (hws : ∀ c ∈ ws, jsWs c = true) (hb : b = ']' ∨ b = '}')
    (h : cleanDoc (x ++ (ws ++ b :: y))) :
    cleanJSON (x ++ ',' :: (ws ++ b :: y)) = x ++ (ws ++ b :: y) := by
  obtain ⟨hbk, hsl, hq1, hq2, hq3, hq4, hh, hl, hcc⟩ := h
  have hbk' := mem_insert_comma btickC x _ (by decide) hbk
  have hsl' := mem_insert_comma '/' x _ (by decide) hsl
  have hq1' := mem_insert_comma smartLC x _ (by decide) hq1
  have hq2' := mem_insert_comma smartRC x _ (by decide) hq2
  have hq3' := mem_insert_comma smartlC x _ (by decide) hq3
  have hq4' := mem_insert_comma smartrC x _ (by decide) hq4
  have hh' : ∀ c, (x ++ ',' :: (ws ++ b :: y)).head? = some c → jsWs c = false := by
    cases x with
    | nil =>
      intro c hc
      rw [List.nil_append, List.head?_cons, Option.some.injEq] at hc
      rw [← hc]
      rfl
    | cons a t =>
      intro c hc
      rw [List.cons_append, List.head?_cons, Option.some.injEq] at hc
      refine hh c ?_
      rw [List.cons_append, List.head?_cons, hc]
  have hl' : ∀ c, (x ++ ',' :: (ws ++ b :: y)).getLast? = some c → jsWs c = false := by
    intro c hc
    rw [List.getLast?_append_of_ne_nil x (by simp)] at hc
    rw [show (',' :: (ws ++ b :: y)) = [','] ++ (ws ++ b :: y) from rfl,
      List.getLast?_append_of_ne_nil [','] (by simp)] at hc
    refine hl c ?_
    rw [List.getLast?_append_of_ne_nil x (by simp)]
    exact hc
  simp only [cleanJSON]
  rw [fenceHead_id _ hbk', fenceTail_id _ hbk', removeTicks_id _ hbk',
    jsTrim_eq_self _ hh' hl', lcAux_id _ hsl', bcAux_id _ _ hsl',
    smartFix_id _ hq1' hq2' hq3' hq4']
  refine cfAux_remove x _ ws b y hws hb hcc ?_
  simp

/-- C1 (amended).  For a clean document (cleanDoc: no backticks, no
slashes, no smart quotes, trimmed, no comma before a closing bracket)
the cleaning pipeline recovers the document from each listed
malformation: markdown code fences (tagged or plain), smart double
quotes substituted for standard ones, and one trailing comma inserted
before a closing bracket; a missing final bracket is recovered exactly
when the truncated text does not still end in a closing bracket of the
same kind, the qualification the unrestricted claim lacks (see the
counterexample); and equal recovered parses give equal import results. -/
theorem cleanJSON_malformations :
    (∀ s, cleanDoc s → cleanJSON s = s) ∧
    (∀ s, cleanDoc s →
      cleanJSON (fenceJson ++ ('\n' :: s ++ '\n' :: fence3)) = s ∧
      cleanJSON (fence3 ++ ('\n' :: s ++ '\n' :: fence3)) = s) ∧
    (∀ s, cleanDoc s → cleanJSON (s.map toSmart) = s) ∧
    (∀ x ws b y, (∀ c ∈ ws, jsWs c = true) → (b = ']' ∨ b = '}') →
      cleanDoc (x ++ (ws ++ b :: y)) →
      cleanJSON (x ++ ',' :: (ws ++ b :: y)) = x ++ (ws ++ b :: y)) ∧
    (∀ u j e, cleanDoc u → jsonParse u = .error e →
      ((jsTrim u).head? = some '[' → (jsTrim u).getLast? ≠ some ']' →
        jsonParse (u ++ [']']) = .ok j →
        parseWithRecovery (cleanJSON u) = .ok j) ∧
      ((jsTrim u).head? = some '{' → (jsTrim u).getLast? ≠ some '}' →
        jsonParse (u ++ ['}']) = .ok j →
        parseWithRecovery (cleanJSON u) = .ok j)) ∧
    (∀ (a b : String) exs wks,
      parseWithRecovery (cleanJSON a.data) = parseWithRecovery (cleanJSON b.data) →
      parseUniversalData a exs wks = parseUniversalData b exs wks) := by
  refine ⟨cleanJSON_id,
    fun s h => ⟨cleanJSON_fenced_json s h, cleanJSON_fenced_plain s h⟩,
    cleanJSON_smart, cleanJSON_comma, ?_, ?_⟩
  · intro u j e hclean he
    rw [cleanJSON_id u hclean]
    constructor
    · intro h1 h2 h3
      unfold parseWithRecovery
      rw [he]
      simp only []
      rw [if_pos ⟨h1, h2⟩, h3]
    · intro h1 h2 h3
      unfold parseWithRecovery
      rw [he]
      simp only []
      rw [if_neg, if_pos ⟨h1, h2⟩, h3]
      rintro ⟨ha, -⟩
      rw [h1] at ha
      have := Option.some.injEq .. ▸ ha
      cases this
  · intro a b exs wks hab
    simp only [parseUniversalData]
    rw [hab]

lemma head_cond_of_eq (u : List Char) (d : Char) (hd : u.head? = some d)
    (hws : jsWs d = false) : ∀ c, u.head? = some c → jsWs c = false := by
  intro c hc
  rw [hd] at hc
  obtain rfl : d = c := by simpa using hc
  exact hws

lemma last_cond_of_eq (u : List Char) (d : Char) (hd : u.getLast? = some d)
    (hws : jsWs d = false) : ∀ c, u.getLast? = some c → jsWs c = false := by
  intro c hc
  rw [hd] at hc
  obtain rfl : d = c := by simpa using hc
  exact hws

/-- Counterexample to the unqualified C1: a well-formed document whose
final closing brace is truncated away but which still ends in a closing
brace; neither completion condition fires, extraction reparses the same
malformed text, and the import fails instead of recovering. -/
theorem cleanJSON_malformations_counterexample :
    (∃ r, parseUniversalData
      "\x7b\"exercises\":[\x7b\"name\":\"Squat\"\x7d],\"extra\":\x7b\x7d\x7d" [] [] = .ok r) ∧
    ("\x7b\"exercises\":[\x7b\"name\":\"Squat\"\x7d],\"extra\":\x7b\x7d" : String).data =
      ("\x7b\"exercises\":[\x7b\"name\":\"Squat\"\x7d],\"extra\":\x7b\x7d\x7d" : String).data.dropLast ∧
    (∃ e, parseUniversalData
      "\x7b\"exercises\":[\x7b\"name\":\"Squat\"\x7d],\"extra\":\x7b\x7d" [] [] = .error e) := by
  exact ⟨⟨_, rfl⟩, by decide, ⟨_, rfl⟩⟩

/-- Witness for C1: a truncated object document satisfying the amended
side conditions is recovered by brace completion. -/
theorem cleanJSON_malformations_witness :
    parseWithRecovery (cleanJSON ("\x7b\"exercises\":[]" : String).data) =
      .ok (Json.obj (.cons "exercises" (.arr .nil) .nil)) := by
  have hcd : cleanDoc ("\x7b\"exercises\":[]" : String).data := by
    refine ⟨by decide, by decide, by decide, by decide, by decide, by decide,
      head_cond_of_eq _ (Char.ofNat 123) rfl rfl,
      last_cond_of_eq _ ']' rfl rfl, by rfl⟩
  exact (cleanJSON_malformations.2.2.2.2.1 ("\x7b\"exercises\":[]" : String).data
    (Json.obj (.cons "exercises" (.arr .nil) .nil))
    "Expected comma or brace in JSON object" hcd (by rfl)).2
    rfl (by decide) (by rfl)

/-! Digit-list facts supporting the number round trip. -/

lemma natDigits_single (n : Nat) (h : n < 10) :
    natDigits n = [Char.ofNat (48 + n)] := by
  unfold natDigits
  cases n with
  | zero => rfl
  | succ k =>
    rw [natDigitsAux]
    rw [if_pos h]

lemma natDigits_ne_nil (n : Nat) : natDigits n ≠ [] := by
  suffices h : ∀ f, n ≤ f → natDigitsAux f n ≠ [] by exact h n le_rfl
  intro f hf
  match f with
  | 0 => simp [natDigitsAux]
  | g + 1 =>
    by_cases hn : n < 10
    · simp [natDigitsAux, hn]
    · simp [natDigitsAux, hn]

lemma natDigits_ten_le (n : Nat) (h : 10 ≤ n) :
    ∀ f, n ≤ f → natDigitsAux f n =
      natDigitsAux (n / 10) (n / 10) ++ [Char.ofNat (48 + n % 10)] := by
  intro f hf
  match f with
  | 0 => omega
  | g + 1 =>
    rw [natDigitsAux, if_neg (by omega)]
    rw [natDigitsAux_congr (n / 10) g (n / 10) (by omega) le_rfl]

lemma natDigits_headI_ne_zero (n : Nat) (h : 1 ≤ n) :
    (natDigits n).headI ≠ '0' := by
  induction n using Nat.strong_induction_on with
  | _ n ih =>
    by_cases hn : n < 10
    · rw [natDigits_single n hn]
      interval_cases n <;> decide
    · unfold natDigits
      rw [natDigits_ten_le n (by omega) n le_rfl]
      have hne := natDigits_ne_nil (n / 10)
      unfold natDigits at hne
      cases hd : natDigitsAux (n / 10) (n / 10) with
      | nil => exact absurd hd hne
      | cons a tl =>
        have := ih (n / 10) (by omega) (by omega)
        unfold natDigits at this
        rw [hd] at this
        simpa using this

lemma natDigits_length_le (n k : Nat) (h1 : n < 10 ^ k) (h2 : 1 ≤ k) :
    (natDigits n).length ≤ k := by
  induction k generalizing n with
  | zero => omega
  | succ k ih =>
    by_cases hn : n < 10
    · rw [natDigits_single n hn]
      simp
    · unfold natDigits
      rw [natDigits_ten_le n (by omega) n le_rfl, List.length_append]
      cases k with
      | zero =>
        simp at h1
        omega
      | succ k2 =>
        have := ih (n / 10) (by
          have : n / 10 < 10 ^ (k2 + 1) := by
            rw [Nat.div_lt_iff_lt_mul (by omega)]
            calc n < 10 ^ (k2 + 1 + 1) := h1
            _ = 10 ^ (k2 + 1) * 10 := by ring
          exact this) (by omega)
        unfold natDigits at this
        simp only [List.length_singleton]
        omega

lemma digitsToNat_replicate_zero (k : Nat) (a : List Char) :
    digitsToNat (List.replicate k '0' ++ a) = digitsToNat a := by
  induction k with
  | zero => simp
  | succ k ih =>
    rw [List.replicate_succ, List.cons_append, digitsToNat]
    rw [ih]
    simp [digitVal]

lemma takeWhile_append_not (p : Char → Bool) (a rest : List Char)
    (ha : ∀ c ∈ a, p c = true)
    (hr : ∀ c, rest.head? = some c → p c = false) :
    (a ++ rest).takeWhile p = a ∧ (a ++ rest).dropWhile p = rest := by
  constructor
  · rw [List.takeWhile_append]
    rw [List.takeWhile_eq_self_iff.mpr ha]
    rw [if_pos rfl]
    cases rest with
    | nil => simp
    | cons c tl =>
      rw [List.takeWhile_cons, hr c rfl]
      simp
  · rw [List.dropWhile_append]
    rw [List.dropWhile_eq_nil_iff.mpr ha]
    simp only [List.isEmpty_nil, if_true]
    exact dropWhile_eq_self_of_head p rest hr

lemma decRepr_data (v : JsDec) :
    (decRepr v).data =
      (if v.m < 0 then ['-'] else []) ++
      (if v.d = 0 then natDigits v.m.natAbs
       else natDigits (v.m.natAbs / 10 ^ v.d) ++ '.' ::
         (List.replicate (v.d - (natDigits (v.m.natAbs % 10 ^ v.d)).length) '0' ++
          natDigits (v.m.natAbs % 10 ^ v.d))) := by
  unfold decRepr
  by_cases hm : v.m < 0 <;> by_cases hd : v.d = 0 <;>
    simp [hm, hd, natRepr, String.data_append]

lemma natDigits_all_digits (n : Nat) : ∀ c ∈ natDigits n, isDigit c = true :=
  fun c hc => (natDigits_digits n c hc).1

lemma natDigits_no_leading_zero (n : Nat) :
    ¬((natDigits n).length > 1 ∧ (natDigits n).headI = '0') := by
  rintro ⟨hl, hz⟩
  by_cases hn : n < 10
  · rw [natDigits_single n hn] at hl
    simp at hl
  · exact natDigits_headI_ne_zero n (by omega) hz


lemma parseNum_dec_pos_int (v : JsDec) (rest : List Char)
    (hd : ∀ c, rest.head? = some c → isDigit c = false)
    (hp : rest.head? ≠ some '.')
    (he : rest.head? ≠ some 'e') (hE : rest.head? ≠ some 'E')
    (hdd : v.d = 0) (hm : ¬ v.m < 0) :
    parseNum ((decRepr v).data ++ rest) = .ok (v, rest) := by
  rw [decRepr_data, if_pos hdd, if_neg hm, List.nil_append]
  set n := v.m.natAbs with hn
  have hbody := takeWhile_append_not isDigit (natDigits n) rest
    (natDigits_all_digits n) hd
  have hids : natDigits n ≠ [] := natDigits_ne_nil n
  cases hb : natDigits n with
  | nil => exact absurd hb hids
  | cons b0 btl =>
    have hb0 : isDigit b0 = true := by
      refine natDigits_all_digits n b0 ?_
      rw [hb]
      simp
    have hb0ne : ¬ (b0 = '-') := by
      intro hq
      rw [hq] at hb0
      cases hb0
    simp only [parseNum, List.cons_append]
    rw [if_neg hb0ne]
    simp only []
    rw [show b0 :: (btl ++ rest) = natDigits n ++ rest by rw [hb, List.cons_append]]
    rw [hbody.1, hbody.2]
    rw [if_neg hids]
    rw [if_neg (natDigits_no_leading_zero n)]
    have hfin : (↑(digitsToNat (natDigits n ++ [])) : Int) = v.m := by
      rw [List.append_nil, digitsToNat_natDigits]
      omega
    cases hr : rest with
    | nil =>
      simp only []
      rw [if_neg (by simp)]
      simp only [List.length_nil]
      rw [if_pos (by omega)]
      rw [Except.ok.injEq, Prod.mk.injEq]
      refine ⟨?_, rfl⟩
      rw [JsDec.mk.injEq]
      constructor
      · rw [hfin]
        simp
      · omega
    | cons r0 rtl =>
      have hr0d : isDigit r0 = false := hd r0 (by rw [hr]; rfl)
      have hr0p : ¬ (r0 = '.') := by
        intro hq
        rw [hr, hq] at hp
        exact hp rfl
      have hr0e : ¬ (r0 = 'e' ∨ r0 = 'E') := by
        rintro (hq | hq)
        · rw [hr, hq] at he
          exact he rfl
        · rw [hr, hq] at hE
          exact hE rfl
      simp only []
      rw [if_neg hr0p]
      simp only []
      rw [if_neg (by rintro ⟨-, hq, -⟩; exact hr0p (by simpa using hq))]
      rw [if_neg hr0e]
      simp only [List.length_nil]
      rw [if_pos (by omega)]
      rw [Except.ok.injEq, Prod.mk.injEq]
      refine ⟨?_, rfl⟩
      rw [JsDec.mk.injEq]
      constructor
      · rw [hfin]
        simp
      · omega

lemma parseNum_dec_pos_frac (v : JsDec) (rest : List Char)
    (hd : ∀ c, rest.head? = some c → isDigit c = false)
    (hp : rest.head? ≠ some '.')
    (he : rest.head? ≠ some 'e') (hE : rest.head? ≠ some 'E')
    (hdd : ¬ v.d = 0) (hm : ¬ v.m < 0) :
    parseNum ((decRepr v).data ++ rest) = .ok (v, rest) := by
  rw [decRepr_data, if_neg hdd, if_neg hm, List.nil_append]
  set n := v.m.natAbs with hn
  set ip := n / 10 ^ v.d with hip
  set fp := n % 10 ^ v.d with hfp
  set pad := List.replicate (v.d - (natDigits fp).length) '0' with hpad
  have hfd : ∀ c ∈ pad ++ natDigits fp, isDigit c = true := by
    intro c hc
    rcases List.mem_append.mp hc with hc | hc
    · rw [hpad] at hc
      rw [List.eq_of_mem_replicate hc]
      decide
    · exact natDigits_all_digits fp c hc
  have hlen : (pad ++ natDigits fp).length = v.d := by
    rw [List.length_append, hpad, List.length_replicate]
    have := natDigits_length_le fp v.d (Nat.mod_lt _ (by positivity)) (by omega)
    omega
  have hassoc : (natDigits ip ++ '.' :: (pad ++ natDigits fp)) ++ rest =
      natDigits ip ++ '.' :: ((pad ++ natDigits fp) ++ rest) := by
    simp
  rw [hassoc]
  have hbody := takeWhile_append_not isDigit (natDigits ip)
    ('.' :: ((pad ++ natDigits fp) ++ rest)) (natDigits_all_digits ip)
    (by
      intro c hc
      rw [List.head?_cons, Option.some.injEq] at hc
      rw [← hc]
      decide)
  have hfrac := takeWhile_append_not isDigit (pad ++ natDigits fp) rest hfd hd
  have hids : natDigits ip ≠ [] := natDigits_ne_nil ip
  cases hb : natDigits ip with
  | nil => exact absurd hb hids
  | cons b0 btl =>
    have hb0 : isDigit b0 = true := by
      refine natDigits_all_digits ip b0 ?_
      rw [hb]
      simp
    have hb0ne : ¬ (b0 = '-') := by
      intro hq
      rw [hq] at hb0
      cases hb0
    simp only [parseNum, List.cons_append]
    rw [if_neg hb0ne]
    simp only []
    rw [show b0 :: (btl ++ '.' :: ((pad ++ natDigits fp) ++ rest)) =
      natDigits ip ++ '.' :: ((pad ++ natDigits fp) ++ rest) by
      rw [hb, List.cons_append]]
    rw [hbody.1, hbody.2]
    rw [if_neg hids]
    rw [if_neg (natDigits_no_leading_zero ip)]
    simp only [if_true]
    rw [hfrac.1, hfrac.2]
    have hfne : pad ++ natDigits fp ≠ [] := by
      intro hq
      rw [hq] at hlen
      simp at hlen
      omega
    rw [if_neg (by rintro ⟨-, -, hq⟩; exact hfne hq)]
    have hmant : (↑(digitsToNat (natDigits ip ++ (pad ++ natDigits fp))) : Int) = v.m := by
      rw [digitsToNat_append, hpad, digitsToNat_replicate_zero, digitsToNat_natDigits,
        digitsToNat_natDigits, ← hpad, hlen, hip, hfp]
      have hdm := Nat.div_add_mod n (10 ^ v.d)
      rw [Nat.mul_comm] at hdm
      omega
    have hsc : ((0 : Int) - ↑(pad ++ natDigits fp).length) < 0 := by
      rw [hlen]
      omega
    cases hr : rest with
    | nil =>
      simp only []
      rw [if_neg (by omega)]
      rw [Except.ok.injEq, Prod.mk.injEq]
      refine ⟨?_, rfl⟩
      rw [JsDec.mk.injEq]
      constructor
      · rw [if_neg (by decide), hmant]
      · rw [hlen]
        omega
    | cons r0 rtl =>
      have hr0e : ¬ (r0 = 'e' ∨ r0 = 'E') := by
        rintro (hq | hq)
        · rw [hr, hq] at he
          exact he rfl
        · rw [hr, hq] at hE
          exact hE rfl
      simp only []
      rw [if_neg hr0e]
      simp only []
      rw [if_neg (by omega)]
      rw [Except.ok.injEq, Prod.mk.injEq]
      refine ⟨?_, rfl⟩
      rw [JsDec.mk.injEq]
      constructor
      · rw [if_neg (by decide), hmant]
      · rw [hlen]
        omega

lemma parseNum_dec_neg_int (v : JsDec) (rest : List Char)
    (hd : ∀ c, rest.head? = some c → isDigit c = false)
    (hp : rest.head? ≠ some '.')
    (he : rest.head? ≠ some 'e') (hE : rest.head? ≠ some 'E')
    (hdd : v.d = 0) (hm : v.m < 0) :
    parseNum ((decRepr v).data ++ rest) = .ok (v, rest) := by
  rw [decRepr_data, if_pos hdd, if_pos hm]
  simp only [List.cons_append, List.nil_append]
  set n := v.m.natAbs with hn
  have hbody := takeWhile_append_not isDigit (natDigits n) rest
    (natDigits_all_digits n) hd
  have hids : natDigits n ≠ [] := natDigits_ne_nil n
  simp only [parseNum, if_true]
  rw [hbody.1, hbody.2]
  rw [if_neg hids]
  rw [if_neg (natDigits_no_leading_zero n)]
  have hfin : -(↑(digitsToNat (natDigits n ++ [])) : Int) = v.m := by
    rw [List.append_nil, digitsToNat_natDigits]
    omega
  cases hr : rest with
  | nil =>
    simp only []
    rw [if_neg (by simp)]
    simp only [List.length_nil]
    rw [if_pos (by omega)]
    rw [Except.ok.injEq, Prod.mk.injEq]
    refine ⟨?_, rfl⟩
    rw [JsDec.mk.injEq]
    constructor
    · rw [hfin]
      simp
    · omega
  | cons r0 rtl =>
    have hr0d : isDigit r0 = false := hd r0 (by rw [hr]; rfl)
    have hr0p : ¬ (r0 = '.') := by
      intro hq
      rw [hr, hq] at hp
      exact hp rfl
    have hr0e : ¬ (r0 = 'e' ∨ r0 = 'E') := by
      rintro (hq | hq)
      · rw [hr, hq] at he
        exact he rfl
      · rw [hr, hq] at hE
        exact hE rfl
    simp only []
    rw [if_neg hr0p]
    simp only []
    rw [if_neg (by rintro ⟨-, hq, -⟩; exact hr0p (by simpa using hq))]
    rw [if_neg hr0e]
    simp only [List.length_nil]
    rw [if_pos (by omega)]
    rw [Except.ok.injEq, Prod.mk.injEq]
    refine ⟨?_, rfl⟩
    rw [JsDec.mk.injEq]
    constructor
    · rw [hfin]
      simp
    · omega
lemma parseNum_dec_neg_frac (v : JsDec) (rest : List Char)
    (hd : ∀ c, rest.head? = some c → isDigit c = false)
    (hp : rest.head? ≠ some '.')
    (he : rest.head? ≠ some 'e') (hE : rest.head? ≠ some 'E')
    (hdd : ¬ v.d = 0) (hm : v.m < 0) :
    parseNum ((decRepr v).data ++ rest) = .ok (v, rest) := by
  rw [decRepr_data, if_neg hdd, if_pos hm]
  simp only [List.cons_append, List.nil_append]
  set n := v.m.natAbs with hn
  set ip := n / 10 ^ v.d with hip
  set fp := n % 10 ^ v.d with hfp
  set pad := List.replicate (v.d - (natDigits fp).length) '0' with hpad
  have hfd : ∀ c ∈ pad ++ natDigits fp, isDigit c = true := by
    intro c hc
    rcases List.mem_append.mp hc with hc | hc
    · rw [hpad] at hc
      rw [List.eq_of_mem_replicate hc]
      decide
    · exact natDigits_all_digits fp c hc
  have hlen : (pad ++ natDigits fp).length = v.d := by
    rw [List.length_append, hpad, List.length_replicate]
    have := natDigits_length_le fp v.d (Nat.mod_lt _ (by positivity)) (by omega)
    omega
  have hassoc : (natDigits ip ++ '.' :: (pad ++ natDigits fp)) ++ rest =
      natDigits ip ++ '.' :: ((pad ++ natDigits fp) ++ rest) := by
    simp
  rw [hassoc]
  have hbody := takeWhile_append_not isDigit (natDigits ip)
    ('.' :: ((pad ++ natDigits fp) ++ rest)) (natDigits_all_digits ip)
    (by
      intro c hc
      rw [List.head?_cons, Option.some.injEq] at hc
      rw [← hc]
      decide)
  have hfrac := takeWhile_append_not isDigit (pad ++ natDigits fp) rest hfd hd
  have hids : natDigits ip ≠ [] := natDigits_ne_nil ip
  simp only [parseNum, if_true]
  rw [hbody.1, hbody.2]
  rw [if_neg hids]
  rw [if_neg (natDigits_no_leading_zero ip)]
  simp only [if_true]
  rw [hfrac.1, hfrac.2]
  have hfne : pad ++ natDigits fp ≠ [] := by
    intro hq
    rw [hq] at hlen
    simp at hlen
    omega
  rw [if_neg (by rintro ⟨-, -, hq⟩; exact hfne hq)]
  have hmant : -(↑(digitsToNat (natDigits ip ++ (pad ++ natDigits fp))) : Int) = v.m := by
    rw [digitsToNat_append, hpad, digitsToNat_replicate_zero, digitsToNat_natDigits,
      digitsToNat_natDigits, ← hpad, hlen, hip, hfp]
    have hdm := Nat.div_add_mod n (10 ^ v.d)
    rw [Nat.mul_comm] at hdm
    omega
  have hsc : ((0 : Int) - ↑(pad ++ natDigits fp).length) < 0 := by
    rw [hlen]
    omega
  cases hr : rest with
  | nil =>
    simp only []
    rw [if_neg (by omega)]
    rw [Except.ok.injEq, Prod.mk.injEq]
    refine ⟨?_, rfl⟩
    rw [JsDec.mk.injEq]
    constructor
    · rw [hmant]
    · rw [hlen]
      omega
  | cons r0 rtl =>
    have hr0e : ¬ (r0 = 'e' ∨ r0 = 'E') := by
      rintro (hq | hq)
      · rw [hr, hq] at he
        exact he rfl
      · rw [hr, hq] at hE
        exact hE rfl
    simp only []
    rw [if_neg hr0e]
    simp only []
    rw [if_neg (by omega)]
    rw [Except.ok.injEq, Prod.mk.injEq]
    refine ⟨?_, rfl⟩
    rw [JsDec.mk.injEq]
    constructor
    · rw [hmant]
    · rw [hlen]
      omega


/-- The number round trip: parsing the canonical rendering restores the
exact decimal, leaving a non-numeric remainder untouched. -/
lemma parseNum_decRepr (v : JsDec) (rest : List Char)
    (hd : ∀ c, rest.head? = some c → isDigit c = false)
    (hp : rest.head? ≠ some '.')
    (he : rest.head? ≠ some 'e') (hE : rest.head? ≠ some 'E') :
    parseNum ((decRepr v).data ++ rest) = .ok (v, rest) := by
  by_cases hdd : v.d = 0 <;> by_cases hm : v.m < 0
  · exact parseNum_dec_neg_int v rest hd hp he hE hdd hm
  · exact parseNum_dec_pos_int v rest hd hp he hE hdd hm
  · exact parseNum_dec_neg_frac v rest hd hp he hE hdd hm
  · exact parseNum_dec_pos_frac v rest hd hp he hE hdd hm

/-! String-literal round trip. -/

lemma hexVal_hexDigit (n : Nat) (h : n < 16) : hexVal (hexDigit n) = some n := by
  interval_cases n <;> decide

lemma pStrBody_escape (s : List Char) : ∀ (fuel : Nat) (rest : List Char),
    (escapeStr s).length < fuel →
    pStrBody fuel (escapeStr s ++ (qtC :: rest)) = .ok (s, rest) := by
  induction s with
  | nil =>
    intro fuel rest hf
    match fuel with
    | f + 1 =>
      simp only [escapeStr, List.nil_append, pStrBody, if_true]
  | cons c tl ih =>
    intro fuel rest hf
    rw [escapeStr] at hf ⊢
    match fuel with
    | f + 1 =>
      rw [List.append_assoc]
      rw [List.length_append] at hf
      unfold escapeChar at hf ⊢
      by_cases h1 : c = qtC
      · rw [if_pos h1] at hf ⊢
        simp only [List.cons_append, pStrBody, List.append_eq, List.singleton_append]
        rw [if_neg (by decide)]
        simp only [if_true, true_or, List.nil_append, bind, Except.bind]
        rw [ih f rest (by simp only [List.length_cons, List.length_nil] at hf; omega)]
        rw [h1]
      · rw [if_neg h1] at hf ⊢
        by_cases h2 : c = bslashC
        · rw [if_pos h2] at hf ⊢
          simp +decide only [List.cons_append, pStrBody, List.append_eq,
            List.singleton_append, List.nil_append, bind, Except.bind,
            if_true, if_false, true_or, or_true]
          rw [ih f rest (by simp only [List.length_cons, List.length_nil] at hf; omega)]
          rw [h2]
        · rw [if_neg h2] at hf ⊢
          by_cases h3 : c.toNat = 8
          · rw [if_pos h3] at hf ⊢
            simp +decide only [List.cons_append, pStrBody, List.append_eq,
              List.singleton_append, List.nil_append, bind, Except.bind,
              if_true, if_false, true_or, or_true]
            rw [ih f rest (by simp only [List.length_cons, List.length_nil] at hf; omega)]
            rw [show Char.ofNat 8 = c from h3 ▸ Char.ofNat_toNat c]
          · rw [if_neg h3] at hf ⊢
            by_cases h4 : c.toNat = 12
            · rw [if_pos h4] at hf ⊢
              simp +decide only [List.cons_append, pStrBody, List.append_eq,
                List.singleton_append, List.nil_append, bind, Except.bind,
                if_true, if_false, true_or, or_true]
              rw [ih f rest (by simp only [List.length_cons, List.length_nil] at hf; omega)]
              rw [show Char.ofNat 12 = c from h4 ▸ Char.ofNat_toNat c]
            · rw [if_neg h4] at hf ⊢
              by_cases h5 : c.toNat = 10
              · rw [if_pos h5] at hf ⊢
                simp +decide only [List.cons_append, pStrBody, List.append_eq,
                  List.singleton_append, List.nil_append, bind, Except.bind,
                  if_true, if_false, true_or, or_true]
                rw [ih f rest (by simp only [List.length_cons, List.length_nil] at hf; omega)]
                rw [show Char.ofNat 10 = c from h5 ▸ Char.ofNat_toNat c]
              · rw [if_neg h5] at hf ⊢
                by_cases h6 : c.toNat = 13
                · rw [if_pos h6] at hf ⊢
                  simp +decide only [List.cons_append, pStrBody, List.append_eq,
                    List.singleton_append, List.nil_append, bind, Except.bind,
                    if_true, if_false, true_or, or_true]
                  rw [ih f rest (by simp only [List.length_cons, List.length_nil] at hf; omega)]
                  rw [show Char.ofNat 13 = c from h6 ▸ Char.ofNat_toNat c]
                · rw [if_neg h6] at hf ⊢
                  by_cases h7 : c.toNat = 9
                  · rw [if_pos h7] at hf ⊢
                    simp +decide only [List.cons_append, pStrBody, List.append_eq,
                      List.singleton_append, List.nil_append, bind, Except.bind,
                      if_true, if_false, true_or, or_true]
                    rw [ih f rest (by simp only [List.length_cons, List.length_nil] at hf; omega)]
                    rw [show Char.ofNat 9 = c from h7 ▸ Char.ofNat_toNat c]
                  · rw [if_neg h7] at hf ⊢
                    by_cases h8 : c.toNat < 32
                    · rw [if_pos h8] at hf ⊢
                      have hhi := hexVal_hexDigit (c.toNat / 16) (by omega)
                      have hlo := hexVal_hexDigit (c.toNat % 16) (by omega)
                      have h0 : hexVal '0' = some 0 := by decide
                      simp +decide only [List.cons_append, pStrBody, List.append_eq,
                        List.singleton_append, List.nil_append, bind, Except.bind,
                        if_true, if_false, true_or, or_true, hhi, hlo, h0]
                      rw [ih f rest (by
                        simp only [List.length_cons, List.length_nil] at hf
                        omega)]
                      rw [show (((0 * 16 + 0) * 16 + c.toNat / 16) * 16 + c.toNat % 16)
                        = c.toNat from by omega, Char.ofNat_toNat]
                    · rw [if_neg h8] at hf ⊢
                      simp only [List.cons_append, List.nil_append, pStrBody]
                      rw [if_neg h1, if_neg h2, if_neg h8]
                      simp only [bind, Except.bind, List.append_eq, List.nil_append]
                      rw [ih f rest (by
                        simp only [List.length_cons, List.length_nil] at hf
                        omega)]

/-! Structural size and duplicate-key freedom of JSON values, for the
render/parse round trip. -/

mutual
def sizeJ : Json → Nat
  | .null => 1
  | .bool _ => 1
  | .num _ => 1
  | .str _ => 1
  | .arr xs => sizeA xs + 1
  | .obj fs => sizeO fs + 1

def sizeA : JsonArr → Nat
  | .nil => 1
  | .cons x tl => sizeJ x + sizeA tl + 1

def sizeO : JsonObj → Nat
  | .nil => 1
  | .cons _ v tl => sizeJ v + sizeO tl + 1
end

mutual
def wfJ : Json → Bool
  | .null => true
  | .bool _ => true
  | .num _ => true
  | .str _ => true
  | .arr xs => wfA xs
  | .obj fs => wfO fs

def wfA : JsonArr → Bool
  | .nil => true
  | .cons x tl => wfJ x && wfA tl

def wfO : JsonObj → Bool
  | .nil => true
  | .cons k v tl => (tl.get k).isNone && wfJ v && wfO tl
end

/-- The remainder after a rendered value inside a document: nothing, or a
separator. -/
def sepRest (rest : List Char) : Prop :=
  rest.head? = none ∨ rest.head? = some ',' ∨ rest.head? = some ']' ∨
    rest.head? = some '}' ∨ rest.head? = some ':'

lemma isDigit_toNat (c : Char) (h : isDigit c = true) :
    48 ≤ c.toNat ∧ c.toNat ≤ 57 := by
  simp only [isDigit, digitVal] at h
  by_cases hc : ('0' : Char) ≤ c ∧ c ≤ '9'
  · obtain ⟨h1, h2⟩ := hc
    simp [Char.le_def] at h1 h2
    exact ⟨h1, h2⟩
  · rw [if_neg hc] at h
    cases h

lemma isDigit_char_facts (c : Char) (h : isDigit c = true) :
    jsonWs c = false ∧ c ≠ qtC ∧ c ≠ '[' ∧ c ≠ '{' ∧ c ≠ 't' ∧ c ≠ 'f' ∧
      c ≠ 'n' ∧ c ≠ ']' ∧ c ≠ '}' := by
  obtain ⟨h1, h2⟩ := isDigit_toNat c h
  have hne : ∀ d : Char, d.toNat < 48 ∨ 57 < d.toNat → c ≠ d := by
    intro d hd he
    subst he
    omega
  refine ⟨?_, hne _ (by decide), hne _ (by decide), hne _ (by decide),
    hne _ (by decide), hne _ (by decide), hne _ (by decide),
    hne _ (by decide), hne _ (by decide)⟩
  simp only [jsonWs, Bool.or_eq_false_iff]
  refine ⟨⟨⟨?_, ?_⟩, ?_⟩, ?_⟩ <;>
    · simp only [decide_eq_false_iff_not]
      exact hne _ (by decide)

lemma sizeJ_pos (v : Json) : 1 ≤ sizeJ v := by
  cases v <;> simp [sizeJ]

lemma sizeA_pos (xs : JsonArr) : 1 ≤ sizeA xs := by
  cases xs <;> simp [sizeA]

lemma sizeO_pos (fs : JsonObj) : 1 ≤ sizeO fs := by
  cases fs <;> simp [sizeO]

lemma consKV_of_not_mem (k : String) (v : Json) (tl : JsonObj)
    (h : tl.get k = none) : JsonObj.consKV k v tl = .cons k v tl := by
  unfold JsonObj.consKV
  rw [h]

/-- The first character of a rendered value: never whitespace, never a
closing bracket, never a comma or colon. -/
lemma renderJson_head (v : Json) : ∃ c t, renderJson v = c :: t ∧
    jsonWs c = false ∧ c ≠ ']' ∧ c ≠ '}' := by
  cases v with
  | null => exact ⟨'n', _, rfl, by decide, by decide, by decide⟩
  | bool b =>
    cases b
    · exact ⟨'f', _, rfl, by decide, by decide, by decide⟩
    · exact ⟨'t', _, rfl, by decide, by decide, by decide⟩
  | str s => exact ⟨qtC, _, rfl, by decide, by decide, by decide⟩
  | arr xs => exact ⟨'[', _, rfl, by decide, by decide, by decide⟩
  | obj fs => exact ⟨'{', _, rfl, by decide, by decide, by decide⟩
  | num w =>
    show ∃ c t, (decRepr w).data = c :: t ∧ _
    rw [decRepr_data]
    by_cases hm : w.m < 0
    · rw [if_pos hm]
      exact ⟨'-', _, rfl, by decide, by decide, by decide⟩
    · rw [if_neg hm, List.nil_append]
      by_cases hd : w.d = 0
      · rw [if_pos hd]
        cases hb : natDigits w.m.natAbs with
        | nil => exact absurd hb (natDigits_ne_nil _)
        | cons b0 btl =>
          have hb0 : isDigit b0 = true :=
            natDigits_all_digits _ b0 (by rw [hb]; simp)
          obtain ⟨f1, -, -, -, -, -, -, f8, f9⟩ := isDigit_char_facts b0 hb0
          exact ⟨b0, btl, rfl, f1, f8, f9⟩
      · rw [if_neg hd]
        cases hb : natDigits (w.m.natAbs / 10 ^ w.d) with
        | nil => exact absurd hb (natDigits_ne_nil _)
        | cons b0 btl =>
          have hb0 : isDigit b0 = true :=
            natDigits_all_digits _ b0 (by rw [hb]; simp)
          obtain ⟨f1, -, -, -, -, -, -, f8, f9⟩ := isDigit_char_facts b0 hb0
          exact ⟨b0, _, rfl, f1, f8, f9⟩

lemma JsonArr_toList_ofList (l : List Json) : (JsonArr.ofList l).toList = l := by
  induction l with
  | nil => rfl
  | cons x tl ih => simp [JsonArr.ofList, JsonArr.toList, ih]

lemma sepRest_facts (rest : List Char) (h : sepRest rest) :
    (∀ c, rest.head? = some c → isDigit c = false) ∧
    rest.head? ≠ some '.' ∧ rest.head? ≠ some 'e' ∧ rest.head? ≠ some 'E' := by
  rcases h with h | h | h | h | h <;>
    refine ⟨?_, by rw [h]; simp, by rw [h]; simp, by rw [h]; simp⟩ <;>
    · intro c hc
      rw [h] at hc
      first
        | (obtain rfl : _ = c := by simpa using hc
           decide)
        | cases hc

lemma decRepr_head (w : JsDec) : ∃ c t, (decRepr w).data = c :: t ∧
    (c = '-' ∨ isDigit c = true) := by
  rw [decRepr_data]
  by_cases hm : w.m < 0
  · rw [if_pos hm]
    exact ⟨'-', _, rfl, Or.inl rfl⟩
  · rw [if_neg hm, List.nil_append]
    by_cases hd : w.d = 0
    · rw [if_pos hd]
      cases hb : natDigits w.m.natAbs with
      | nil => exact absurd hb (natDigits_ne_nil _)
      | cons b0 btl =>
        exact ⟨b0, btl, rfl,
          Or.inr (natDigits_all_digits _ b0 (by rw [hb]; simp))⟩
    · rw [if_neg hd]
      cases hb : natDigits (w.m.natAbs / 10 ^ w.d) with
      | nil => exact absurd hb (natDigits_ne_nil _)
      | cons b0 btl =>
        exact ⟨b0, _, rfl,
          Or.inr (natDigits_all_digits _ b0 (by rw [hb]; simp))⟩

lemma renderArr_cons_eq (x : Json) (tl : JsonArr) :
    ∃ t, renderArr (.cons x tl) = renderJson x ++ t := by
  cases tl with
  | nil => exact ⟨[], by simp [renderArr]⟩
  | cons y tl2 => exact ⟨',' :: renderArr (.cons y tl2), rfl⟩

lemma renderObj_cons_eq (k : String) (v : Json) (tl : JsonObj) :
    ∃ t, renderObj (.cons k v tl) = qtC :: t := by
  cases tl with
  | nil => exact ⟨_, rfl⟩
  | cons k2 v2 tl2 => exact ⟨_, rfl⟩

lemma parse_render (fuel : Nat) :
    (∀ v rest, sizeJ v < fuel → wfJ v = true → sepRest rest →
      parseValue fuel (renderJson v ++ rest) = .ok (v, rest)) ∧
    (∀ x tl rest, sizeA (JsonArr.cons x tl) < fuel →
      wfA (JsonArr.cons x tl) = true → sepRest rest →
      parseElems fuel (renderArr (.cons x tl) ++ ']' :: rest) =
        .ok (.cons x tl, rest)) ∧
    (∀ k v tl rest, sizeO (JsonObj.cons k v tl) < fuel →
      wfO (JsonObj.cons k v tl) = true → sepRest rest →
      parseMembers fuel (renderObj (.cons k v tl) ++ '}' :: rest) =
        .ok (.cons k v tl, rest)) := by
  induction fuel with
  | zero =>
    refine ⟨?_, ?_, ?_⟩
    · intro v rest h _ _
      exact absurd h (by omega)
    · intro x tl rest h _ _
      exact absurd h (by omega)
    · intro k v tl rest h _ _
      exact absurd h (by omega)
  | succ f ih =>
    obtain ⟨ihV, ihA, ihO⟩ := ih
    refine ⟨?_, ?_, ?_⟩
    · intro v rest hs hw hsep
      cases v with
      | null =>
        simp +decide only [renderJson, litNull, parseValue, List.cons_append,
          List.nil_append, List.dropWhile_cons, if_false, if_true, expectLit,
          List.isPrefixOf, bind, Except.bind, List.drop_succ_cons,
          List.drop_zero, Bool.and_true, Bool.true_and, List.length_cons,
          List.length_nil]
      | bool b =>
        cases b <;>
          simp +decide only [renderJson, litTrue, litFalse, parseValue,
            List.cons_append, List.nil_append, List.dropWhile_cons, if_false,
            if_true, expectLit, List.isPrefixOf, bind, Except.bind,
            List.drop_succ_cons, List.drop_zero, Bool.and_true, Bool.true_and,
            List.length_cons, List.length_nil]
      | str s =>
        simp +decide only [renderJson, parseValue, List.cons_append,
          List.dropWhile_cons, if_false, if_true, bind, Except.bind]
        rw [show escapeStr s.data ++ [qtC] ++ rest =
          escapeStr s.data ++ (qtC :: rest) by simp]
        rw [pStrBody_escape s.data _ rest
          (by simp only [List.length_append, List.length_cons]; omega)]
      | num w =>
        obtain ⟨hsd, hsp, hse, hsE⟩ := sepRest_facts rest hsep
        have hpn := parseNum_decRepr w rest hsd hsp hse hsE
        obtain ⟨c0, t0, hr, hcls⟩ := decRepr_head w
        have hfacts : jsonWs c0 = false ∧ c0 ≠ qtC ∧ c0 ≠ '[' ∧ c0 ≠ '{' ∧
            c0 ≠ 't' ∧ c0 ≠ 'f' ∧ c0 ≠ 'n' := by
          rcases hcls with rfl | hdig
          · exact ⟨by decide, by decide, by decide, by decide, by decide,
              by decide, by decide⟩
          · obtain ⟨g1, g2, g3, g4, g5, g6, g7, -, -⟩ :=
              isDigit_char_facts c0 hdig
            exact ⟨g1, g2, g3, g4, g5, g6, g7⟩
        obtain ⟨g1, g2, g3, g4, g5, g6, g7⟩ := hfacts
        rw [show renderJson (.num w) = (decRepr w).data from rfl, hr,
          List.cons_append]
        simp only [parseValue, List.dropWhile_cons, g1]
        simp only [Bool.false_eq_true, if_false]
        rw [if_neg g2, if_neg g3, if_neg g4, if_neg g5, if_neg g6, if_neg g7,
          if_pos (by rcases hcls with rfl | hdig
                     · exact Or.inl rfl
                     · exact Or.inr hdig)]
        simp only [bind, Except.bind]
        rw [show c0 :: (t0 ++ rest) = (decRepr w).data ++ rest by
          rw [hr, List.cons_append]]
        rw [hpn]
      | arr xs =>
        cases xs with
        | nil =>
          simp +decide only [renderJson, renderArr, parseValue,
            List.cons_append, List.nil_append, List.dropWhile_cons, if_false,
            if_true]
        | cons x tl =>
          obtain ⟨t1, ht1⟩ := renderArr_cons_eq x tl
          obtain ⟨c0, t0, hr, hw0, hb1, hb2⟩ := renderJson_head x
          have hshape : renderJson (Json.arr (JsonArr.cons x tl)) ++ rest =
              '[' :: (renderArr (JsonArr.cons x tl) ++ (']' :: rest)) := by
            simp [renderJson]
          rw [hshape]
          simp only [parseValue, List.dropWhile_cons]
          rw [show jsonWs '[' = false from rfl]
          simp +decide only [Bool.false_eq_true, if_false, if_true]
          rw [ht1, hr]
          simp only [List.cons_append, List.append_assoc, List.dropWhile_cons,
            hw0]
          simp only [Bool.false_eq_true, if_false]
          split
          · rename_i heq
            rw [List.cons.injEq] at heq
            exact absurd heq.1 hb1
          · simp only [bind, Except.bind]
            rw [show c0 :: (t0 ++ (t1 ++ ']' :: rest)) =
              renderArr (JsonArr.cons x tl) ++ (']' :: rest) by
              rw [ht1, hr]
              simp]
            rw [ihA x tl rest (by simp only [sizeJ, sizeA] at hs ⊢; omega)
              (by simpa [wfJ] using hw) hsep]
      | obj fs =>
        cases fs with
        | nil =>
          simp +decide only [renderJson, renderObj, parseValue,
            List.cons_append, List.nil_append, List.dropWhile_cons, if_false,
            if_true]
        | cons k v tl =>
          obtain ⟨t1, ht1⟩ := renderObj_cons_eq k v tl
          have hshape : renderJson (Json.obj (JsonObj.cons k v tl)) ++ rest =
              '{' :: (renderObj (JsonObj.cons k v tl) ++ ('}' :: rest)) := by
            simp [renderJson]
          rw [hshape]
          simp only [parseValue, List.dropWhile_cons]
          rw [show jsonWs '{' = false from rfl]
          simp +decide only [Bool.false_eq_true, if_false, if_true]
          rw [ht1]
          simp only [List.cons_append, List.dropWhile_cons]
          rw [show jsonWs qtC = false from rfl]
          simp only [Bool.false_eq_true, if_false]
          split
          · rename_i heq
            rw [List.cons.injEq] at heq
            exact absurd heq.1 (by decide)
          · simp only [bind, Except.bind]
            rw [show qtC :: (t1 ++ '}' :: rest) =
              renderObj (JsonObj.cons k v tl) ++ ('}' :: rest) by
              rw [ht1, List.cons_append]]
            rw [ihO k v tl rest (by simp only [sizeJ, sizeO] at hs ⊢; omega)
              (by simpa [wfJ] using hw) hsep]
    · intro x tl rest hs hw hsep
      cases tl with
      | nil =>
        rw [show renderArr (JsonArr.cons x JsonArr.nil) = renderJson x from rfl]
        simp only [parseElems, bind, Except.bind]
        rw [ihV x (']' :: rest)
          (by simp only [sizeA, sizeJ] at hs ⊢; omega)
          (by simp only [wfA, Bool.and_eq_true] at hw; exact hw.1)
          (Or.inr (Or.inr (Or.inl rfl)))]
        simp only [List.dropWhile_cons]
        rw [show jsonWs ']' = false from rfl]
        simp only [Bool.false_eq_true, if_false]
      | cons y tl2 =>
        rw [show renderArr (JsonArr.cons x (JsonArr.cons y tl2)) ++ ']' :: rest =
          renderJson x ++ (',' :: (renderArr (JsonArr.cons y tl2) ++ ']' :: rest)) by
          rw [renderArr]
          simp]
        simp only [parseElems, bind, Except.bind]
        rw [ihV x (',' :: (renderArr (JsonArr.cons y tl2) ++ ']' :: rest))
          (by simp only [sizeA, sizeJ] at hs ⊢; omega)
          (by simp only [wfA, Bool.and_eq_true] at hw; exact hw.1)
          (Or.inr (Or.inl rfl))]
        simp only [List.dropWhile_cons]
        rw [show jsonWs ',' = false from rfl]
        simp only [Bool.false_eq_true, if_false]
        rw [ihA y tl2 rest
          (by simp only [sizeA, sizeJ] at hs ⊢; omega)
          (by simp only [wfA, Bool.and_eq_true] at hw ⊢; exact hw.2) hsep]
    · intro k v tl rest hs hw hsep
      cases tl with
      | nil =>
        rw [show renderObj (JsonObj.cons k v JsonObj.nil) ++ '}' :: rest =
          qtC :: (escapeStr k.data ++
            (qtC :: (':' :: (renderJson v ++ '}' :: rest)))) by
          rw [renderObj]
          simp]
        simp only [parseMembers, List.dropWhile_cons]
        rw [show jsonWs qtC = false from rfl]
        simp +decide only [Bool.false_eq_true, if_false, if_true]
        rw [pStrBody_escape k.data _ (':' :: (renderJson v ++ '}' :: rest))
          (by simp only [List.length_append, List.length_cons]; omega)]
        simp only [bind, Except.bind]
        simp only [List.dropWhile_cons]
        rw [show jsonWs ':' = false from rfl]
        simp only [Bool.false_eq_true, if_false, bind, Except.bind]
        rw [ihV v ('}' :: rest)
          (by simp only [sizeO, sizeJ] at hs ⊢; omega)
          (by simp only [wfO, Bool.and_eq_true] at hw; exact hw.1.2)
          (Or.inr (Or.inr (Or.inr (Or.inl rfl))))]
        simp only [List.dropWhile_cons]
        rw [show jsonWs '}' = false from rfl]
        simp only [Bool.false_eq_true, if_false]
      | cons k2 v2 tl2 =>
        rw [show renderObj (JsonObj.cons k v (JsonObj.cons k2 v2 tl2)) ++ '}' :: rest =
          qtC :: (escapeStr k.data ++
            (qtC :: (':' :: (renderJson v ++
              (',' :: (renderObj (JsonObj.cons k2 v2 tl2) ++ '}' :: rest)))))) by
          rw [renderObj]
          simp]
        simp only [parseMembers, List.dropWhile_cons]
        rw [show jsonWs qtC = false from rfl]
        simp +decide only [Bool.false_eq_true, if_false, if_true]
        rw [pStrBody_escape k.data _
          (':' :: (renderJson v ++
            (',' :: (renderObj (JsonObj.cons k2 v2 tl2) ++ '}' :: rest))))
          (by simp only [List.length_append, List.length_cons]; omega)]
        simp only [bind, Except.bind]
        simp only [List.dropWhile_cons]
        rw [show jsonWs ':' = false from rfl]
        simp only [Bool.false_eq_true, if_false]
        rw [ihV v
          (',' :: (renderObj (JsonObj.cons k2 v2 tl2) ++ '}' :: rest))
          (by simp only [sizeO, sizeJ] at hs ⊢; omega)
          (by simp only [wfO, Bool.and_eq_true] at hw; exact hw.1.2)
          (Or.inr (Or.inl rfl))]
        simp only [List.dropWhile_cons]
        rw [show jsonWs ',' = false from rfl]
        simp only [Bool.false_eq_true, if_false]
        rw [ihO k2 v2 tl2 rest
          (by simp only [sizeO, sizeJ] at hs ⊢; omega)
          (by simp only [wfO, Bool.and_eq_true] at hw ⊢; exact hw.2) hsep]
        simp only []
        rw [show String.mk k.data = k from rfl]
        rw [consKV_of_not_mem k v (JsonObj.cons k2 v2 tl2)
          (by
            simp only [wfO, Bool.and_eq_true] at hw
            have h1 := hw.1.1
            rw [Option.isNone_iff_eq_none] at h1
            exact h1)]

lemma size_le_render (n : Nat) :
    (∀ v, sizeJ v ≤ n → sizeJ v ≤ 2 * (renderJson v).length) ∧
    (∀ xs, sizeA xs ≤ n → sizeA xs ≤ 2 * (renderArr xs).length + 2) ∧
    (∀ fs, sizeO fs ≤ n → sizeO fs ≤ 2 * (renderObj fs).length + 2) := by
  induction n with
  | zero =>
    refine ⟨?_, ?_, ?_⟩
    · intro v h
      have := sizeJ_pos v
      omega
    · intro xs h
      have := sizeA_pos xs
      omega
    · intro fs h
      have := sizeO_pos fs
      omega
  | succ n ih =>
    obtain ⟨ihV, ihA, ihO⟩ := ih
    refine ⟨?_, ?_, ?_⟩
    · intro v h
      cases v with
      | null => simp [sizeJ, renderJson, litNull]
      | bool b => cases b <;> simp [sizeJ, renderJson, litTrue, litFalse]
      | str s => simp [sizeJ, renderJson]; omega
      | num w =>
        obtain ⟨c, t, hr, -⟩ := decRepr_head w
        simp only [sizeJ, renderJson, hr, List.length_cons]
        omega
      | arr xs =>
        have hx := ihA xs (by simp only [sizeJ] at h; omega)
        simp only [sizeJ, renderJson, List.length_cons, List.length_append,
          List.length_singleton]
        omega
      | obj fs =>
        have hx := ihO fs (by simp only [sizeJ] at h; omega)
        simp only [sizeJ, renderJson, List.length_cons, List.length_append,
          List.length_singleton]
        omega
    · intro xs h
      cases xs with
      | nil => simp [sizeA, renderArr]
      | cons x tl =>
        have hx := ihV x (by simp only [sizeA] at h; have := sizeA_pos tl; omega)
        have ht := ihA tl (by simp only [sizeA] at h; have := sizeJ_pos x; omega)
        cases tl with
        | nil =>
          simp only [sizeA, renderArr] at *
          omega
        | cons y tl2 =>
          simp only [sizeA, renderArr, List.length_append, List.length_cons] at *
          omega
    · intro fs h
      cases fs with
      | nil => simp [sizeO, renderObj]
      | cons k v tl =>
        have hx := ihV v (by simp only [sizeO] at h; have := sizeO_pos tl; omega)
        have ht := ihO tl (by simp only [sizeO] at h; have := sizeJ_pos v; omega)
        cases tl with
        | nil =>
          simp only [sizeO, renderObj, List.length_append, List.length_cons] at *
          omega
        | cons k2 v2 tl2 =>
          simp only [sizeO, renderObj, List.length_append, List.length_cons] at *
          omega

/-- JSON.parse inverts the compact renderer on duplicate-key-free
values. -/
lemma jsonParse_render (v : Json) (hwf : wfJ v = true) :
    jsonParse (renderJson v) = .ok v := by
  unfold jsonParse
  have hb := (size_le_render (sizeJ v)).1 v le_rfl
  have h := (parse_render (2 * (renderJson v).length + 8)).1 v []
    (by omega) hwf (Or.inl rfl)
  rw [List.append_nil] at h
  simp only [bind, Except.bind]
  rw [h]
  simp [List.dropWhile_nil]

/-! Per-record encode/decode inversion. -/

lemma mapM_encode {α : Type} (dec : Json → Option α) (enc : α → Json)
    (h : ∀ a, dec (enc a) = some a) (l : List α) :
    (l.map enc).mapM dec = some l := by
  induction l with
  | nil => rfl
  | cons a tl ih =>
    rw [List.map_cons, List.mapM_cons, h a, ih]
    rfl

lemma decodeSetType_encode (t : SetType) :
    decodeSetType (encodeSetType t) = some t := by
  cases t <;> rfl

lemma decodeTransform_encode (t : ImageTransform) :
    decodeTransform (encodeTransform t) = some t := rfl

lemma decodeWorkoutSet_encode (s : WorkoutSet) :
    decodeWorkoutSet (encodeWorkoutSet s) = some s := by
  obtain ⟨i, t, v, w⟩ := s
  cases t <;> rfl

lemma decodeWorkoutExercise_encode (e : WorkoutExercise) :
    decodeWorkoutExercise (encodeWorkoutExercise e) = some e := by
  obtain ⟨i, x, sets, rt, ra⟩ := e
  have hsets := mapM_encode decodeWorkoutSet encodeWorkoutSet
    decodeWorkoutSet_encode sets
  cases ra with
  | none =>
    simp +decide only [encodeWorkoutExercise, decodeWorkoutExercise, optField,
      Json.getField, JsonObj.get, JsonArr_toList_ofList, hsets, if_true,
      if_false]
    rfl
  | some r =>
    simp +decide only [encodeWorkoutExercise, decodeWorkoutExercise, optField,
      Json.getField, JsonObj.get, JsonArr_toList_ofList, hsets, if_true,
      if_false]
    rfl

set_option maxHeartbeats 3200000 in
lemma decodeExercise_encode (e : Exercise) :
    decodeExercise (encodeExercise e) = some e := by
  obtain ⟨i, n, mg, iu, it, nt, dw, dr, dt, drt⟩ := e
  have hmg := mapM_encode
    (fun x => match x with | .str s => some s | _ => none) Json.str
    (fun a => rfl) mg
  cases iu <;> cases it <;> cases nt <;> cases dw <;> cases dr <;>
    rcases dt with - | t <;> cases drt <;> try cases t
  all_goals
    simp +decide only [encodeExercise, decodeExercise, optField,
      Json.getField, JsonObj.get, JsonArr_toList_ofList, hmg,
      decodeTransform_encode, if_true, if_false]
  all_goals rfl

lemma decodeWorkout_encode (w : Workout) :
    decodeWorkout (encodeWorkout w) = some w := by
  obtain ⟨i, n, ds, ci, ct, exs, ca⟩ := w
  have hexs := mapM_encode decodeWorkoutExercise encodeWorkoutExercise
    decodeWorkoutExercise_encode exs
  cases ds <;> cases ci <;> cases ct
  all_goals
    simp +decide only [encodeWorkout, decodeWorkout, optField,
      Json.getField, JsonObj.get, JsonArr_toList_ofList, hexs,
      decodeTransform_encode, if_true, if_false]
  all_goals rfl

lemma decodeSettings_encode (s : AppSettings) :
    decodeSettings (encodeSettings s) = some s := rfl

/-! Every encoded record is duplicate-key free. -/

lemma wfA_ofList (l : List Json) (h : ∀ x ∈ l, wfJ x = true) :
    wfA (JsonArr.ofList l) = true := by
  induction l with
  | nil => rfl
  | cons x tl ih =>
    simp only [JsonArr.ofList, wfA, Bool.and_eq_true]
    exact ⟨h x (by simp), ih fun y hy => h y (by simp [hy])⟩

lemma wfA_ofList_str (l : List String) :
    wfA (JsonArr.ofList (l.map Json.str)) = true := by
  refine wfA_ofList _ ?_
  intro x hx
  obtain ⟨s, -, rfl⟩ := List.mem_map.mp hx
  rfl

lemma wfJ_encodeTransform (t : ImageTransform) :
    wfJ (encodeTransform t) = true := rfl

lemma wfJ_encodeWorkoutSet (s : WorkoutSet) :
    wfJ (encodeWorkoutSet s) = true := by
  obtain ⟨i, t, v, w⟩ := s
  cases t <;> rfl

lemma wfJ_encodeWorkoutExercise (e : WorkoutExercise) :
    wfJ (encodeWorkoutExercise e) = true := by
  obtain ⟨i, x, sets, rt, ra⟩ := e
  have hsets := wfA_ofList (sets.map encodeWorkoutSet) (by
    intro y hy
    obtain ⟨s, -, rfl⟩ := List.mem_map.mp hy
    exact wfJ_encodeWorkoutSet s)
  cases ra <;>
    simp +decide only [encodeWorkoutExercise, wfJ, wfO, wfA, optField,
      JsonObj.get, Option.isNone, Bool.and_eq_true, if_true, if_false] <;>
    simp [hsets]

set_option maxHeartbeats 3200000 in
lemma wfJ_encodeExercise (e : Exercise) :
    wfJ (encodeExercise e) = true := by
  obtain ⟨i, n, mg, iu, it, nt, dw, dr, dt, drt⟩ := e
  have hmg := wfA_ofList_str mg
  cases iu <;> cases it <;> cases nt <;> cases dw <;> cases dr <;>
    rcases dt with - | t <;> cases drt <;> try cases t
  all_goals
    simp +decide only [encodeExercise, wfJ, wfO, wfA, optField,
      JsonObj.get, Option.isNone, Bool.and_eq_true, if_true, if_false,
      encodeTransform, encodeSetType] <;>
    simp [hmg]

lemma wfJ_encodeWorkout (w : Workout) :
    wfJ (encodeWorkout w) = true := by
  obtain ⟨i, n, ds, ci, ct, exs, ca⟩ := w
  have hexs := wfA_ofList (exs.map encodeWorkoutExercise) (by
    intro y hy
    obtain ⟨x, -, rfl⟩ := List.mem_map.mp hy
    exact wfJ_encodeWorkoutExercise x)
  cases ds <;> cases ci <;> cases ct
  all_goals
    simp +decide only [encodeWorkout, wfJ, wfO, wfA, optField,
      JsonObj.get, Option.isNone, Bool.and_eq_true, if_true, if_false,
      encodeTransform] <;>
    simp [hexs]

lemma wfJ_exportDoc (l1 : List Exercise) (l2 : List Workout)
    (st : AppSettings) :
    wfJ (.obj (.cons "exercises"
      (.arr (JsonArr.ofList (l1.map encodeExercise)))
      (.cons "workouts" (.arr (JsonArr.ofList (l2.map encodeWorkout)))
      (.cons "settings" (encodeSettings st) .nil)))) = true := by
  have h1 := wfA_ofList (l1.map encodeExercise) (by
    intro y hy
    obtain ⟨x, -, rfl⟩ := List.mem_map.mp hy
    exact wfJ_encodeExercise x)
  have h2 := wfA_ofList (l2.map encodeWorkout) (by
    intro y hy
    obtain ⟨x, -, rfl⟩ := List.mem_map.mp hy
    exact wfJ_encodeWorkout x)
  simp +decide only [wfJ, wfO, wfA, JsonObj.get, Option.isNone,
    Bool.and_eq_true, if_true, if_false, encodeSettings]
  simp [h1, h2]

/-! Re-putting records under their own ids. -/

lemma storePut_self {α : Type} (m : List (String × α)) (k : String) (v : α)
    (h : storeGet m k = some v) : storePut m k v = m := by
  induction m with
  | nil => cases h
  | cons hd tl ih =>
    obtain ⟨k', v'⟩ := hd
    rw [storeGet] at h
    rw [storePut]
    by_cases hk : k' = k
    · rw [if_pos hk] at h ⊢
      obtain rfl := Option.some.injEq .. ▸ h
      rw [hk]
    · rw [if_neg hk] at h ⊢
      rw [ih h]

lemma assoc_get {α : Type} (idOf : α → String) :
    ∀ (m : List (String × α)),
      (∀ p ∈ m, p.1 = idOf p.2) → (m.map Prod.fst).Nodup →
      ∀ v ∈ m.map Prod.snd, storeGet m (idOf v) = some v := by
  intro m
  induction m with
  | nil => intro _ _ v hv; cases hv
  | cons hd tl ih =>
    intro hids hnd v hv
    obtain ⟨k, w⟩ := hd
    rw [List.map_cons, List.mem_cons] at hv
    rw [List.map_cons, List.nodup_cons] at hnd
    have hkw : k = idOf w := hids (k, w) (by simp)
    rcases hv with rfl | hv
    · rw [storeGet, if_pos hkw]
    · rw [storeGet]
      rw [if_neg ?_]
      · exact ih (fun p hp => hids p (by simp [hp])) hnd.2 v hv
      · intro hk
        have hmem : (idOf v) ∈ tl.map Prod.fst := by
          obtain ⟨p, hp, hpv⟩ := List.mem_map.mp hv
          have hpid := hids p (by simp [hp])
          rw [← hpv, ← hpid]
          exact List.mem_map_of_mem Prod.fst hp
        rw [← hk] at hmem
        exact hnd.1 hmem

lemma foldl_dbSaveExercise_id (l : List Exercise) :
    ∀ db : AppDB, (∀ e ∈ l, storeGet db.exercises e.id = some e) →
      l.foldl dbSaveExercise db = db := by
  induction l with
  | nil => intro db _; rfl
  | cons e tl ih =>
    intro db h
    have hstep : dbSaveExercise db e = db := by
      unfold dbSaveExercise
      rw [storePut_self _ _ _ (h e (by simp))]
    rw [List.foldl_cons, hstep]
    exact ih db fun x hx => h x (by simp [hx])

lemma storePut_replace {α : Type} (pre : List (String × α)) (tl : List (String × α))
    (k : String) (w v : α) (hk : k ∉ pre.map Prod.fst) :
    storePut (pre ++ (k, w) :: tl) k v = pre ++ (k, v) :: tl := by
  induction pre with
  | nil => simp [storePut]
  | cons hd pr ih =>
    obtain ⟨k', v'⟩ := hd
    rw [List.map_cons, List.mem_cons] at hk
    push_neg at hk
    have hk1 : ¬ (k' = k) := fun he => hk.1 (he.symm)
    rw [List.cons_append, storePut, if_neg hk1, List.cons_append]
    rw [ih hk.2]

lemma sanitizeWorkout_idem (w : Workout) :
    sanitizeWorkout (sanitizeWorkout w) = sanitizeWorkout w := by
  simp only [sanitizeWorkout, List.map_map]
  congr 1
  refine List.map_congr_left ?_
  intro e he
  simp only [Function.comp_apply]
  by_cases hz : e.restTime.isZero
  · simp [hz]
  · simp [hz]

lemma foldl_dbSaveWorkout_map (m : List (String × Workout)) :
    ∀ (db : AppDB) (pre : List (String × Workout)),
      db.workouts = pre ++ m →
      (∀ p ∈ m, p.1 = p.2.id) →
      ((pre ++ m).map Prod.fst).Nodup →
      ((m.map Prod.snd).map sanitizeWorkout).foldl dbSaveWorkout db =
        { db with workouts := pre ++ m.map fun p => (p.1, sanitizeWorkout p.2) } := by
  induction m with
  | nil =>
    intro db pre hdb _ _
    simp only [List.map_nil, List.foldl_nil, List.append_nil] at *
    rw [← hdb]
  | cons hd tl ih =>
    intro db pre hdb hids hnd
    obtain ⟨k, w⟩ := hd
    have hkid : k = w.id := hids (k, w) (by simp)
    have hkpre : k ∉ pre.map Prod.fst := by
      intro hmem
      rw [List.map_append] at hnd
      obtain ⟨hd1, hd2, hdisj⟩ := List.nodup_append.mp hnd
      exact hdisj hmem (by simp)
    have hstep : dbSaveWorkout db (sanitizeWorkout w) =
        { db with workouts := pre ++ (k, sanitizeWorkout w) :: tl } := by
      unfold dbSaveWorkout
      have hsid : (sanitizeWorkout w).id = w.id := rfl
      rw [hsid, ← hkid, hdb, storePut_replace pre tl k w (sanitizeWorkout w) hkpre]
    simp only [List.map_cons, List.foldl_cons]
    rw [hstep]
    rw [ih { db with workouts := pre ++ (k, sanitizeWorkout w) :: tl }
      (pre ++ [(k, sanitizeWorkout w)])
      (by simp)
      (fun p hp => hids p (by simp [hp]))
      (by
        have : ((pre ++ [(k, sanitizeWorkout w)]) ++ tl).map Prod.fst =
            (pre ++ (k, w) :: tl).map Prod.fst := by
          simp
        rw [this]
        exact hnd)]
    simp
